import Mathlib

/-!
# UberLineGraph: ring-buffered series store and sampling tick

A shallow embedding of `uber-line-graph.c`.  The private data of the widget is a
record, every C function becomes a function on that record, and the external
world that the registered value source may read or change is threaded through
explicitly as a state of an arbitrary type `σ`.

`g-ring.c` and `uber-graph.c` are not part of the sources at hand; the few
operations of them that the line graph calls are modelled from the
specification and marked as such.

A `gdouble` is a rational number or one of the special values, and the
operations on doubles give exact results.  The rounding of a result to binary64,
or to binary32 for a `gfloat`, is a step of its own; the render functions with
that step after every operation carry the suffix `_rounded`, and the facts about
the numbers that the code computes are stated for them.
-/

namespace Uber

/-! ## Values -/

/-- A `gdouble` as far as the series store is concerned: a finite number, one of
the two infinities, or a NaN.  The store only copies such values around and
compares them with `-INFINITY`. -/
inductive GDouble where
  | fin (q : ℚ)
  | negInf
  | posInf
  | nan
  deriving DecidableEq, Repr

/-- The C constant `-INFINITY`, used as the marker for a missing sample. -/
def NEG_INFINITY : GDouble := GDouble.negInf

/-- A `GdkColor`: pixel value and 16-bit red, green, blue components. -/
structure GdkColor where
  pixel : Nat
  red : Nat
  green : Nat
  blue : Nat
  deriving DecidableEq, Repr

/-- Result of `gdk_color_parse("#729fcf", &color)` on a zeroed `GdkColor`: each
8-bit component is widened to 16 bits, the pixel field stays 0. -/
def default_line_color : GdkColor :=
  { pixel := 0, red := 0x7272, green := 0x9f9f, blue := 0xcfcf }

/-- The `cairo_antialias_t` enumeration. -/
inductive cairo_antialias_t where
  | CAIRO_ANTIALIAS_DEFAULT
  | CAIRO_ANTIALIAS_NONE
  | CAIRO_ANTIALIAS_GRAY
  | CAIRO_ANTIALIAS_SUBPIXEL
  deriving DecidableEq, Repr

/-- A `gpointer`, kept as an address; `0` is `NULL`. -/
abbrev gpointer := Nat

/-! ## The ring buffer primitive -/

/-- Modelled from the spec: the `GRing` type of `g-ring.h`, which is missing from
the sources.  The spec describes it as a circular buffer of fixed capacity; it
is kept here as the slot array `data`, the capacity `len` (the field the line
graph reads as `ring->len`) and the write cursor `pos`, the slot that the next
append overwrites. -/
structure GRing (α : Type) where
  data : List α
  len : Nat
  pos : Nat
  deriving DecidableEq, Repr

/-- Modelled from the spec: `g_ring_sized_new` of the missing `g-ring.c`.  A ring
of fixed capacity `reserved_size`; its slots hold the zero-filled element `zero`
until they are initialised, and the cursor is at the first slot. -/
def g_ring_sized_new {α : Type} (zero : α) (reserved_size : Nat) : GRing α :=
  { data := List.replicate reserved_size zero, len := reserved_size, pos := 0 }

/-- Modelled from the spec: `g_ring_append_val` of the missing `g-ring.h`.
"Append overwrites the oldest slot in O(1)": the value is stored in the slot
under the cursor, which is the oldest one, and the cursor moves on by one slot,
wrapping to the first slot at the end of the array. -/
def g_ring_append_val {α : Type} (ring : GRing α) (val : α) : GRing α :=
  { ring with
    data := ring.data.set ring.pos val
    pos := if ring.pos + 1 < ring.len then ring.pos + 1 else 0 }

/-- Modelled from the spec: `g_ring_get_index` of the missing `g-ring.h`.
"`at(0)` returns the most recently appended value, `at(k)` the k-th
oldest-relative-to-newest": the slot `k + 1` places behind the cursor, counted
circularly.  The result is `none` when that slot lies outside the array, where
the C macro would read outside the allocation. -/
def g_ring_get_index {α : Type} (ring : GRing α) (i : Nat) : Option α :=
  if i + 1 ≤ ring.pos then ring.data[ring.pos - 1 - i]?
  else if i + 1 ≤ ring.len + ring.pos then ring.data[ring.len + ring.pos - 1 - i]?
  else none

/-- Body of the loop of `uber_line_graph_init_ring`: `n` further appends of
`-INFINITY`. -/
def uber_line_graph_init_ring_loop : Nat → GRing GDouble → GRing GDouble
  | 0, ring => ring
  | n + 1, ring => uber_line_graph_init_ring_loop n (g_ring_append_val ring NEG_INFINITY)

/-- `uber_line_graph_init_ring`: `for (i = 0; i < ring->len; i++)
g_ring_append_val(ring, -INFINITY)`. -/
def uber_line_graph_init_ring (ring : GRing GDouble) : GRing GDouble :=
  uber_line_graph_init_ring_loop ring.len ring

/-- The content of a ring read through `g_ring_get_index` at the indices
`0, 1, ..., len - 1`, newest entry first. -/
def g_ring_read {α : Type} (ring : GRing α) : List (Option α) :=
  (List.range ring.len).map (g_ring_get_index ring)

/-- A ring is well formed when its slot array has `len` slots and, unless it has
no slots at all, the cursor points at one of them. -/
def GRing.WF {α : Type} (ring : GRing α) : Prop :=
  ring.data.length = ring.len ∧ (ring.len = 0 ∨ ring.pos < ring.len)

/-! ## The graph -/

/-- A `LineInfo`: the colour of a line and its two rings of samples. -/
structure LineInfo where
  color : GdkColor
  raw_data : GRing GDouble
  scaled_data : GRing GDouble
  deriving DecidableEq, Repr

/-- An `UberLineGraphFunc`, the value source.  It is called with the 1-based line
index, the content of `*val` on entry, the registered user data and the state of
the outside world; it yields the returned flag, the content of `*val` on exit
and the state of the world afterwards.  The graph argument of the C callback is
left out: the source is assumed not to call back into the graph. -/
abbrev UberLineGraphFunc (σ : Type) := Nat → GDouble → gpointer → σ → (Bool × GDouble) × σ

/-- A `GDestroyNotify`: called with the user data, it acts on the outside world. -/
abbrev GDestroyNotify (σ : Type) := gpointer → σ → σ

/-- The `struct _UberLineGraphPrivate`. -/
structure UberLineGraphPrivate (σ : Type) where
  lines : List LineInfo
  antialias : cairo_antialias_t
  stride : Nat
  autoscale : Bool
  func : Option (UberLineGraphFunc σ)
  func_data : gpointer
  func_notify : Option (GDestroyNotify σ)

/-- Modelled from the spec: the private data of the parent class `UberGraph`,
whose `uber-graph.c` is missing.  Only the pending request for a full redraw is
kept. -/
structure UberGraphPrivate where
  full_redraw_pending : Bool
  deriving DecidableEq, Repr

/-- The `struct _UberGraph` of `uber-graph.h`. -/
structure UberGraph where
  priv : UberGraphPrivate
  deriving DecidableEq, Repr

/-- An `UberLineGraph` instance: the parent part and the private data. -/
structure UberLineGraph (σ : Type) where
  parent : UberGraph
  priv : UberLineGraphPrivate σ

/-- Modelled from the spec: `uber_graph_redraw` of the missing `uber-graph.c`,
which "triggers a full-redraw request on the owner". -/
def uber_graph_redraw (graph : UberGraph) : UberGraph :=
  { graph with priv := { graph.priv with full_redraw_pending := true } }

/-- `uber_line_graph_init`: the defaults of a new instance, on zeroed private
data.  The state of the parent part is that left by the parent initialiser. -/
def uber_line_graph_init {σ : Type} (parent : UberGraph) : UberLineGraph σ :=
  { parent := parent
    priv :=
      { lines := []
        antialias := cairo_antialias_t.CAIRO_ANTIALIAS_DEFAULT
        stride := 60
        autoscale := false
        func := none
        func_data := 0
        func_notify := none } }

/-- `uber_line_graph_set_autoscale`. -/
def uber_line_graph_set_autoscale {σ : Type} (graph : UberLineGraph σ) (autoscale : Bool) :
    UberLineGraph σ :=
  { graph with priv := { graph.priv with autoscale := autoscale } }

/-- `uber_line_graph_set_antialias`. -/
def uber_line_graph_set_antialias {σ : Type} (graph : UberLineGraph σ)
    (antialias : cairo_antialias_t) : UberLineGraph σ :=
  { parent := uber_graph_redraw graph.parent
    priv := { graph.priv with antialias := antialias } }

/-- The `LineInfo` that `uber_line_graph_add_line` builds: the given colour or
the default one, and two rings of `stride` slots initialised to `-INFINITY`. -/
def new_line_info (stride : Nat) (color : Option GdkColor) : LineInfo :=
  { color := match color with
      | some c => c
      | none => default_line_color
    raw_data := uber_line_graph_init_ring (g_ring_sized_new (GDouble.fin 0) stride)
    scaled_data := uber_line_graph_init_ring (g_ring_sized_new (GDouble.fin 0) stride) }

/-- `uber_line_graph_add_line`: returns the graph with the new line stored last
and the parent marked for redraw, and the line identifier `priv->lines->len`. -/
def uber_line_graph_add_line {σ : Type} (graph : UberLineGraph σ) (color : Option GdkColor) :
    UberLineGraph σ × Nat :=
  let info := new_line_info graph.priv.stride color
  let priv := { graph.priv with lines := graph.priv.lines ++ [info] }
  ({ parent := uber_graph_redraw graph.parent, priv := priv }, priv.lines.length)

/-- The loop of `uber_line_graph_get_next_data` over the lines from position `i`
on: `lines` are the lines not yet visited, `ret` the flag so far and `w` the
state of the world. -/
def uber_line_graph_get_next_data_loop {σ : Type} (func : UberLineGraphFunc σ)
    (func_data : gpointer) : Nat → List LineInfo → Bool → σ → (List LineInfo × Bool) × σ
  | _, [], ret, w => (([], ret), w)
  | i, line :: rest, _, w =>
    let r := func (i + 1) (GDouble.fin 0) func_data w
    let ret := r.1.1
    let val := if ret then r.1.2 else NEG_INFINITY
    let line1 : LineInfo :=
      { line with
        raw_data := g_ring_append_val line.raw_data val
        scaled_data := g_ring_append_val line.scaled_data val }
    let out := uber_line_graph_get_next_data_loop func func_data (i + 1) rest ret r.2
    ((line1 :: out.1.1, out.1.2), out.2)

/-- `uber_line_graph_get_next_data`: one sampling tick.  Yields the graph
afterwards, the returned flag and the state of the world afterwards. -/
def uber_line_graph_get_next_data {σ : Type} (graph : UberLineGraph σ) (w : σ) :
    (UberLineGraph σ × Bool) × σ :=
  match graph.priv.func with
  | some func =>
    let out := uber_line_graph_get_next_data_loop func graph.priv.func_data 0
      graph.priv.lines false w
    (({ graph with priv := { graph.priv with lines := out.1.1 } }, out.1.2), out.2)
  | none => ((graph, false), w)

/-- `uber_line_graph_set_data_func`: the notifier of the previous registration,
if there is one, is run on the previous user data, then the new triple is
stored. -/
def uber_line_graph_set_data_func {σ : Type} (graph : UberLineGraph σ)
    (func : Option (UberLineGraphFunc σ)) (user_data : gpointer)
    (notify : Option (GDestroyNotify σ)) (w : σ) : UberLineGraph σ × σ :=
  let w1 := match graph.priv.func_notify with
    | some func_notify => func_notify graph.priv.func_data w
    | none => w
  ({ graph with
     priv := { graph.priv with func := func, func_data := user_data, func_notify := notify } },
   w1)

/-- The loop body of `uber_line_graph_set_stride` for one line: both rings are
dropped and replaced by new ones of `stride` slots initialised to `-INFINITY`. -/
def uber_line_graph_set_stride_line (stride : Nat) (line : LineInfo) : LineInfo :=
  { line with
    raw_data := uber_line_graph_init_ring (g_ring_sized_new (GDouble.fin 0) stride)
    scaled_data := uber_line_graph_init_ring (g_ring_sized_new (GDouble.fin 0) stride) }

/-- `uber_line_graph_set_stride`: stores the stride and, if there are lines,
reallocates the rings of every line.  The function returns nothing. -/
def uber_line_graph_set_stride {σ : Type} (graph : UberLineGraph σ) (stride : Nat) :
    UberLineGraph σ :=
  let priv := { graph.priv with stride := stride }
  if priv.lines.length ≠ 0 then
    { graph with
      priv := { priv with lines := priv.lines.map (uber_line_graph_set_stride_line priv.stride) } }
  else
    { graph with priv := priv }

/-! ## Runs of the graph -/

/-- The ring that `uber_line_graph_add_line` and `uber_line_graph_set_stride`
install: `stride` slots, all initialised to `-INFINITY`. -/
def fresh_ring (stride : Nat) : GRing GDouble :=
  uber_line_graph_init_ring (g_ring_sized_new (GDouble.fin 0) stride)

/-- A line after one sample `val` has been appended to both of its rings. -/
def LineInfo.sample (line : LineInfo) (val : GDouble) : LineInfo :=
  { line with
    raw_data := g_ring_append_val line.raw_data val
    scaled_data := g_ring_append_val line.scaled_data val }

/-- State of the world after the value source has been queried, within one tick,
for the `j` lines that follow position `i` (line indices `i + 1, ..., i + j`),
starting from the world `w`. -/
def world_before {σ : Type} (func : UberLineGraphFunc σ) (func_data : gpointer) :
    Nat → Nat → σ → σ
  | _, 0, w => w
  | i, j + 1, w => world_before func func_data (i + 1) j (func (i + 1) (GDouble.fin 0) func_data w).2

/-- What the value source answers, in a tick that starts in the world `w`, when
it is queried for the line at position `j` (line index `j + 1`): the returned
flag and the content of `*val` on exit. -/
def source_result {σ : Type} (func : UberLineGraphFunc σ) (func_data : gpointer) (j : Nat)
    (w : σ) : Bool × GDouble :=
  (func (j + 1) (GDouble.fin 0) func_data (world_before func func_data 0 j w)).1

/-- The value a tick stores for an answer of the source: the value written on
success, `-INFINITY` on failure. -/
def sampled_value (r : Bool × GDouble) : GDouble :=
  if r.1 then r.2 else NEG_INFINITY

/-- The graph and the world after `n` sampling ticks in a row. -/
def sampling_ticks {σ : Type} : Nat → UberLineGraph σ × σ → UberLineGraph σ × σ
  | 0, s => s
  | n + 1, s =>
    ((uber_line_graph_get_next_data (sampling_ticks n s).1 (sampling_ticks n s).2).1.1,
     (uber_line_graph_get_next_data (sampling_ticks n s).1 (sampling_ticks n s).2).2)

/-- A value source instrumented with a call log: it answers as `func` does and
records, in the second component of the world, the line index of each call. -/
def logged {σ : Type} (func : UberLineGraphFunc σ) : UberLineGraphFunc (σ × List Nat) :=
  fun i val func_data s =>
    ((func i val func_data s.1).1, ((func i val func_data s.1).2, s.2 ++ [i]))

/-- A value source that plays back a script: the world is the list of values
still to be delivered; a call succeeds with the first of them and removes it,
and fails once the script is used up. -/
def scripted_source : UberLineGraphFunc (List GDouble) :=
  fun _ _ _ w =>
    match w with
    | v :: rest => ((true, v), rest)
    | [] => ((false, GDouble.fin 0), [])

/-- A parent part with no redraw pending. -/
def example_parent : UberGraph := { priv := { full_redraw_pending := false } }

/-- A new graph whose stride has been set to `stride` and on which the scripted
source has been registered, still without lines. -/
def example_graph (stride : Nat) : UberLineGraph (List GDouble) :=
  (uber_line_graph_set_data_func
    (uber_line_graph_set_stride (uber_line_graph_init example_parent) stride)
    (some scripted_source) 0 none []).1

/-- A graph of stride 4 with one line, after four ticks that delivered 1, 2, 3
and 4. -/
def example_full : UberLineGraph (List GDouble) :=
  (sampling_ticks 4 ((uber_line_graph_add_line (example_graph 4) none).1,
    [GDouble.fin 1, GDouble.fin 2, GDouble.fin 3, GDouble.fin 4])).1

/-- The line of `example_full`: both rings hold 1, 2, 3, 4 and the cursor has
wrapped to the first slot. -/
def example_full_line : LineInfo :=
  { color := default_line_color
    raw_data :=
      { data := [GDouble.fin 1, GDouble.fin 2, GDouble.fin 3, GDouble.fin 4], len := 4, pos := 0 }
    scaled_data :=
      { data := [GDouble.fin 1, GDouble.fin 2, GDouble.fin 3, GDouble.fin 4], len := 4, pos := 0 } }

/-- Consecutive calls of `uber_line_graph_add_line`, one for each colour of the
list: the graph afterwards and the identifiers returned, in call order. -/
def add_lines {σ : Type} : List (Option GdkColor) → UberLineGraph σ → UberLineGraph σ × List Nat
  | [], g => (g, [])
  | color :: colors, g =>
    ((add_lines colors (uber_line_graph_add_line g color).1).1,
     (uber_line_graph_add_line g color).2 ::
       (add_lines colors (uber_line_graph_add_line g color).1).2)

/-- A value source without state that fails for line 2, after writing a value,
and succeeds for every other line; it writes 10 for line 1, 20 for line 2 and 30
for any other line. -/
def fails_for_two : UberLineGraphFunc Unit :=
  fun i _ _ w =>
    ((i != 2, if i = 1 then GDouble.fin 10 else if i = 2 then GDouble.fin 20 else GDouble.fin 30),
     w)

/-- A new graph with the stride set to 4 and three lines added, without a value
source. -/
def example_three_lines {σ : Type} : UberLineGraph σ :=
  (uber_line_graph_add_line (uber_line_graph_add_line (uber_line_graph_add_line
    (uber_line_graph_set_stride (uber_line_graph_init example_parent) 4) none).1 none).1 none).1

/-- The graph `example_three_lines` with `fails_for_two` registered. -/
def example_three : UberLineGraph Unit :=
  (uber_line_graph_set_data_func example_three_lines (some fails_for_two) 0 none ()).1

/-- The graph `example_three_lines` with the logged `fails_for_two` registered. -/
def example_three_logged : UberLineGraph (Unit × List Nat) :=
  (uber_line_graph_set_data_func example_three_lines (some (logged fails_for_two)) 0 none
    ((), [])).1

/-- A new graph with the stride set to 4 and one line added; no value source has
been registered. -/
def example_unregistered : UberLineGraph Unit :=
  (uber_line_graph_add_line (uber_line_graph_set_stride (uber_line_graph_init example_parent) 4)
    none).1

/-- The invariant of a line in a graph of the given stride: the raw ring is well
formed and has `stride` slots, and the scaled ring equals the raw ring. -/
def LineInfo.WF (stride : Nat) (line : LineInfo) : Prop :=
  line.raw_data.WF ∧ line.raw_data.len = stride ∧ line.scaled_data = line.raw_data

/-- The states a line graph and the outside world can be in: those of a newly
initialised graph, and those reached from there by adding a line, setting the
stride, a sampling tick, registering a value source, setting the autoscale or
the antialias mode, or by any change of the outside world. -/
inductive Reachable {σ : Type} : UberLineGraph σ → σ → Prop where
  | init (parent : UberGraph) (w : σ) : Reachable (uber_line_graph_init parent) w
  | add_line {g : UberLineGraph σ} {w : σ} (color : Option GdkColor) :
      Reachable g w → Reachable (uber_line_graph_add_line g color).1 w
  | set_stride {g : UberLineGraph σ} {w : σ} (stride : Nat) :
      Reachable g w → Reachable (uber_line_graph_set_stride g stride) w
  | get_next_data {g : UberLineGraph σ} {w : σ} :
      Reachable g w →
        Reachable (uber_line_graph_get_next_data g w).1.1 (uber_line_graph_get_next_data g w).2
  | set_data_func {g : UberLineGraph σ} {w : σ} (func : Option (UberLineGraphFunc σ))
      (user_data : gpointer) (notify : Option (GDestroyNotify σ)) :
      Reachable g w →
        Reachable (uber_line_graph_set_data_func g func user_data notify w).1
          (uber_line_graph_set_data_func g func user_data notify w).2
  | set_autoscale {g : UberLineGraph σ} {w : σ} (autoscale : Bool) :
      Reachable g w → Reachable (uber_line_graph_set_autoscale g autoscale) w
  | set_antialias {g : UberLineGraph σ} {w : σ} (antialias : cairo_antialias_t) :
      Reachable g w → Reachable (uber_line_graph_set_antialias g antialias) w
  | world {g : UberLineGraph σ} {w : σ} (w1 : σ) : Reachable g w → Reachable g w1

/-! ## Arithmetic on doubles and the drawing operations -/

/-- An integer converted to `double`. -/
def GDouble.ofInt (n : Int) : GDouble := GDouble.fin n

/-- An unsigned integer converted to `double`. -/
def GDouble.ofNat (n : Nat) : GDouble := GDouble.fin n

/-- Subtraction of doubles.  Finite results are exact: rounding and overflow of
the binary format are not part of this operation, they are applied to its result
by `GDouble.to_binary64`.  NaN propagates and the difference of two equal
infinities is NaN. -/
def GDouble.sub : GDouble → GDouble → GDouble
  | GDouble.fin a, GDouble.fin b => GDouble.fin (a - b)
  | GDouble.nan, _ => GDouble.nan
  | _, GDouble.nan => GDouble.nan
  | GDouble.posInf, GDouble.posInf => GDouble.nan
  | GDouble.negInf, GDouble.negInf => GDouble.nan
  | GDouble.posInf, _ => GDouble.posInf
  | GDouble.negInf, _ => GDouble.negInf
  | GDouble.fin _, GDouble.posInf => GDouble.negInf
  | GDouble.fin _, GDouble.negInf => GDouble.posInf

/-- The infinity with the sign of `positive`. -/
def GDouble.inf (positive : Bool) : GDouble :=
  if positive then GDouble.posInf else GDouble.negInf

/-- Multiplication of doubles, exact on finite operands; zero times an infinity
is NaN. -/
def GDouble.mul : GDouble → GDouble → GDouble
  | GDouble.fin a, GDouble.fin b => GDouble.fin (a * b)
  | GDouble.nan, _ => GDouble.nan
  | _, GDouble.nan => GDouble.nan
  | GDouble.fin a, GDouble.posInf => if a = 0 then GDouble.nan else GDouble.inf (decide (0 < a))
  | GDouble.fin a, GDouble.negInf => if a = 0 then GDouble.nan else GDouble.inf (decide (a < 0))
  | GDouble.posInf, GDouble.fin b => if b = 0 then GDouble.nan else GDouble.inf (decide (0 < b))
  | GDouble.negInf, GDouble.fin b => if b = 0 then GDouble.nan else GDouble.inf (decide (b < 0))
  | GDouble.posInf, GDouble.posInf => GDouble.posInf
  | GDouble.negInf, GDouble.negInf => GDouble.posInf
  | GDouble.posInf, GDouble.negInf => GDouble.negInf
  | GDouble.negInf, GDouble.posInf => GDouble.negInf

/-- Division of doubles, exact on finite operands.  A zero divisor is taken as
the positive zero, which is what `stride - 1.` is for a stride of 1. -/
def GDouble.div : GDouble → GDouble → GDouble
  | GDouble.fin a, GDouble.fin b =>
    if b = 0 then (if a = 0 then GDouble.nan else GDouble.inf (decide (0 < a)))
    else GDouble.fin (a / b)
  | GDouble.nan, _ => GDouble.nan
  | _, GDouble.nan => GDouble.nan
  | GDouble.fin _, GDouble.posInf => GDouble.fin 0
  | GDouble.fin _, GDouble.negInf => GDouble.fin 0
  | GDouble.posInf, GDouble.fin b => GDouble.inf (decide (0 ≤ b))
  | GDouble.negInf, GDouble.fin b => GDouble.inf (decide (b < 0))
  | GDouble.posInf, GDouble.posInf => GDouble.nan
  | GDouble.posInf, GDouble.negInf => GDouble.nan
  | GDouble.negInf, GDouble.posInf => GDouble.nan
  | GDouble.negInf, GDouble.negInf => GDouble.nan

/-- The C macro `isnan`. -/
def isnan (d : GDouble) : Bool :=
  match d with
  | GDouble.nan => true
  | _ => false

/-- The C macro `isinf`. -/
def isinf (d : GDouble) : Bool :=
  match d with
  | GDouble.posInf => true
  | GDouble.negInf => true
  | _ => false

/-- Conversion of a double to `guint`, as in the assignments to `x` and `y` of
`uber_line_graph_render_line`: the fractional part is discarded.  For a value
that is not convertible C leaves the result open; it is then what `undef` gives. -/
def to_guint (undef : GDouble → Nat) (d : GDouble) : Nat :=
  match d with
  | GDouble.fin q => if -1 < q ∧ q < 4294967296 then (Int.floor q).toNat else undef d
  | _ => undef d

/-- A `GdkRectangle`. -/
structure GdkRectangle where
  x : Int
  y : Int
  width : Int
  height : Int
  deriving DecidableEq, Repr

/-- The macro `RECT_BOTTOM`. -/
def RECT_BOTTOM (r : GdkRectangle) : Int := r.y + r.height

/-- The macro `RECT_RIGHT`. -/
def RECT_RIGHT (r : GdkRectangle) : Int := r.x + r.width

/-- The calls made on the cairo context, which is where the output of the
render functions goes. -/
inductive cairo_op where
  | set_line_width (width : GDouble)
  | set_line_cap_round
  | set_line_join_round
  | set_antialias (antialias : cairo_antialias_t)
  | set_source_color (color : GdkColor)
  | new_path
  | move_to (x y : GDouble)
  | curve_to (x1 y1 x2 y2 x3 y3 : GDouble)
  | stroke
  deriving DecidableEq, Repr

/-- The loop of `uber_line_graph_render_line` from index `i` on, with `n`
iterations left before `i` reaches `raw_data->len`; `last_x` and `last_y` are
the coordinates kept from the iteration before.  The result is `none` if a read
falls outside the ring. -/
def uber_line_graph_render_line_loop (undef : GDouble → Nat) (area : GdkRectangle)
    (each : GDouble) (x_epoch : Nat) (raw_data : GRing GDouble) :
    Nat → Nat → Nat → Nat → Option (List cairo_op)
  | 0, _, _, _ => some []
  | n + 1, i, last_x, last_y =>
    match g_ring_get_index raw_data i with
    | none => none
    | some val =>
      if val = NEG_INFINITY then some []
      else
        let y := to_guint undef (GDouble.sub (GDouble.ofInt (area.y + area.height)) val)
        let x := to_guint undef
          (GDouble.sub (GDouble.ofNat x_epoch) (GDouble.mul each (GDouble.ofNat i)))
        let op :=
          if i = 0 then cairo_op.move_to (GDouble.ofNat x) (GDouble.ofNat y)
          else cairo_op.curve_to
            (GDouble.sub (GDouble.ofNat last_x) (GDouble.div each (GDouble.fin 2)))
            (GDouble.ofNat last_y)
            (GDouble.sub (GDouble.ofNat last_x) (GDouble.div each (GDouble.fin 2)))
            (GDouble.ofNat y) (GDouble.ofNat x) (GDouble.ofNat y)
        match uber_line_graph_render_line_loop undef area each x_epoch raw_data n (i + 1) x y with
        | none => none
        | some ops => some (op :: ops)

/-- The number of pixels per data point that `uber_line_graph_render_line`
computes, `area->width / ((gfloat)priv->stride - 1.)`, as an exact quotient; the
cast and the roundings are in `render_each_rounded`. -/
def render_each (area : GdkRectangle) (stride : Nat) : GDouble :=
  GDouble.div (GDouble.ofInt area.width) (GDouble.sub (GDouble.ofNat stride) (GDouble.fin 1))

/-- The right end of the drawing area that `uber_line_graph_render_line` keeps
in the unsigned `x_epoch`: `area->x + area->width`, reduced modulo `2^32`. -/
def render_x_epoch (area : GdkRectangle) : Nat :=
  ((area.x + area.width) % 4294967296).toNat

/-- `uber_line_graph_render_line`: the cairo calls made for one line.  The
variables `last_x` and `last_y` are not initialised in C and not read in the
first iteration; they start as 0 here. -/
def uber_line_graph_render_line {σ : Type} (undef : GDouble → Nat) (graph : UberLineGraph σ)
    (area : GdkRectangle) (line : LineInfo) : Option (List cairo_op) :=
  let each := render_each area graph.priv.stride
  let x_epoch := render_x_epoch area
  match uber_line_graph_render_line_loop undef area each x_epoch line.raw_data
      line.raw_data.len 0 0 0 with
  | none => none
  | some path =>
    some ([cairo_op.set_line_width (GDouble.fin 1),
           cairo_op.set_antialias graph.priv.antialias,
           cairo_op.set_source_color line.color,
           cairo_op.new_path] ++ path ++ [cairo_op.stroke])

/-- The loop of `uber_line_graph_render` over the lines. -/
def uber_line_graph_render_loop {σ : Type} (undef : GDouble → Nat) (graph : UberLineGraph σ)
    (rect : GdkRectangle) : List LineInfo → Option (List cairo_op)
  | [] => some []
  | line :: rest =>
    match uber_line_graph_render_line undef graph rect line,
      uber_line_graph_render_loop undef graph rect rest with
    | some ops, some more => some (ops ++ more)
    | _, _ => none

/-- `uber_line_graph_render`: the full render, line after line. -/
def uber_line_graph_render {σ : Type} (undef : GDouble → Nat) (graph : UberLineGraph σ)
    (rect : GdkRectangle) : Option (List cairo_op) :=
  uber_line_graph_render_loop undef graph rect graph.priv.lines

/-- The segment that `uber_line_graph_render_fast` draws for two finite values
`y` (newest) and `last_y`: the calls from `cairo_new_path` to `cairo_stroke`,
with exact arithmetic; the roundings are in `render_fast_segment_rounded`. -/
def render_fast_segment (rect : GdkRectangle) (epoch : Nat) (each : GDouble)
    (y last_y : GDouble) : List cairo_op :=
  let y1 := GDouble.sub (GDouble.ofInt (RECT_BOTTOM rect)) y
  let last_y1 := GDouble.sub (GDouble.ofInt (RECT_BOTTOM rect)) last_y
  [cairo_op.new_path,
   cairo_op.move_to (GDouble.ofNat epoch) y1,
   cairo_op.curve_to
     (GDouble.sub (GDouble.ofNat epoch) (GDouble.div each (GDouble.fin 2))) y1
     (GDouble.sub (GDouble.ofNat epoch) (GDouble.div each (GDouble.fin 2))) last_y1
     (GDouble.sub (GDouble.ofNat epoch) each) last_y1,
   cairo_op.stroke]

/-- The body of the loop of `uber_line_graph_render_fast` for one line.  The
result is `none` if one of the two reads falls outside the ring. -/
def uber_line_graph_render_fast_line (rect : GdkRectangle) (epoch : Nat) (each : GDouble)
    (line : LineInfo) : Option (List cairo_op) :=
  match g_ring_get_index line.scaled_data 0, g_ring_get_index line.scaled_data 1 with
  | some y, some last_y =>
    if (isnan y || isinf y) || (isnan last_y || isinf last_y) then
      some [cairo_op.set_source_color line.color]
    else
      some (cairo_op.set_source_color line.color :: render_fast_segment rect epoch each y last_y)
  | _, _ => none

/-- The loop of `uber_line_graph_render_fast` over the lines. -/
def uber_line_graph_render_fast_loop (rect : GdkRectangle) (epoch : Nat) (each : GDouble) :
    List LineInfo → Option (List cairo_op)
  | [] => some []
  | line :: rest =>
    match uber_line_graph_render_fast_line rect epoch each line,
      uber_line_graph_render_fast_loop rect epoch each rest with
    | some ops, some more => some (ops ++ more)
    | _, _ => none

/-- `uber_line_graph_render_fast`: the incremental render. -/
def uber_line_graph_render_fast {σ : Type} (graph : UberLineGraph σ) (rect : GdkRectangle)
    (epoch : Nat) (each : GDouble) : Option (List cairo_op) :=
  match uber_line_graph_render_fast_loop rect epoch each graph.priv.lines with
  | none => none
  | some ops =>
    some ([cairo_op.set_line_width (GDouble.fin 1),
           cairo_op.set_line_cap_round,
           cairo_op.set_line_join_round,
           cairo_op.set_antialias cairo_antialias_t.CAIRO_ANTIALIAS_DEFAULT] ++ ops)

/-- `uber_line_graph_finalize`: the rings of every line are released, which calls
nothing outside since they were created without an element destructor, and the
finalizer of the parent class runs.  That finalizer is handed the parent part
only; the private data of the line graph is out of its reach. -/
def uber_line_graph_finalize {σ : Type} (parent_finalize : UberGraph → σ → σ)
    (graph : UberLineGraph σ) (w : σ) : σ :=
  parent_finalize graph.parent w

/-! ## Reading the output of the render functions -/

/-- A double that is neither a NaN nor an infinity. -/
def is_finite (d : GDouble) : Bool := !(isnan d || isinf d)

/-- The calls that put a point on the current path. -/
def is_point : cairo_op → Bool
  | cairo_op.move_to _ _ => true
  | cairo_op.curve_to _ _ _ _ _ _ => true
  | _ => false

/-- The calls that draw a Bezier segment. -/
def is_curve : cairo_op → Bool
  | cairo_op.curve_to _ _ _ _ _ _ => true
  | _ => false

/-- The calls that start a path at a point. -/
def is_move : cairo_op → Bool
  | cairo_op.move_to _ _ => true
  | _ => false

/-- The calls that stroke the current path. -/
def is_stroke : cairo_op → Bool
  | cairo_op.stroke => true
  | _ => false

/-- Number of points put on a path by a list of calls. -/
def count_points (ops : List cairo_op) : Nat := (ops.filter is_point).length

/-- Number of Bezier segments drawn by a list of calls. -/
def count_curves (ops : List cairo_op) : Nat := (ops.filter is_curve).length

/-- Number of `cairo_move_to` calls in a list of calls. -/
def count_moves (ops : List cairo_op) : Nat := (ops.filter is_move).length

/-- Number of `cairo_stroke` calls in a list of calls. -/
def count_strokes (ops : List cairo_op) : Nat := (ops.filter is_stroke).length

/-- The values at the front of a list of reads, up to the first `-INFINITY` (or
the first failed read). -/
def valid_front : List (Option GDouble) → List GDouble
  | [] => []
  | none :: _ => []
  | some v :: rest => if v = NEG_INFINITY then [] else v :: valid_front rest

/-- A double stored in a `guint` variable and read back. -/
def snap_guint (undef : GDouble → Nat) (d : GDouble) : GDouble :=
  GDouble.ofNat (to_guint undef d)

/-- The curves of a path drawn by the geometry rule of the specification, for
the values `vs` from point number `i` on; `px` and `py` are the coordinates of
the point before.  Point `i` lies at `x(i) = snap (right - each * i)` and
`y(i) = snap (bottom - v(i))`; the control points of the curve to it are
`(x(i-1) - each / 2, y(i-1))` and `(x(i-1) - each / 2, y(i))`.  With `snap` the
identity the coordinates are those of the specification. -/
def rule_curves (snap : GDouble → GDouble) (bottom right each : GDouble) :
    Nat → GDouble → GDouble → List GDouble → List cairo_op
  | _, _, _, [] => []
  | i, px, py, v :: rest =>
    let x := snap (GDouble.sub right (GDouble.mul each (GDouble.ofNat i)))
    let y := snap (GDouble.sub bottom v)
    cairo_op.curve_to (GDouble.sub px (GDouble.div each (GDouble.fin 2))) py
        (GDouble.sub px (GDouble.div each (GDouble.fin 2))) y x y
      :: rule_curves snap bottom right each (i + 1) x y rest

/-- The path drawn by the geometry rule of the specification for the values `vs`,
newest first: a move to the first point and a curve to every further point. -/
def rule_path (snap : GDouble → GDouble) (bottom right each : GDouble) (vs : List GDouble) :
    List cairo_op :=
  match vs with
  | [] => []
  | v :: rest =>
    let x := snap (GDouble.sub right (GDouble.mul each (GDouble.ofNat 0)))
    let y := snap (GDouble.sub bottom v)
    cairo_op.move_to x y :: rule_curves snap bottom right each 1 x y rest

/-- The calls of `uber_line_graph_render_line` that come before the path. -/
def render_line_preamble {σ : Type} (graph : UberLineGraph σ) (line : LineInfo) :
    List cairo_op :=
  [cairo_op.set_line_width (GDouble.fin 1),
   cairo_op.set_antialias graph.priv.antialias,
   cairo_op.set_source_color line.color,
   cairo_op.new_path]

/-- The calls of `uber_line_graph_render_fast` that come before the loop. -/
def render_fast_preamble : List cairo_op :=
  [cairo_op.set_line_width (GDouble.fin 1),
   cairo_op.set_line_cap_round,
   cairo_op.set_line_join_round,
   cairo_op.set_antialias cairo_antialias_t.CAIRO_ANTIALIAS_DEFAULT]

/-- A teardown hook that records the user data it is called with. -/
def log_notify : GDestroyNotify (List gpointer) :=
  fun user_data w => w ++ [user_data]

/-- A value source that ignores the world and always fails. -/
def failing_source {σ : Type} : UberLineGraphFunc σ :=
  fun _ val _ w => ((false, val), w)

/-- A graph of stride 4 with one line, after two ticks: the source delivered 1
in the first and failed in the second. -/
def example_gap : UberLineGraph (List GDouble) :=
  (sampling_ticks 2 ((uber_line_graph_add_line (example_graph 4) none).1, [GDouble.fin 1])).1

/-- A graph of stride 4 with one line, after two ticks that delivered 3 and 4. -/
def example_two_values : UberLineGraph (List GDouble) :=
  (sampling_ticks 2 ((uber_line_graph_add_line (example_graph 4) none).1,
    [GDouble.fin 3, GDouble.fin 4])).1

/-- The line of `example_two_values`. -/
def example_two_values_line : LineInfo :=
  { color := default_line_color
    raw_data :=
      { data := [GDouble.fin 3, GDouble.fin 4, GDouble.negInf, GDouble.negInf], len := 4,
        pos := 2 }
    scaled_data :=
      { data := [GDouble.fin 3, GDouble.fin 4, GDouble.negInf, GDouble.negInf], len := 4,
        pos := 2 } }

/-- A new graph on which two value sources are registered one after the other,
with the user data 11 and 22 and the recording teardown hook, and which is then
finalized: the world afterwards, which lists the user data torn down. -/
def example_teardown_log : List gpointer :=
  let g0 : UberLineGraph (List gpointer) := uber_line_graph_init example_parent
  let s1 := uber_line_graph_set_data_func g0 (some failing_source) 11 (some log_notify) []
  let s2 := uber_line_graph_set_data_func s1.1 (some failing_source) 22 (some log_notify) s1.2
  uber_line_graph_finalize (fun _ w => w) s2.1 s2.2

/-- The graph `example_three` after two ticks: lines 1 and 3 hold 10, 10 and
30, 30, and line 2, for which the source fails, holds sentinels only. -/
def example_three_sampled : UberLineGraph Unit :=
  (sampling_ticks 2 (example_three, ())).1

/-- A line of `example_three_sampled`, given the value of its two samples. -/
def example_three_sampled_line (v : GDouble) : LineInfo :=
  { color := default_line_color
    raw_data := { data := [v, v, GDouble.negInf, GDouble.negInf], len := 4, pos := 2 }
    scaled_data := { data := [v, v, GDouble.negInf, GDouble.negInf], len := 4, pos := 2 } }

/-! ## The coordinates of the full render -/

/-- The value stored in the unsigned `x` in iteration `i` of the loop of
`uber_line_graph_render_line`: `x_epoch - (each * i)`, converted to `guint`. -/
def render_line_x (undef : GDouble → Nat) (area : GdkRectangle) (stride : Nat) (i : Nat) : Nat :=
  to_guint undef
    (GDouble.sub (GDouble.ofNat (render_x_epoch area))
      (GDouble.mul (render_each area stride) (GDouble.ofNat i)))

/-! ## Rounding to the binary formats

The arithmetic above is exact.  The C code computes in `gdouble` (binary64) and,
where a `gfloat` is involved, in binary32: every operation gives the exact result
rounded to the format.  The definitions of this section make that rounding
explicit; with the identity in place of the rounding they are the definitions
above. -/

/-- Rounding of a rational to the nearest integer, a tie going to the even one. -/
def round_half_even (x : ℚ) : ℤ :=
  if x - (Int.floor x : ℚ) < 1 / 2 then Int.floor x
  else if 1 / 2 < x - (Int.floor x : ℚ) then Int.floor x + 1
  else if Int.floor x % 2 = 0 then Int.floor x
  else Int.floor x + 1

/-- Rounding of a rational to the binary floating-point format with `p` bits of
significand and exponents from `emin` to `emax`, to the nearest value of the
format with ties to even.  The spacing of the format around `q` is
`2 ^ (e - (p - 1))`, where `2 ^ e ≤ |q| < 2 ^ (e + 1)` and `e` is not taken
below `emin` (the subnormal range); a result of magnitude `2 ^ (emax + 1)` or
more becomes an infinity.  The sign of a zero is not kept. -/
def round_binary (p : Nat) (emin emax : Int) (q : ℚ) : GDouble :=
  if q = 0 then GDouble.fin 0
  else
    let e : Int := max (Int.log 2 |q|) emin
    let ulp : ℚ := (2 : ℚ) ^ (e - ((p : Int) - 1))
    let r : ℚ := (round_half_even (q / ulp) : ℚ) * ulp
    if (2 : ℚ) ^ (emax + 1) ≤ |r| then GDouble.inf (decide (0 < q)) else GDouble.fin r

/-- Rounding to binary64, the format of `gdouble`. -/
def binary64 (q : ℚ) : GDouble := round_binary 53 (-1022) 1023 q

/-- Rounding to binary32, the format of `gfloat`. -/
def binary32 (q : ℚ) : GDouble := round_binary 24 (-126) 127 q

/-- An exact result stored in a `gdouble`. -/
def GDouble.to_binary64 : GDouble → GDouble
  | GDouble.fin q => binary64 q
  | d => d

/-- An exact result stored in a `gfloat`. -/
def GDouble.to_binary32 : GDouble → GDouble
  | GDouble.fin q => binary32 q
  | d => d

/-- The number of pixels per data point of `uber_line_graph_render_line` with
its roundings: `area->width / ((gfloat)priv->stride - 1.)`.  The stride is
rounded to a `gfloat` by the cast; the difference and the quotient are formed in
`gdouble`.  The 32-bit integers `area->width` and `1` are doubles as they are. -/
def render_each_rounded (rnd32 rnd64 : GDouble → GDouble) (area : GdkRectangle)
    (stride : Nat) : GDouble :=
  rnd64 (GDouble.div (GDouble.ofInt area.width)
    (rnd64 (GDouble.sub (rnd32 (GDouble.ofNat stride)) (GDouble.fin 1))))

/-- The double that `uber_line_graph_render_line` converts to the unsigned `x`
in iteration `i`: `x_epoch - (each * i)`, the product and the difference rounded
to `gdouble`. -/
def render_line_x_double (rnd64 : GDouble → GDouble) (x_epoch : Nat) (each : GDouble)
    (i : Nat) : GDouble :=
  rnd64 (GDouble.sub (GDouble.ofNat x_epoch) (rnd64 (GDouble.mul each (GDouble.ofNat i))))

/-- The double that `uber_line_graph_render_line` converts to the unsigned `y`
for the value `val`: `area->y + area->height - val`, rounded to `gdouble`. -/
def render_line_y_double (rnd64 : GDouble → GDouble) (area : GdkRectangle) (val : GDouble) :
    GDouble :=
  rnd64 (GDouble.sub (GDouble.ofInt (area.y + area.height)) val)

/-- The loop of `uber_line_graph_render_line` with its roundings, from index `i`
on with `n` iterations left.  It is `uber_line_graph_render_line_loop` with
`rnd64` applied to the result of every operation on doubles.  Besides the cairo
calls the result lists, in program order, the doubles that the assignments to
`y` and `x` convert to `guint`. -/
def uber_line_graph_render_line_loop_rounded (rnd64 : GDouble → GDouble)
    (undef : GDouble → Nat) (area : GdkRectangle) (each : GDouble) (x_epoch : Nat)
    (raw_data : GRing GDouble) :
    Nat → Nat → Nat → Nat → Option (List cairo_op × List GDouble)
  | 0, _, _, _ => some ([], [])
  | n + 1, i, last_x, last_y =>
    match g_ring_get_index raw_data i with
    | none => none
    | some val =>
      if val = NEG_INFINITY then some ([], [])
      else
        let y := to_guint undef (render_line_y_double rnd64 area val)
        let x := to_guint undef (render_line_x_double rnd64 x_epoch each i)
        let op :=
          if i = 0 then cairo_op.move_to (GDouble.ofNat x) (GDouble.ofNat y)
          else cairo_op.curve_to
            (rnd64 (GDouble.sub (GDouble.ofNat last_x) (rnd64 (GDouble.div each (GDouble.fin 2)))))
            (GDouble.ofNat last_y)
            (rnd64 (GDouble.sub (GDouble.ofNat last_x) (rnd64 (GDouble.div each (GDouble.fin 2)))))
            (GDouble.ofNat y) (GDouble.ofNat x) (GDouble.ofNat y)
        match uber_line_graph_render_line_loop_rounded rnd64 undef area each x_epoch raw_data
            n (i + 1) x y with
        | none => none
        | some (ops, converted) =>
          some (op :: ops,
            render_line_y_double rnd64 area val
              :: render_line_x_double rnd64 x_epoch each i :: converted)

/-- `uber_line_graph_render_line` with its roundings: the cairo calls made for
one line and the doubles that were converted to `guint` on the way. -/
def uber_line_graph_render_line_rounded {σ : Type} (rnd32 rnd64 : GDouble → GDouble)
    (undef : GDouble → Nat) (graph : UberLineGraph σ) (area : GdkRectangle) (line : LineInfo) :
    Option (List cairo_op × List GDouble) :=
  let each := render_each_rounded rnd32 rnd64 area graph.priv.stride
  let x_epoch := render_x_epoch area
  match uber_line_graph_render_line_loop_rounded rnd64 undef area each x_epoch line.raw_data
      line.raw_data.len 0 0 0 with
  | none => none
  | some (path, converted) =>
    some ([cairo_op.set_line_width (GDouble.fin 1),
           cairo_op.set_antialias graph.priv.antialias,
           cairo_op.set_source_color line.color,
           cairo_op.new_path] ++ path ++ [cairo_op.stroke], converted)

/-- The segment that `uber_line_graph_render_fast` draws for two finite values,
with its roundings.  It is `render_fast_segment` with `rnd64` applied to the
result of every operation on doubles; `epoch - each` has the `gfloat` operand
`each`, so `epoch` is converted to `gfloat` and the difference is formed in
`gfloat`. -/
def render_fast_segment_rounded (rnd32 rnd64 : GDouble → GDouble) (rect : GdkRectangle)
    (epoch : Nat) (each : GDouble) (y last_y : GDouble) : List cairo_op :=
  let y1 := rnd64 (GDouble.sub (GDouble.ofInt (RECT_BOTTOM rect)) y)
  let last_y1 := rnd64 (GDouble.sub (GDouble.ofInt (RECT_BOTTOM rect)) last_y)
  [cairo_op.new_path,
   cairo_op.move_to (GDouble.ofNat epoch) y1,
   cairo_op.curve_to
     (rnd64 (GDouble.sub (GDouble.ofNat epoch) (rnd64 (GDouble.div each (GDouble.fin 2))))) y1
     (rnd64 (GDouble.sub (GDouble.ofNat epoch) (rnd64 (GDouble.div each (GDouble.fin 2)))))
     last_y1
     (rnd32 (GDouble.sub (rnd32 (GDouble.ofNat epoch)) each)) last_y1,
   cairo_op.stroke]

/-- The value stored in the unsigned `x` in iteration `i` of the loop of
`uber_line_graph_render_line`, with the roundings of the code. -/
def render_line_x_rounded (rnd32 rnd64 : GDouble → GDouble) (undef : GDouble → Nat)
    (area : GdkRectangle) (stride : Nat) (i : Nat) : Nat :=
  to_guint undef
    (render_line_x_double rnd64 (render_x_epoch area)
      (render_each_rounded rnd32 rnd64 area stride) i)

/-- The `struct blk_io_trace` of `linux/blktrace_api.h`. -/
structure blk_io_trace where
  magic : Nat
  sequence : Nat
  time : Nat
  sector : Nat
  bytes : Nat
  action : Nat
  pid : Nat
  device : Nat
  cpu : Nat
  error : Nat
  pdu_len : Nat
  deriving DecidableEq, Repr

/-- The global `iolist`: the chain of `struct io_list` cells from the head on,
each given by the trace it points to. -/
abbrev io_list := List blk_io_trace

/-- The loop of `io_list_len`: `i` counts the cells passed so far. -/
def io_list_len_loop : Nat → io_list → Nat
  | i, [] => i
  | i, _ :: rest => io_list_len_loop (i + 1) rest

/-- `io_list_len`: the number of cells of `iolist`. -/
def io_list_len (iolist : io_list) : Nat :=
  io_list_len_loop 0 iolist

/-- `find_io`: walks `iolist` from the head; the first cell whose trace has the
sector of `t` is unlinked and its trace returned.  The result is the returned
trace, `none` for the null pointer, and the list afterwards. -/
def find_io (t : blk_io_trace) : io_list → Option blk_io_trace × io_list
  | [] => (none, [])
  | p :: rest =>
    if p.sector = t.sector then (some p, rest)
    else ((find_io t rest).1, p :: (find_io t rest).2)

/-- `stash_io`: a copy of `t` is put in a new cell at the head of `iolist`. -/
def stash_io (t : blk_io_trace) (iolist : io_list) : io_list :=
  t :: iolist

/-- A trace with the given sequence number and sector, all else zero. -/
def example_trace (sequence sector : Nat) : blk_io_trace :=
  { magic := 0, sequence := sequence, time := 0, sector := sector, bytes := 0, action := 0,
    pid := 0, device := 0, cpu := 0, error := 0, pdu_len := 0 }

/-! ## Facts about the ring buffer -/

section Ring

variable {α : Type}

theorem g_ring_append_val_len (ring : GRing α) (val : α) :
    (g_ring_append_val ring val).len = ring.len := rfl

theorem g_ring_append_val_wf {ring : GRing α} (h : ring.WF) (val : α) :
    (g_ring_append_val ring val).WF := by
  obtain ⟨hd, hp⟩ := h
  refine ⟨by simp [g_ring_append_val, hd], ?_⟩
  simp only [g_ring_append_val]
  rcases hp with hp | hp
  · exact Or.inl hp
  · right
    split <;> omega

theorem g_ring_get_index_append_zero {ring : GRing α} (h : ring.WF) (hlen : 0 < ring.len)
    (val : α) : g_ring_get_index (g_ring_append_val ring val) 0 = some val := by
  obtain ⟨hd, hp⟩ := h
  have hpos : ring.pos < ring.len := by omega
  have hset : (ring.data.set ring.pos val)[ring.pos]? = some val :=
    List.getElem?_set_self (by omega)
  simp only [g_ring_get_index, g_ring_append_val]
  by_cases hw : ring.pos + 1 < ring.len
  · rw [if_pos hw, if_pos (by omega)]
    have he : ring.pos + 1 - 1 - 0 = ring.pos := by omega
    rw [he, hset]
  · rw [if_neg hw, if_neg (by omega), if_pos (by omega)]
    have he : ring.len + 0 - 1 - 0 = ring.pos := by omega
    rw [he, hset]

theorem g_ring_get_index_append_succ {ring : GRing α} (h : ring.WF) (val : α) (k : Nat)
    (hk : k + 1 < ring.len) :
    g_ring_get_index (g_ring_append_val ring val) (k + 1) = g_ring_get_index ring k := by
  obtain ⟨hd, hp⟩ := h
  have hpos : ring.pos < ring.len := by omega
  simp only [g_ring_get_index, g_ring_append_val]
  by_cases hw : ring.pos + 1 < ring.len
  · rw [if_pos hw]
    by_cases hc : k + 1 ≤ ring.pos
    · have hne : ring.pos ≠ ring.pos + 1 - 1 - (k + 1) := by omega
      have he : ring.pos + 1 - 1 - (k + 1) = ring.pos - 1 - k := by omega
      rw [if_pos (by omega), if_pos hc, List.getElem?_set_ne hne, he]
    · have hne : ring.pos ≠ ring.len + (ring.pos + 1) - 1 - (k + 1) := by omega
      have he : ring.len + (ring.pos + 1) - 1 - (k + 1) = ring.len + ring.pos - 1 - k := by
        omega
      rw [if_neg (by omega), if_pos (by omega), if_neg hc, if_pos (by omega),
        List.getElem?_set_ne hne, he]
  · have hne : ring.pos ≠ ring.len + 0 - 1 - (k + 1) := by omega
    have he : ring.len + 0 - 1 - (k + 1) = ring.pos - 1 - k := by omega
    rw [if_neg hw, if_neg (by omega), if_pos (by omega), if_pos (by omega),
      List.getElem?_set_ne hne, he]

theorem g_ring_read_length (ring : GRing α) : (g_ring_read ring).length = ring.len := by
  simp [g_ring_read]

theorem g_ring_read_getElem? (ring : GRing α) (k : Nat) (hk : k < ring.len) :
    (g_ring_read ring)[k]? = some (g_ring_get_index ring k) := by
  simp [g_ring_read, List.getElem?_range hk]

/-- Appending to a well-formed ring puts the value in front of what is read and
drops the oldest entry. -/
theorem g_ring_read_append {ring : GRing α} (h : ring.WF) (val : α) :
    g_ring_read (g_ring_append_val ring val) = (some val :: g_ring_read ring).take ring.len := by
  apply List.ext_getElem?
  intro k
  by_cases hk : k < ring.len
  · rw [g_ring_read_getElem? _ _ (by simpa [g_ring_append_val_len] using hk),
      List.getElem?_take_of_lt hk]
    cases k with
    | zero => simp [g_ring_get_index_append_zero h hk]
    | succ j =>
      rw [g_ring_get_index_append_succ h val j hk]
      simp [g_ring_read_getElem? ring j (by omega)]
  · have h1 : (g_ring_read (g_ring_append_val ring val)).length ≤ k := by
      simp [g_ring_read_length, g_ring_append_val_len]; omega
    have h2 : ((some val :: g_ring_read ring).take ring.len).length ≤ k := by
      simp [g_ring_read_length]; omega
    rw [List.getElem?_eq_none h1, List.getElem?_eq_none h2]

theorem take_append_take (A B : List α) (n : Nat) :
    (A ++ B.take n).take n = (A ++ B).take n := by
  rw [List.take_append_eq_append_take, List.take_append_eq_append_take, List.take_take]
  congr 2
  omega

theorem g_ring_sized_new_wf (zero : α) (n : Nat) : (g_ring_sized_new zero n).WF := by
  refine ⟨by simp [g_ring_sized_new], ?_⟩
  simp only [g_ring_sized_new]
  omega

theorem init_ring_loop_spec (m : Nat) :
    ∀ (ring : GRing GDouble), ring.WF →
      (uber_line_graph_init_ring_loop m ring).WF ∧
      (uber_line_graph_init_ring_loop m ring).len = ring.len ∧
      g_ring_read (uber_line_graph_init_ring_loop m ring)
        = (List.replicate m (some NEG_INFINITY) ++ g_ring_read ring).take ring.len := by
  induction m with
  | zero =>
    intro ring _
    refine ⟨by assumption, rfl, ?_⟩
    simp only [uber_line_graph_init_ring_loop, List.replicate_zero, List.nil_append]
    rw [List.take_of_length_le (by simp [g_ring_read_length])]
  | succ m ih =>
    intro ring h
    obtain ⟨h1, h2, h3⟩ := ih (g_ring_append_val ring NEG_INFINITY)
      (g_ring_append_val_wf h NEG_INFINITY)
    refine ⟨h1, h2, ?_⟩
    simp only [uber_line_graph_init_ring_loop]
    rw [h3, g_ring_read_append h, g_ring_append_val_len, take_append_take,
      List.replicate_succ', List.append_assoc]
    rfl

theorem fresh_ring_wf (stride : Nat) : (fresh_ring stride).WF :=
  (init_ring_loop_spec _ _ (g_ring_sized_new_wf _ stride)).1

theorem fresh_ring_len (stride : Nat) : (fresh_ring stride).len = stride :=
  (init_ring_loop_spec _ _ (g_ring_sized_new_wf _ stride)).2.1

theorem fresh_ring_read (stride : Nat) :
    g_ring_read (fresh_ring stride) = List.replicate stride (some NEG_INFINITY) := by
  have h := (init_ring_loop_spec (g_ring_sized_new (GDouble.fin 0) stride).len _
    (g_ring_sized_new_wf (GDouble.fin 0) stride)).2.2
  have hl : (g_ring_sized_new (GDouble.fin 0) stride).len = stride := rfl
  rw [hl] at h
  unfold fresh_ring uber_line_graph_init_ring
  rw [hl, h, List.take_append_of_le_length (by simp)]
  simp

end Ring

/-! ## Facts about the sampling tick -/

section Tick

variable {σ : Type}

theorem loop_length (func : UberLineGraphFunc σ) (d : gpointer) :
    ∀ (lines : List LineInfo) (i : Nat) (ret : Bool) (w : σ),
      (uber_line_graph_get_next_data_loop func d i lines ret w).1.1.length = lines.length := by
  intro lines
  induction lines with
  | nil => intro i ret w; rfl
  | cons line rest ih =>
    intro i ret w
    simp only [uber_line_graph_get_next_data_loop, List.length_cons, ih]

theorem loop_world (func : UberLineGraphFunc σ) (d : gpointer) :
    ∀ (lines : List LineInfo) (i : Nat) (ret : Bool) (w : σ),
      (uber_line_graph_get_next_data_loop func d i lines ret w).2
        = world_before func d i lines.length w := by
  intro lines
  induction lines with
  | nil => intro i ret w; rfl
  | cons line rest ih =>
    intro i ret w
    simp only [uber_line_graph_get_next_data_loop, List.length_cons, ih, world_before]

theorem loop_getElem? (func : UberLineGraphFunc σ) (d : gpointer) :
    ∀ (lines : List LineInfo) (i : Nat) (ret : Bool) (w : σ) (j : Nat),
      (uber_line_graph_get_next_data_loop func d i lines ret w).1.1[j]?
        = (lines[j]?).map (fun l => l.sample
            (sampled_value (func (i + j + 1) (GDouble.fin 0) d (world_before func d i j w)).1)) := by
  intro lines
  induction lines with
  | nil => intro i ret w j; rfl
  | cons line rest ih =>
    intro i ret w j
    cases j with
    | zero =>
      simp only [uber_line_graph_get_next_data_loop, List.getElem?_cons_zero, Option.map_some',
        world_before, Nat.add_zero]
      rfl
    | succ j =>
      simp only [uber_line_graph_get_next_data_loop, List.getElem?_cons_succ, ih, world_before]
      have he : i + 1 + j + 1 = i + (j + 1) + 1 := by omega
      rw [he]

theorem tick_lines {g : UberLineGraph σ} {func : UberLineGraphFunc σ}
    (hf : g.priv.func = some func) (w : σ) (j : Nat) :
    (uber_line_graph_get_next_data g w).1.1.priv.lines[j]?
      = (g.priv.lines[j]?).map (fun l => l.sample
          (sampled_value (source_result func g.priv.func_data j w))) := by
  simp only [uber_line_graph_get_next_data, hf, loop_getElem?, source_result, Nat.zero_add]

theorem tick_lines_length (g : UberLineGraph σ) (w : σ) :
    (uber_line_graph_get_next_data g w).1.1.priv.lines.length = g.priv.lines.length := by
  unfold uber_line_graph_get_next_data
  split
  · simp only [loop_length]
  · rfl

theorem tick_stride (g : UberLineGraph σ) (w : σ) :
    (uber_line_graph_get_next_data g w).1.1.priv.stride = g.priv.stride := by
  unfold uber_line_graph_get_next_data
  split <;> rfl

theorem tick_func (g : UberLineGraph σ) (w : σ) :
    (uber_line_graph_get_next_data g w).1.1.priv.func = g.priv.func := by
  unfold uber_line_graph_get_next_data
  split
  · next h => simp only [h]
  · rfl

theorem tick_func_data (g : UberLineGraph σ) (w : σ) :
    (uber_line_graph_get_next_data g w).1.1.priv.func_data = g.priv.func_data := by
  unfold uber_line_graph_get_next_data
  split <;> rfl

theorem tick_world {g : UberLineGraph σ} {func : UberLineGraphFunc σ}
    (hf : g.priv.func = some func) (w : σ) :
    (uber_line_graph_get_next_data g w).2
      = world_before func g.priv.func_data 0 g.priv.lines.length w := by
  simp only [uber_line_graph_get_next_data, hf, loop_world]

theorem LineInfo.sample_wf {stride : Nat} {line : LineInfo} (h : line.WF stride)
    (val : GDouble) : (line.sample val).WF stride := by
  obtain ⟨h1, h2, h3⟩ := h
  refine ⟨g_ring_append_val_wf h1 val, h2, ?_⟩
  simp only [LineInfo.sample, h3]

theorem tick_inv {g : UberLineGraph σ} (w : σ)
    (h : ∀ line ∈ g.priv.lines, line.WF g.priv.stride) :
    ∀ line ∈ (uber_line_graph_get_next_data g w).1.1.priv.lines,
      line.WF (uber_line_graph_get_next_data g w).1.1.priv.stride := by
  intro line hl
  rw [tick_stride]
  cases hf : g.priv.func with
  | none =>
    have he : (uber_line_graph_get_next_data g w).1.1 = g := by
      simp only [uber_line_graph_get_next_data, hf]
    rw [he] at hl
    exact h line hl
  | some func =>
    obtain ⟨j, hj⟩ := List.getElem?_of_mem hl
    rw [tick_lines hf] at hj
    cases hold : g.priv.lines[j]? with
    | none => rw [hold] at hj; cases hj
    | some l =>
      rw [hold] at hj
      simp only [Option.map_some', Option.some.injEq] at hj
      rw [← hj]
      exact LineInfo.sample_wf (h l (List.getElem?_mem hold)) _

theorem new_line_info_wf (stride : Nat) (color : Option GdkColor) :
    (new_line_info stride color).WF stride :=
  ⟨fresh_ring_wf stride, fresh_ring_len stride, rfl⟩

theorem set_stride_line_wf (stride : Nat) (line : LineInfo) :
    (uber_line_graph_set_stride_line stride line).WF stride :=
  ⟨fresh_ring_wf stride, fresh_ring_len stride, rfl⟩

theorem set_stride_stride (g : UberLineGraph σ) (stride : Nat) :
    (uber_line_graph_set_stride g stride).priv.stride = stride := by
  simp only [uber_line_graph_set_stride]
  split <;> rfl

theorem set_stride_lines (g : UberLineGraph σ) (stride : Nat) :
    (uber_line_graph_set_stride g stride).priv.lines
      = g.priv.lines.map (uber_line_graph_set_stride_line stride) := by
  simp only [uber_line_graph_set_stride]
  split
  · rfl
  · next h =>
    have hnil : g.priv.lines = [] := by
      simpa using h
    simp [hnil]

/-- Every line of a reachable graph satisfies the line invariant for the current
stride of the graph. -/
theorem reachable_inv {g : UberLineGraph σ} {w : σ} (h : Reachable g w) :
    ∀ line ∈ g.priv.lines, line.WF g.priv.stride := by
  induction h with
  | init parent w => intro line hl; cases hl
  | add_line color _ ih =>
    intro line hl
    simp only [uber_line_graph_add_line, List.mem_append, List.mem_singleton] at hl
    rcases hl with hl | hl
    · exact ih line hl
    · rw [hl]; exact new_line_info_wf _ _
  | set_stride stride _ _ =>
    intro line hl
    rw [set_stride_lines] at hl
    rw [set_stride_stride]
    obtain ⟨l, _, hl2⟩ := List.mem_map.mp hl
    rw [← hl2]
    exact set_stride_line_wf _ _
  | get_next_data _ ih => exact tick_inv _ ih
  | set_data_func func user_data notify _ ih => exact ih
  | set_autoscale autoscale _ ih => exact ih
  | set_antialias antialias _ ih => exact ih
  | world w1 _ ih => exact ih

theorem sampling_ticks_func (n : Nat) (s : UberLineGraph σ × σ) :
    (sampling_ticks n s).1.priv.func = s.1.priv.func := by
  induction n with
  | zero => rfl
  | succ n ih => simp only [sampling_ticks, tick_func, ih]

theorem sampling_ticks_func_data (n : Nat) (s : UberLineGraph σ × σ) :
    (sampling_ticks n s).1.priv.func_data = s.1.priv.func_data := by
  induction n with
  | zero => rfl
  | succ n ih => simp only [sampling_ticks, tick_func_data, ih]

theorem sampling_ticks_stride (n : Nat) (s : UberLineGraph σ × σ) :
    (sampling_ticks n s).1.priv.stride = s.1.priv.stride := by
  induction n with
  | zero => rfl
  | succ n ih => simp only [sampling_ticks, tick_stride, ih]

theorem sampling_ticks_reachable {g : UberLineGraph σ} {w : σ} (h : Reachable g w) (n : Nat) :
    Reachable (sampling_ticks n (g, w)).1 (sampling_ticks n (g, w)).2 := by
  induction n with
  | zero => exact h
  | succ n ih => exact Reachable.get_next_data ih

/-- The raw ring of a line after `n` ticks, when the values stored for that line
in these ticks are the first `n` entries of `vs`. -/
theorem sampling_ticks_line {g : UberLineGraph σ} {func : UberLineGraphFunc σ}
    (hf : g.priv.func = some func) (w : σ) (j : Nat) (line : LineInfo)
    (hl : g.priv.lines[j]? = some line) (hwf : line.raw_data.WF) (vs : List GDouble) :
    ∀ n : Nat,
      (∀ t, t < n → vs[t]? = some (sampled_value
        (source_result func g.priv.func_data j (sampling_ticks t (g, w)).2))) →
      ∃ line1, (sampling_ticks n (g, w)).1.priv.lines[j]? = some line1 ∧
        line1.color = line.color ∧ line1.raw_data.WF ∧
        line1.raw_data.len = line.raw_data.len ∧
        g_ring_read line1.raw_data
          = (((vs.take n).reverse.map some) ++ g_ring_read line.raw_data).take
              line.raw_data.len := by
  intro n
  induction n with
  | zero =>
    intro _
    refine ⟨line, hl, rfl, hwf, rfl, ?_⟩
    simp only [List.take_zero, List.reverse_nil, List.map_nil, List.nil_append]
    rw [List.take_of_length_le (by simp [g_ring_read_length])]
  | succ n ih =>
    intro hv
    obtain ⟨line0, h0, hc, hw0, hlen, hread⟩ := ih (fun t ht => hv t (by omega))
    have hfn : (sampling_ticks n (g, w)).1.priv.func = some func := by
      rw [sampling_ticks_func]; exact hf
    have hstep := tick_lines hfn (sampling_ticks n (g, w)).2 j
    rw [h0, sampling_ticks_func_data] at hstep
    simp only [Option.map_some'] at hstep
    have hvn := hv n (by omega)
    refine ⟨_, hstep, hc, g_ring_append_val_wf hw0 _, hlen, ?_⟩
    simp only [LineInfo.sample]
    rw [g_ring_read_append hw0, hread, hlen, List.take_succ, hvn]
    simp only [Option.toList, List.reverse_append, List.reverse_cons, List.reverse_nil,
      List.nil_append, List.singleton_append, List.map_cons, List.cons_append]
    exact take_append_take [some _] _ _

end Tick

/-! ## The series store: appends -/

section Claims

variable {σ : Type}

theorem take_reverse_append_replicate (vs : List GDouble) (s : Nat) (h : vs.length ≤ s) :
    ((vs.reverse.map some) ++ List.replicate s (some NEG_INFINITY)).take s
      = (vs.reverse ++ List.replicate (s - vs.length) NEG_INFINITY).map some := by
  rw [List.take_append_eq_append_take, List.take_of_length_le (by simpa using h)]
  simp [List.take_replicate]

theorem take_reverse_append_of_le (vs : List GDouble) (rest : List (Option GDouble)) (s : Nat)
    (h : s ≤ vs.length) :
    ((vs.reverse.map some) ++ rest).take s = (vs.reverse.take s).map some := by
  rw [List.take_append_of_le_length (by simpa using h), List.map_take]

theorem add_line_lines (g : UberLineGraph σ) (color : Option GdkColor) :
    (uber_line_graph_add_line g color).1.priv.lines
      = g.priv.lines ++ [new_line_info g.priv.stride color] := rfl

theorem add_line_last (g : UberLineGraph σ) (color : Option GdkColor) :
    (uber_line_graph_add_line g color).1.priv.lines[g.priv.lines.length]?
      = some (new_line_info g.priv.stride color) := by
  rw [add_line_lines, List.getElem?_append_right (Nat.le_refl _)]
  simp

/-- C1: on a line that has just been added to a graph of stride `s`, after `N ≤ s`
sampling ticks in which the value source succeeds for that line with the values
`vs = [v1, ..., vN]`, reading the raw ring at the indices `0, ..., s - 1` yields
`vN, ..., v1` followed by exactly `s - N` copies of `-INFINITY`. -/
theorem C1_reads_appended_then_sentinels (g0 : UberLineGraph σ) (color : Option GdkColor)
    (func : UberLineGraphFunc σ) (hf : g0.priv.func = some func) (w : σ) (vs : List GDouble)
    (hN : vs.length ≤ g0.priv.stride)
    (hsrc : ∀ t (ht : t < vs.length),
      source_result func g0.priv.func_data g0.priv.lines.length
        (sampling_ticks t ((uber_line_graph_add_line g0 color).1, w)).2 = (true, vs[t])) :
    ∃ line,
      (sampling_ticks vs.length ((uber_line_graph_add_line g0 color).1, w)).1.priv.lines[
        g0.priv.lines.length]? = some line ∧
      line.raw_data.len = g0.priv.stride ∧
      g_ring_read line.raw_data
        = (vs.reverse ++ List.replicate (g0.priv.stride - vs.length) NEG_INFINITY).map some := by
  have hv : ∀ t, t < vs.length → vs[t]? = some (sampled_value
      (source_result func (uber_line_graph_add_line g0 color).1.priv.func_data
        g0.priv.lines.length (sampling_ticks t ((uber_line_graph_add_line g0 color).1, w)).2)) := by
    intro t ht
    have h1 := hsrc t ht
    have h2 : (uber_line_graph_add_line g0 color).1.priv.func_data = g0.priv.func_data := rfl
    rw [h2, h1, List.getElem?_eq_getElem ht]
    rfl
  obtain ⟨line, h1, _, _, h4, h5⟩ :=
    sampling_ticks_line (g := (uber_line_graph_add_line g0 color).1) hf w g0.priv.lines.length
      (new_line_info g0.priv.stride color) (add_line_last g0 color)
      (new_line_info_wf _ _).1 vs vs.length hv
  have hlen : (new_line_info g0.priv.stride color).raw_data.len = g0.priv.stride :=
    fresh_ring_len _
  have hread : g_ring_read (new_line_info g0.priv.stride color).raw_data
      = List.replicate g0.priv.stride (some NEG_INFINITY) := fresh_ring_read _
  refine ⟨line, h1, by rw [h4, hlen], ?_⟩
  rw [h5, hlen, hread, List.take_length, take_reverse_append_replicate vs _ hN]

/-- Witness for C1: stride 4, one new line, three ticks delivering 1, 2, 3; the
raw ring then reads 3, 2, 1 and one `-INFINITY`. -/
theorem C1_reads_appended_then_sentinels_witness :
    ∃ line,
      (sampling_ticks 3 ((uber_line_graph_add_line (example_graph 4) none).1,
        [GDouble.fin 1, GDouble.fin 2, GDouble.fin 3])).1.priv.lines[0]? = some line ∧
      line.raw_data.len = 4 ∧
      g_ring_read line.raw_data
        = [some (GDouble.fin 3), some (GDouble.fin 2), some (GDouble.fin 1),
            some NEG_INFINITY] :=
  C1_reads_appended_then_sentinels (example_graph 4) none scripted_source rfl
    [GDouble.fin 1, GDouble.fin 2, GDouble.fin 3] [GDouble.fin 1, GDouble.fin 2, GDouble.fin 3]
    (by decide)
    (fun t ht =>
      match t, ht with
      | 0, _ => rfl
      | 1, _ => rfl
      | 2, _ => rfl)

/-- C2: on any line of a reachable graph of stride `s ≥ 1`, after `N ≥ s`
sampling ticks in which the value source succeeds for that line with
`vs = [v1, ..., vN]`, the raw ring reads exactly the `s` most recent values,
newest first (`at(k) = v(N-k)`), the older ones being evicted; and after each
single tick `at(0)` is the value appended in that tick. -/
theorem C2_keeps_most_recent {g : UberLineGraph σ} {w : σ} (hr : Reachable g w)
    (func : UberLineGraphFunc σ) (hf : g.priv.func = some func) (hs : 0 < g.priv.stride)
    (j : Nat) (hj : j < g.priv.lines.length) (vs : List GDouble)
    (hN : g.priv.stride ≤ vs.length)
    (hsrc : ∀ t (ht : t < vs.length),
      source_result func g.priv.func_data j (sampling_ticks t (g, w)).2 = (true, vs[t])) :
    (∃ line, (sampling_ticks vs.length (g, w)).1.priv.lines[j]? = some line ∧
      line.raw_data.len = g.priv.stride ∧
      g_ring_read line.raw_data = (vs.reverse.take g.priv.stride).map some) ∧
    (∀ t (ht : t < vs.length),
      ∃ line, (sampling_ticks (t + 1) (g, w)).1.priv.lines[j]? = some line ∧
        g_ring_get_index line.raw_data 0 = some vs[t]) := by
  have hv : ∀ t, t < vs.length → vs[t]? = some (sampled_value
      (source_result func g.priv.func_data j (sampling_ticks t (g, w)).2)) := by
    intro t ht
    rw [hsrc t ht, List.getElem?_eq_getElem ht]
    rfl
  have hl : g.priv.lines[j]? = some g.priv.lines[j] := List.getElem?_eq_getElem hj
  have hwf := reachable_inv hr _ (List.getElem?_mem hl)
  constructor
  · obtain ⟨line, h1, _, _, h4, h5⟩ :=
      sampling_ticks_line hf w j _ hl hwf.1 vs vs.length hv
    refine ⟨line, h1, by rw [h4, hwf.2.1], ?_⟩
    rw [h5, hwf.2.1, List.take_length, take_reverse_append_of_le vs _ _ hN]
  · intro t ht
    obtain ⟨line0, h0, _, hw0, hlen, _⟩ :=
      sampling_ticks_line hf w j _ hl hwf.1 vs t (fun u hu => hv u (by omega))
    have hfn : (sampling_ticks t (g, w)).1.priv.func = some func := by
      rw [sampling_ticks_func]; exact hf
    have hstep := tick_lines hfn (sampling_ticks t (g, w)).2 j
    rw [h0, sampling_ticks_func_data] at hstep
    simp only [Option.map_some'] at hstep
    refine ⟨_, hstep, ?_⟩
    rw [hsrc t ht]
    exact g_ring_get_index_append_zero hw0 (by rw [hlen, hwf.2.1]; exact hs) _

/-- Witness for C2: stride 2, one line, three ticks delivering 1, 2, 3; the raw
ring then reads 3, 2, and after the first tick `at(0)` is 1. -/
theorem C2_keeps_most_recent_witness :
    (∃ line,
      (sampling_ticks 3 ((uber_line_graph_add_line (example_graph 2) none).1,
        [GDouble.fin 1, GDouble.fin 2, GDouble.fin 3])).1.priv.lines[0]? = some line ∧
      line.raw_data.len = 2 ∧
      g_ring_read line.raw_data = [some (GDouble.fin 3), some (GDouble.fin 2)]) ∧
    (∃ line,
      (sampling_ticks 1 ((uber_line_graph_add_line (example_graph 2) none).1,
        [GDouble.fin 1, GDouble.fin 2, GDouble.fin 3])).1.priv.lines[0]? = some line ∧
      g_ring_get_index line.raw_data 0 = some (GDouble.fin 1)) :=
  have h := C2_keeps_most_recent
    (g := (uber_line_graph_add_line (example_graph 2) none).1)
    (w := [GDouble.fin 1, GDouble.fin 2, GDouble.fin 3])
    (Reachable.world _ (Reachable.add_line none
      (Reachable.set_data_func (some scripted_source) 0 none
        (Reachable.set_stride 2 (Reachable.init example_parent [])))))
    scripted_source rfl (by decide) 0 (by decide)
    [GDouble.fin 1, GDouble.fin 2, GDouble.fin 3] (by decide)
    (fun t ht =>
      match t, ht with
      | 0, _ => rfl
      | 1, _ => rfl
      | 2, _ => rfl)
  ⟨h.1, h.2 0 (by decide)⟩

/-! ## The series store: changing the stride -/

theorem set_stride_getElem? (g : UberLineGraph σ) (stride j : Nat) :
    (uber_line_graph_set_stride g stride).priv.lines[j]?
      = (g.priv.lines[j]?).map (uber_line_graph_set_stride_line stride) := by
  rw [set_stride_lines, List.getElem?_map]

theorem set_stride_lines_length (g : UberLineGraph σ) (stride : Nat) :
    (uber_line_graph_set_stride g stride).priv.lines.length = g.priv.lines.length := by
  rw [set_stride_lines, List.length_map]

/-- What `uber_line_graph_set_stride` leaves in a line, for any new stride: the
colour is kept and both rings have `stride` slots that all read `-INFINITY`. -/
theorem set_stride_line_spec (stride : Nat) (line : LineInfo) :
    (uber_line_graph_set_stride_line stride line).color = line.color ∧
    (uber_line_graph_set_stride_line stride line).raw_data.len = stride ∧
    g_ring_read (uber_line_graph_set_stride_line stride line).raw_data
      = List.replicate stride (some NEG_INFINITY) ∧
    (uber_line_graph_set_stride_line stride line).scaled_data.len = stride ∧
    g_ring_read (uber_line_graph_set_stride_line stride line).scaled_data
      = List.replicate stride (some NEG_INFINITY) :=
  ⟨rfl, fresh_ring_len stride, fresh_ring_read stride, fresh_ring_len stride,
    fresh_ring_read stride⟩

/-- C3: for every graph with at least one line and every new stride `s2 > 1`,
after `uber_line_graph_set_stride` the graph has the same number of lines and
every line has a raw and a scaled ring of exactly `s2` slots that all read
`-INFINITY`, whatever the rings held before. -/
theorem C3_set_stride_resets (g : UberLineGraph σ) (stride : Nat) (_hs : 1 < stride)
    (_hne : 0 < g.priv.lines.length) (j : Nat) (line : LineInfo)
    (hl : (uber_line_graph_set_stride g stride).priv.lines[j]? = some line) :
    (uber_line_graph_set_stride g stride).priv.lines.length = g.priv.lines.length ∧
    line.raw_data.len = stride ∧
    line.raw_data.data.length = stride ∧
    g_ring_read line.raw_data = List.replicate stride (some NEG_INFINITY) ∧
    line.scaled_data.len = stride ∧
    line.scaled_data.data.length = stride ∧
    g_ring_read line.scaled_data = List.replicate stride (some NEG_INFINITY) := by
  rw [set_stride_getElem?] at hl
  cases hold : g.priv.lines[j]? with
  | none => rw [hold] at hl; cases hl
  | some l =>
    rw [hold] at hl
    simp only [Option.map_some', Option.some.injEq] at hl
    subst hl
    obtain ⟨_, h2, h3, h4, h5⟩ := set_stride_line_spec stride l
    have hd : (fresh_ring stride).data.length = stride := by
      rw [(fresh_ring_wf stride).1, fresh_ring_len]
    exact ⟨set_stride_lines_length g stride, h2, hd, h3, h4, hd, h5⟩

/-- Witness for C3: the graph of stride 4 holding 1, 2, 3, 4 is resized to 2 and
reads two sentinels, and resized again to 32 it reads 32 sentinels. -/
theorem C3_set_stride_resets_witness :
    g_ring_read (uber_line_graph_set_stride_line 2 example_full_line).raw_data
      = List.replicate 2 (some NEG_INFINITY) ∧
    g_ring_read (uber_line_graph_set_stride_line 32
        (uber_line_graph_set_stride_line 2 example_full_line)).raw_data
      = List.replicate 32 (some NEG_INFINITY) :=
  ⟨(C3_set_stride_resets example_full 2 (by decide) (by decide) 0
      (uber_line_graph_set_stride_line 2 example_full_line) rfl).2.2.2.1,
   (C3_set_stride_resets (uber_line_graph_set_stride example_full 2) 32 (by decide) (by decide) 0
      (uber_line_graph_set_stride_line 32 (uber_line_graph_set_stride_line 2 example_full_line))
      rfl).2.2.2.1⟩

/-- C4, counterexample: on the graph of stride 4 holding 1, 2, 3, 4 the call
`uber_line_graph_set_stride(graph, 1)` does not leave the state as it was: the
stride becomes 1 and the line no longer holds its samples. -/
theorem C4_counterexample :
    ¬ ((uber_line_graph_set_stride example_full 1).priv.stride = example_full.priv.stride ∧
       (uber_line_graph_set_stride example_full 1).priv.lines = example_full.priv.lines) := by
  decide

/-- C4, amended: for every graph and every `n ≤ 1`, `uber_line_graph_set_stride`
has no error to report; it stores `n` as the stride, keeps the number of lines
and the colour of each line, and replaces both rings of each line by rings of
`n` slots that all read `-INFINITY`. -/
theorem C4_set_stride_accepts_small (g : UberLineGraph σ) (n : Nat) (_hn : n ≤ 1) (j : Nat)
    (line : LineInfo) (hl : g.priv.lines[j]? = some line) :
    (uber_line_graph_set_stride g n).priv.stride = n ∧
    (uber_line_graph_set_stride g n).priv.lines.length = g.priv.lines.length ∧
    ∃ line1, (uber_line_graph_set_stride g n).priv.lines[j]? = some line1 ∧
      line1.color = line.color ∧
      line1.raw_data.len = n ∧
      g_ring_read line1.raw_data = List.replicate n (some NEG_INFINITY) ∧
      line1.scaled_data.len = n ∧
      g_ring_read line1.scaled_data = List.replicate n (some NEG_INFINITY) := by
  refine ⟨set_stride_stride g n, set_stride_lines_length g n,
    uber_line_graph_set_stride_line n line, ?_, set_stride_line_spec n line⟩
  rw [set_stride_getElem?, hl]
  rfl

/-- Witness for C4, amended: the graph of stride 4 holding 1, 2, 3, 4, with the
stride set to 1. -/
theorem C4_set_stride_accepts_small_witness :
    (uber_line_graph_set_stride example_full 1).priv.stride = 1 ∧
    (uber_line_graph_set_stride example_full 1).priv.lines.length
      = example_full.priv.lines.length ∧
    ∃ line1, (uber_line_graph_set_stride example_full 1).priv.lines[0]? = some line1 ∧
      line1.color = example_full_line.color ∧
      line1.raw_data.len = 1 ∧
      g_ring_read line1.raw_data = List.replicate 1 (some NEG_INFINITY) ∧
      line1.scaled_data.len = 1 ∧
      g_ring_read line1.scaled_data = List.replicate 1 (some NEG_INFINITY) :=
  C4_set_stride_accepts_small example_full 1 (by decide) 0 example_full_line rfl

/-! ## The series store: adding a line -/

theorem add_lines_ids (colors : List (Option GdkColor)) :
    ∀ g : UberLineGraph σ,
      (add_lines colors g).2 = List.range' (g.priv.lines.length + 1) colors.length := by
  induction colors with
  | nil => intro g; rfl
  | cons color colors ih =>
    intro g
    simp only [add_lines, ih, List.length_cons, List.range'_succ]
    simp [uber_line_graph_add_line]

/-- C5: on a graph holding `k` lines `uber_line_graph_add_line` returns `k + 1`,
and the graph then holds the former lines at their former positions followed by
the new line; consecutive calls on a new graph return 1, 2, 3, ... -/
theorem C5_add_line_returns_count (g : UberLineGraph σ) (color : Option GdkColor) :
    (uber_line_graph_add_line g color).2 = g.priv.lines.length + 1 ∧
    (uber_line_graph_add_line g color).1.priv.lines.length = g.priv.lines.length + 1 ∧
    (∃ line, (uber_line_graph_add_line g color).1.priv.lines = g.priv.lines ++ [line]) ∧
    (uber_line_graph_add_line g color).1.priv.lines.take g.priv.lines.length = g.priv.lines ∧
    (∀ (parent : UberGraph) (colors : List (Option GdkColor)),
      (add_lines colors (uber_line_graph_init parent : UberLineGraph σ)).2
        = List.range' 1 colors.length) := by
  refine ⟨?_, ?_, ⟨_, add_line_lines g color⟩, ?_, ?_⟩
  · simp [uber_line_graph_add_line]
  · simp [uber_line_graph_add_line]
  · rw [add_line_lines, List.take_left']
    rfl
  · intro parent colors
    exact add_lines_ids colors _

/-- C6: after `uber_line_graph_add_line` on a graph of stride `s` the new line is
the last one, its raw and scaled rings have `s` slots each and read `-INFINITY`
at every index `0, ..., s - 1`, and the lines that existed before are unchanged
in colour and in both rings. -/
theorem C6_add_line_fresh_and_frame (g : UberLineGraph σ) (color : Option GdkColor) :
    ∃ line,
      (uber_line_graph_add_line g color).1.priv.lines = g.priv.lines ++ [line] ∧
      (uber_line_graph_add_line g color).1.priv.lines[g.priv.lines.length]? = some line ∧
      (uber_line_graph_add_line g color).1.priv.lines.take g.priv.lines.length = g.priv.lines ∧
      (uber_line_graph_add_line g color).1.priv.stride = g.priv.stride ∧
      line.raw_data.len = g.priv.stride ∧
      line.raw_data.data.length = g.priv.stride ∧
      g_ring_read line.raw_data = List.replicate g.priv.stride (some NEG_INFINITY) ∧
      line.scaled_data.len = g.priv.stride ∧
      line.scaled_data.data.length = g.priv.stride ∧
      g_ring_read line.scaled_data = List.replicate g.priv.stride (some NEG_INFINITY) := by
  have hd : (fresh_ring g.priv.stride).data.length = g.priv.stride := by
    rw [(fresh_ring_wf _).1, fresh_ring_len]
  refine ⟨new_line_info g.priv.stride color, add_line_lines g color, add_line_last g color, ?_,
    rfl, fresh_ring_len _, hd, fresh_ring_read _, fresh_ring_len _, hd, fresh_ring_read _⟩
  rw [add_line_lines, List.take_left']
  rfl

/-! ## Invariants of reachable graphs -/

/-- C7: in every reachable state, every line has a raw ring and a scaled ring
whose capacity, and whose number of slots, is the current stride of the graph. -/
theorem C7_capacity_is_stride {g : UberLineGraph σ} {w : σ} (hr : Reachable g w) (j : Nat)
    (line : LineInfo) (hl : g.priv.lines[j]? = some line) :
    line.raw_data.len = g.priv.stride ∧
    line.raw_data.data.length = g.priv.stride ∧
    line.scaled_data.len = g.priv.stride ∧
    line.scaled_data.data.length = g.priv.stride := by
  obtain ⟨⟨hd, _⟩, hlen, hsc⟩ := reachable_inv hr line (List.getElem?_mem hl)
  rw [hsc]
  exact ⟨hlen, by rw [hd, hlen], hlen, by rw [hd, hlen]⟩

/-- Witness for C7: the stride is set to 7 before any line exists, a line is
added afterwards, the stride is set to 3 and a second line is added; the second
line has rings of 3 slots. -/
theorem C7_capacity_is_stride_witness :
    (new_line_info 3 none).raw_data.len = 3 ∧
    (new_line_info 3 none).raw_data.data.length = 3 ∧
    (new_line_info 3 none).scaled_data.len = 3 ∧
    (new_line_info 3 none).scaled_data.data.length = 3 :=
  C7_capacity_is_stride
    (g := (uber_line_graph_add_line (uber_line_graph_set_stride (uber_line_graph_add_line
      (uber_line_graph_set_stride (uber_line_graph_init example_parent) 7) none).1 3) none).1)
    (w := ())
    (Reachable.add_line none (Reachable.set_stride 3 (Reachable.add_line none
      (Reachable.set_stride 7 (Reachable.init example_parent ())))))
    1 (new_line_info 3 none) rfl

/-! ## The sampling tick -/

/-- C8: in a reachable graph of stride at least 1 with a registered value source,
after one tick every line `j` has as its newest raw entry `at(0)` the value the
source returned for it if the source succeeded, and `-INFINITY` if it failed,
whatever the source wrote before failing and whatever happened for the other
lines; no line is left out. -/
theorem C8_tick_isolates_failures {g : UberLineGraph σ} {w : σ} (hr : Reachable g w)
    (func : UberLineGraphFunc σ) (hf : g.priv.func = some func) (hs : 0 < g.priv.stride)
    (j : Nat) (hj : j < g.priv.lines.length) :
    (uber_line_graph_get_next_data g w).1.1.priv.lines.length = g.priv.lines.length ∧
    ∃ line, (uber_line_graph_get_next_data g w).1.1.priv.lines[j]? = some line ∧
      g_ring_get_index line.raw_data 0
        = some (if (source_result func g.priv.func_data j w).1
            then (source_result func g.priv.func_data j w).2 else NEG_INFINITY) := by
  have hl : g.priv.lines[j]? = some g.priv.lines[j] := List.getElem?_eq_getElem hj
  obtain ⟨hwf, hlen, _⟩ := reachable_inv hr _ (List.getElem?_mem hl)
  have hstep := tick_lines hf w j
  rw [hl] at hstep
  simp only [Option.map_some'] at hstep
  refine ⟨tick_lines_length g w, _, hstep, ?_⟩
  exact g_ring_get_index_append_zero hwf (by rw [hlen]; exact hs) _

/-- Witness for C8: three lines, the source fails for line 2 after writing 20 and
succeeds with 10 and 30 for lines 1 and 3. -/
theorem C8_tick_isolates_failures_witness :
    (∃ line, (uber_line_graph_get_next_data example_three ()).1.1.priv.lines[0]? = some line ∧
      g_ring_get_index line.raw_data 0 = some (GDouble.fin 10)) ∧
    (∃ line, (uber_line_graph_get_next_data example_three ()).1.1.priv.lines[1]? = some line ∧
      g_ring_get_index line.raw_data 0 = some NEG_INFINITY) ∧
    (∃ line, (uber_line_graph_get_next_data example_three ()).1.1.priv.lines[2]? = some line ∧
      g_ring_get_index line.raw_data 0 = some (GDouble.fin 30)) :=
  have hr : Reachable example_three () :=
    Reachable.set_data_func (some fails_for_two) 0 none
      (Reachable.add_line none (Reachable.add_line none (Reachable.add_line none
        (Reachable.set_stride 4 (Reachable.init example_parent ())))))
  ⟨(C8_tick_isolates_failures hr fails_for_two rfl (by decide) 0 (by decide)).2,
   (C8_tick_isolates_failures hr fails_for_two rfl (by decide) 1 (by decide)).2,
   (C8_tick_isolates_failures hr fails_for_two rfl (by decide) 2 (by decide)).2⟩

/-- C9, counterexample: on a new graph with stride 4 and one line, where no value
source is registered, a tick leaves the lines as they are; the raw ring after the
tick is not the raw ring before it with one entry appended. -/
theorem C9_counterexample :
    (uber_line_graph_get_next_data example_unregistered ()).1.1.priv.lines
      = example_unregistered.priv.lines ∧
    ¬ ∃ line line1 val,
      example_unregistered.priv.lines[0]? = some line ∧
      (uber_line_graph_get_next_data example_unregistered ()).1.1.priv.lines[0]? = some line1 ∧
      line1.raw_data = g_ring_append_val line.raw_data val := by
  refine ⟨rfl, ?_⟩
  rintro ⟨line, line1, val, h0, h1, h2⟩
  have e0 : example_unregistered.priv.lines[0]? = some (new_line_info 4 none) := rfl
  have e1 : (uber_line_graph_get_next_data example_unregistered ()).1.1.priv.lines[0]?
      = some (new_line_info 4 none) := rfl
  rw [e0] at h0
  rw [e1] at h1
  simp only [Option.some.injEq] at h0 h1
  subst h0
  subst h1
  have hp := congrArg GRing.pos h2
  have hp0 : (new_line_info 4 none).raw_data.pos = 0 := rfl
  have hp1 : (g_ring_append_val (new_line_info 4 none).raw_data val).pos = 1 := rfl
  rw [hp0, hp1] at hp
  exact absurd hp (by decide)

/-- C9, amended: in every reachable state the scaled ring of each line equals its
raw ring, so both read the same sequence of values.  A tick with a registered
value source appends exactly one entry to the raw ring and exactly one to the
scaled ring of each line, and both entries are the same value: the value of the
source on success, `-INFINITY` on failure.  A tick with no value source
registered leaves the line as it is. -/
theorem C9_scaled_mirrors_raw {g : UberLineGraph σ} {w : σ} (hr : Reachable g w) (j : Nat)
    (line : LineInfo) (hl : g.priv.lines[j]? = some line) :
    line.scaled_data = line.raw_data ∧
    g_ring_read line.scaled_data = g_ring_read line.raw_data ∧
    (∀ func, g.priv.func = some func →
      ∃ line1, (uber_line_graph_get_next_data g w).1.1.priv.lines[j]? = some line1 ∧
        line1.color = line.color ∧
        line1.raw_data = g_ring_append_val line.raw_data
          (sampled_value (source_result func g.priv.func_data j w)) ∧
        line1.scaled_data = g_ring_append_val line.scaled_data
          (sampled_value (source_result func g.priv.func_data j w)) ∧
        g_ring_get_index line1.scaled_data 0 = g_ring_get_index line1.raw_data 0) ∧
    (g.priv.func = none → (uber_line_graph_get_next_data g w).1.1.priv.lines[j]? = some line) := by
  obtain ⟨_, _, hsc⟩ := reachable_inv hr line (List.getElem?_mem hl)
  refine ⟨hsc, by rw [hsc], ?_, ?_⟩
  · intro func hf
    have hstep := tick_lines hf w j
    rw [hl] at hstep
    simp only [Option.map_some'] at hstep
    refine ⟨_, hstep, rfl, rfl, rfl, ?_⟩
    simp only [LineInfo.sample, hsc]
  · intro hf
    have he : (uber_line_graph_get_next_data g w).1.1 = g := by
      simp only [uber_line_graph_get_next_data, hf]
    rw [he, hl]

/-- Witness for C9, amended: three lines with a source that fails for line 2; the
second line has equal rings before the tick and gets `-INFINITY` appended to
both. -/
theorem C9_scaled_mirrors_raw_witness :
    (new_line_info 4 none).scaled_data = (new_line_info 4 none).raw_data ∧
    ∃ line1, (uber_line_graph_get_next_data example_three ()).1.1.priv.lines[1]? = some line1 ∧
      line1.color = default_line_color ∧
      line1.raw_data = g_ring_append_val (new_line_info 4 none).raw_data NEG_INFINITY ∧
      line1.scaled_data = g_ring_append_val (new_line_info 4 none).scaled_data NEG_INFINITY ∧
      g_ring_get_index line1.scaled_data 0 = g_ring_get_index line1.raw_data 0 :=
  have hr : Reachable example_three () :=
    Reachable.set_data_func (some fails_for_two) 0 none
      (Reachable.add_line none (Reachable.add_line none (Reachable.add_line none
        (Reachable.set_stride 4 (Reachable.init example_parent ())))))
  have h := C9_scaled_mirrors_raw hr 1 (new_line_info 4 none) rfl
  ⟨h.1, h.2.2.1 fails_for_two rfl⟩

theorem world_before_logged (func : UberLineGraphFunc σ) (d : gpointer) (j : Nat) :
    ∀ (i : Nat) (w : σ) (log : List Nat),
      world_before (logged func) d i j (w, log)
        = (world_before func d i j w, log ++ List.range' (i + 1) j) := by
  induction j with
  | zero => intro i w log; simp [world_before]
  | succ j ih =>
    intro i w log
    simp only [world_before, logged, ih, List.range'_succ, List.append_assoc,
      List.singleton_append]

theorem source_result_logged (func : UberLineGraphFunc σ) (d : gpointer) (j : Nat) (w : σ)
    (log : List Nat) :
    source_result (logged func) d j (w, log) = source_result func d j w := by
  simp only [source_result, world_before_logged, logged]

/-- C10: one tick on a graph with `n` lines and a registered value source calls
the source exactly `n` times, with the line indices `1, 2, ..., n` in this order:
when the source is instrumented with a call log, the tick extends the log by
exactly `[1, 2, ..., n]`, and every line receives the answer that the source
itself gives for its index. -/
theorem C10_source_called_in_order (g : UberLineGraph (σ × List Nat))
    (func : UberLineGraphFunc σ) (hf : g.priv.func = some (logged func)) (w : σ)
    (log : List Nat) :
    (uber_line_graph_get_next_data g (w, log)).2.2
      = log ++ List.range' 1 g.priv.lines.length ∧
    (uber_line_graph_get_next_data g (w, log)).2.1
      = world_before func g.priv.func_data 0 g.priv.lines.length w ∧
    (∀ j : Nat, (uber_line_graph_get_next_data g (w, log)).1.1.priv.lines[j]?
      = (g.priv.lines[j]?).map (fun l : LineInfo => l.sample
          (sampled_value (source_result func g.priv.func_data j w)))) := by
  refine ⟨?_, ?_, ?_⟩
  · rw [tick_world hf, world_before_logged]
  · rw [tick_world hf, world_before_logged]
  · intro j
    rw [tick_lines hf, source_result_logged]

/-- Witness for C10: three lines and the logged source that fails for line 2; the
log after one tick is 1, 2, 3. -/
theorem C10_source_called_in_order_witness :
    (uber_line_graph_get_next_data example_three_logged ((), [])).2.2 = [1, 2, 3] :=
  (C10_source_called_in_order example_three_logged fails_for_two rfl () []).1

/-! ## The full render -/

theorem g_ring_get_index_isSome {α : Type} {ring : GRing α} (h : ring.WF) (k : Nat)
    (hk : k < ring.len) : ∃ v, g_ring_get_index ring k = some v := by
  obtain ⟨hd, hp⟩ := h
  have hpos : ring.pos < ring.len := by omega
  simp only [g_ring_get_index]
  by_cases hc : k + 1 ≤ ring.pos
  · rw [if_pos hc]
    exact ⟨_, List.getElem?_eq_getElem (by omega)⟩
  · rw [if_neg hc, if_pos (by omega)]
    exact ⟨_, List.getElem?_eq_getElem (by omega)⟩

theorem render_line_loop_spec (undef : GDouble → Nat) (area : GdkRectangle) (each : GDouble)
    (x_epoch : Nat) (raw : GRing GDouble) :
    ∀ (n i last_x last_y : Nat), 0 < i →
      (∀ k, k < n → ∃ v, g_ring_get_index raw (i + k) = some v) →
      uber_line_graph_render_line_loop undef area each x_epoch raw n i last_x last_y
        = some (rule_curves (snap_guint undef) (GDouble.ofInt (area.y + area.height))
            (GDouble.ofNat x_epoch) each i (GDouble.ofNat last_x) (GDouble.ofNat last_y)
            (valid_front ((List.range' i n).map (g_ring_get_index raw)))) := by
  intro n
  induction n with
  | zero =>
    intro i last_x last_y _ _
    simp [uber_line_graph_render_line_loop, valid_front, rule_curves]
  | succ n ih =>
    intro i last_x last_y hi hreads
    obtain ⟨v, hv⟩ := hreads 0 (by omega)
    rw [Nat.add_zero] at hv
    have hrest : ∀ k, k < n → ∃ v, g_ring_get_index raw (i + 1 + k) = some v := by
      intro k hk
      have := hreads (k + 1) (by omega)
      rwa [show i + (k + 1) = i + 1 + k by omega] at this
    simp only [uber_line_graph_render_line_loop, List.range'_succ, List.map_cons, hv,
      valid_front]
    by_cases hs : v = NEG_INFINITY
    · simp [hs, rule_curves]
    · rw [if_neg hs, if_neg hs, ih (i + 1) _ _ (by omega) hrest, if_neg (by omega)]
      simp only [rule_curves, snap_guint]

/-- The calls of `uber_line_graph_render_line` on a line with a well-formed raw
ring: the preamble, the path that the geometry rule gives for the values in front
of the first sentinel, with every coordinate stored in a `guint`, and one
stroke. -/
theorem render_line_spec (undef : GDouble → Nat) (g : UberLineGraph σ) (area : GdkRectangle)
    (line : LineInfo) (hwf : line.raw_data.WF) :
    uber_line_graph_render_line undef g area line
      = some (render_line_preamble g line
          ++ rule_path (snap_guint undef) (GDouble.ofInt (area.y + area.height))
              (GDouble.ofNat (render_x_epoch area)) (render_each area g.priv.stride)
              (valid_front (g_ring_read line.raw_data))
          ++ [cairo_op.stroke]) := by
  simp only [uber_line_graph_render_line, g_ring_read, List.range_eq_range']
  cases hlen : line.raw_data.len with
  | zero =>
    simp [uber_line_graph_render_line_loop, valid_front, rule_path,
      render_line_preamble]
  | succ n =>
    obtain ⟨v, hv⟩ := g_ring_get_index_isSome hwf 0 (by omega)
    have hrest : ∀ k, k < n → ∃ v, g_ring_get_index line.raw_data (0 + 1 + k) = some v := by
      intro k hk
      exact g_ring_get_index_isSome hwf _ (by omega)
    simp only [uber_line_graph_render_line_loop, List.range'_succ, List.map_cons, hv,
      valid_front]
    by_cases hs : v = NEG_INFINITY
    · simp [hs, rule_path, render_line_preamble]
    · rw [if_neg hs, if_neg hs, render_line_loop_spec undef area _ _ _ n (0 + 1) _ _ (by omega)
        hrest]
      simp only [rule_path, snap_guint, render_line_preamble, if_true, List.append_assoc,
        List.cons_append, List.nil_append]

theorem count_points_rule_curves (snap : GDouble → GDouble) (bottom right each : GDouble)
    (vs : List GDouble) :
    ∀ (i : Nat) (px py : GDouble),
      count_points (rule_curves snap bottom right each i px py vs) = vs.length ∧
      count_curves (rule_curves snap bottom right each i px py vs) = vs.length ∧
      count_moves (rule_curves snap bottom right each i px py vs) = 0 ∧
      count_strokes (rule_curves snap bottom right each i px py vs) = 0 := by
  induction vs with
  | nil => intro i px py; simp [rule_curves, count_points, count_curves, count_moves,
      count_strokes]
  | cons v rest ih =>
    intro i px py
    obtain ⟨h1, h2, h3, h4⟩ := ih (i + 1)
      (snap (GDouble.sub right (GDouble.mul each (GDouble.ofNat i))))
      (snap (GDouble.sub bottom v))
    simp only [count_points, count_curves, count_moves, count_strokes] at h1 h2 h3 h4 ⊢
    simp [rule_curves, is_point, is_curve, is_move, is_stroke, h1, h2, h3, h4]

theorem count_rule_path (snap : GDouble → GDouble) (bottom right each : GDouble)
    (vs : List GDouble) :
    count_points (rule_path snap bottom right each vs) = vs.length ∧
    count_curves (rule_path snap bottom right each vs) = vs.length - 1 ∧
    count_moves (rule_path snap bottom right each vs) = min 1 vs.length ∧
    count_strokes (rule_path snap bottom right each vs) = 0 := by
  cases vs with
  | nil => simp [rule_path, count_points, count_curves, count_moves, count_strokes]
  | cons v rest =>
    obtain ⟨h1, h2, h3, h4⟩ := count_points_rule_curves snap bottom right each rest 1
      (snap (GDouble.sub right (GDouble.mul each (GDouble.ofNat 0))))
      (snap (GDouble.sub bottom v))
    simp only [count_points, count_curves, count_moves, count_strokes] at h1 h2 h3 h4 ⊢
    simp [rule_path, is_point, is_curve, is_move, is_stroke, h1, h2, h3, h4]

theorem valid_front_length_le (l : List (Option GDouble)) :
    (valid_front l).length ≤ l.length := by
  induction l with
  | nil => simp [valid_front]
  | cons a rest ih =>
    cases a with
    | none => simp [valid_front]
    | some v =>
      simp only [valid_front]
      split
      · simp
      · simp only [List.length_cons]; omega

theorem count_render_line (undef : GDouble → Nat) (g : UberLineGraph σ) (area : GdkRectangle)
    (line : LineInfo) (hwf : line.raw_data.WF) :
    ∃ ops, uber_line_graph_render_line undef g area line = some ops ∧
      count_points ops = (valid_front (g_ring_read line.raw_data)).length ∧
      count_curves ops = (valid_front (g_ring_read line.raw_data)).length - 1 ∧
      count_strokes ops = 1 := by
  refine ⟨_, render_line_spec undef g area line hwf, ?_, ?_, ?_⟩
  · have h := (count_rule_path (snap_guint undef) (GDouble.ofInt (area.y + area.height))
      (GDouble.ofNat (render_x_epoch area)) (render_each area g.priv.stride)
      (valid_front (g_ring_read line.raw_data))).1
    simp only [count_points] at h ⊢
    simp [render_line_preamble, is_point, h]
  · have h := (count_rule_path (snap_guint undef) (GDouble.ofInt (area.y + area.height))
      (GDouble.ofNat (render_x_epoch area)) (render_each area g.priv.stride)
      (valid_front (g_ring_read line.raw_data))).2.1
    simp only [count_curves] at h ⊢
    simp [render_line_preamble, is_curve, h]
  · have h := (count_rule_path (snap_guint undef) (GDouble.ofInt (area.y + area.height))
      (GDouble.ofNat (render_x_epoch area)) (render_each area g.priv.stride)
      (valid_front (g_ring_read line.raw_data))).2.2.2
    simp only [count_strokes] at h ⊢
    simp [render_line_preamble, is_stroke, h]

theorem fresh_sample_twice_read (stride : Nat) (hs : 2 ≤ stride) (color : Option GdkColor)
    (a b : GDouble) :
    g_ring_read (((new_line_info stride color).sample a).sample b).raw_data
      = some b :: some a :: List.replicate (stride - 2) (some NEG_INFINITY) := by
  obtain ⟨n, rfl⟩ : ∃ n, stride = n + 2 := ⟨stride - 2, by omega⟩
  have hw0 : (new_line_info (n + 2) color).raw_data.WF := fresh_ring_wf _
  have hl0 : (new_line_info (n + 2) color).raw_data.len = n + 2 := fresh_ring_len _
  have hr0 : g_ring_read (new_line_info (n + 2) color).raw_data
      = List.replicate (n + 2) (some NEG_INFINITY) := fresh_ring_read _
  simp only [LineInfo.sample]
  have e1 : (some a :: List.replicate (n + 2) (some NEG_INFINITY)).take (n + 2)
      = some a :: List.replicate (n + 1) (some NEG_INFINITY) := by
    simp [List.take_succ_cons, List.take_replicate]
  have e2 : (some b :: some a :: List.replicate (n + 1) (some NEG_INFINITY)).take (n + 2)
      = some b :: some a :: List.replicate n (some NEG_INFINITY) := by
    simp [List.take_succ_cons, List.take_replicate]
  rw [g_ring_read_append (g_ring_append_val_wf hw0 a), g_ring_read_append hw0,
    g_ring_append_val_len, hl0, hr0, e1, e2]
  simp

theorem valid_front_replicate (n : Nat) :
    valid_front (List.replicate n (some NEG_INFINITY)) = [] := by
  cases n with
  | zero => rfl
  | succ n => simp [List.replicate_succ, valid_front]

/-- C14: for every line of a reachable graph, the number of points that
`uber_line_graph_render_line` puts on the path is the length of the longest
sentinel-free prefix of the raw ring read newest to oldest, hence at most the
stride; the path is stroked once.  A line whose newest entry is `-INFINITY` gets
no point, whatever lies behind it, and a sentinel-filled line of stride at least
2 to which 3 and then 4 are appended gets exactly two points and one curve. -/
theorem C14_points_are_valid_front {g : UberLineGraph σ} {w : σ} (hr : Reachable g w)
    (undef : GDouble → Nat) (area : GdkRectangle) (j : Nat) (line : LineInfo)
    (hl : g.priv.lines[j]? = some line) :
    (∃ ops, uber_line_graph_render_line undef g area line = some ops ∧
      count_points ops = (valid_front (g_ring_read line.raw_data)).length ∧
      count_points ops ≤ g.priv.stride ∧
      count_strokes ops = 1 ∧
      (g_ring_get_index line.raw_data 0 = some NEG_INFINITY → count_points ops = 0)) ∧
    (2 ≤ g.priv.stride → ∀ color : Option GdkColor,
      ∃ ops, uber_line_graph_render_line undef g area
          (((new_line_info g.priv.stride color).sample (GDouble.fin 3)).sample (GDouble.fin 4))
          = some ops ∧
        count_points ops = 2 ∧ count_curves ops = 1) := by
  obtain ⟨hwf, hlen, _⟩ := reachable_inv hr line (List.getElem?_mem hl)
  constructor
  · obtain ⟨ops, h1, h2, _, h4⟩ := count_render_line undef g area line hwf
    refine ⟨ops, h1, h2, ?_, h4, ?_⟩
    · rw [h2, ← hlen, ← g_ring_read_length line.raw_data]
      exact valid_front_length_le _
    · intro h0
      rw [h2]
      have hread : g_ring_read line.raw_data
          = some NEG_INFINITY :: ((List.range' 1 (line.raw_data.len - 1)).map
              (g_ring_get_index line.raw_data)) := by
        have hpos : 0 < line.raw_data.len := by
          rcases Nat.eq_zero_or_pos line.raw_data.len with h | h
          · simp [g_ring_get_index, h] at h0
            obtain ⟨hd, _⟩ := hwf
            rw [h] at hd
            have hnil : line.raw_data.data = [] := List.length_eq_zero.mp hd
            simp [hnil] at h0
          · exact h
        obtain ⟨n, hn⟩ : ∃ n, line.raw_data.len = n + 1 := ⟨line.raw_data.len - 1, by omega⟩
        simp only [g_ring_read, List.range_eq_range', hn, List.range'_succ, List.map_cons, h0]
        simp
      rw [hread]
      simp [valid_front]
  · intro hs color
    have hwf2 : (((new_line_info g.priv.stride color).sample (GDouble.fin 3)).sample
        (GDouble.fin 4)).raw_data.WF :=
      g_ring_append_val_wf (g_ring_append_val_wf (fresh_ring_wf _) _) _
    obtain ⟨ops, h1, h2, h3, _⟩ := count_render_line undef g area _ hwf2
    have hp : valid_front (g_ring_read
        (((new_line_info g.priv.stride color).sample (GDouble.fin 3)).sample
          (GDouble.fin 4)).raw_data) = [GDouble.fin 4, GDouble.fin 3] := by
      rw [fresh_sample_twice_read _ hs]
      simp only [valid_front]
      rw [if_neg (by decide), if_neg (by decide), valid_front_replicate]
    rw [hp] at h2 h3
    exact ⟨ops, h1, h2, h3⟩

theorem example_two_values_reachable : Reachable example_two_values [] :=
  sampling_ticks_reachable
    (Reachable.world [GDouble.fin 3, GDouble.fin 4] (Reachable.add_line none
      (Reachable.set_data_func (some scripted_source) 0 none
        (Reachable.set_stride 4 (Reachable.init example_parent []))))) 2

/-- Witness for C14: stride 4, one line, the ticks delivered 3 and 4; the full
render puts two points on the path and strokes once. -/
theorem C14_points_are_valid_front_witness :
    ∃ ops, uber_line_graph_render_line (fun _ => 0) example_two_values
        { x := 0, y := 0, width := 4, height := 10 } example_two_values_line = some ops ∧
      count_points ops = 2 ∧ count_strokes ops = 1 := by
  obtain ⟨⟨ops, h1, h2, _, h4, _⟩, _⟩ :=
    C14_points_are_valid_front example_two_values_reachable (fun _ => 0)
      { x := 0, y := 0, width := 4, height := 10 } 0 example_two_values_line rfl
  exact ⟨ops, h1, h2.trans (by decide), h4⟩

theorem render_x_epoch_of_range (area : GdkRectangle) (h0 : 0 ≤ area.x + area.width)
    (h1 : area.x + area.width < 4294967296) :
    render_x_epoch area = (area.x + area.width).toNat ∧
    GDouble.ofNat (render_x_epoch area) = GDouble.ofInt (area.x + area.width) := by
  have he : render_x_epoch area = (area.x + area.width).toNat := by
    simp only [render_x_epoch]
    rw [Int.emod_eq_of_lt h0 h1]
  refine ⟨he, ?_⟩
  rw [he]
  simp only [GDouble.ofNat, GDouble.ofInt]
  congr 1
  have hz : (((area.x + area.width).toNat : ℤ) : ℚ) = ((area.x + area.width : ℤ) : ℚ) := by
    rw [Int.toNat_of_nonneg h0]
  exact_mod_cast hz

theorem is_finite_iff (d : GDouble) : is_finite d = true ↔ ∃ q, d = GDouble.fin q := by
  cases d <;> simp [is_finite, isnan, isinf]

theorem render_fast_line_eq (rect : GdkRectangle) (epoch : Nat) (each : GDouble)
    (line : LineInfo) (y last_y : GDouble) (h0 : g_ring_get_index line.scaled_data 0 = some y)
    (h1 : g_ring_get_index line.scaled_data 1 = some last_y) :
    uber_line_graph_render_fast_line rect epoch each line
      = some (cairo_op.set_source_color line.color ::
          (if is_finite y && is_finite last_y then render_fast_segment rect epoch each y last_y
            else [])) := by
  simp only [uber_line_graph_render_fast_line, h0, h1, is_finite]
  cases y <;> cases last_y <;> simp [isnan, isinf]

theorem count_curves_render_fast_segment (rect : GdkRectangle) (epoch : Nat) (each : GDouble)
    (y last_y : GDouble) :
    count_curves (render_fast_segment rect epoch each y last_y) = 1 ∧
    count_moves (render_fast_segment rect epoch each y last_y) = 1 ∧
    count_strokes (render_fast_segment rect epoch each y last_y) = 1 := by
  simp [render_fast_segment, count_curves, count_moves, count_strokes, is_curve, is_move,
    is_stroke]

theorem render_fast_loop_spec (rect : GdkRectangle) (epoch : Nat) (each : GDouble)
    (lines : List LineInfo)
    (h : ∀ line ∈ lines, ∃ ops, uber_line_graph_render_fast_line rect epoch each line = some ops) :
    ∃ opss : List (List cairo_op),
      List.Forall₂ (fun line ops => uber_line_graph_render_fast_line rect epoch each line = some ops)
        lines opss ∧
      uber_line_graph_render_fast_loop rect epoch each lines = some opss.flatten := by
  induction lines with
  | nil => exact ⟨[], List.Forall₂.nil, rfl⟩
  | cons line rest ih =>
    obtain ⟨ops, hops⟩ := h line (List.mem_cons_self _ _)
    obtain ⟨opss, hf, hloop⟩ := ih (fun l hl => h l (List.mem_cons_of_mem _ hl))
    refine ⟨ops :: opss, List.Forall₂.cons hops hf, ?_⟩
    simp only [uber_line_graph_render_fast_loop, hops, hloop, List.flatten_cons]

theorem reachable_reads_two {g : UberLineGraph σ} {w : σ} (hr : Reachable g w)
    (hs : 2 ≤ g.priv.stride) (line : LineInfo) (hl : line ∈ g.priv.lines) :
    ∃ y last_y, g_ring_get_index line.scaled_data 0 = some y ∧
      g_ring_get_index line.scaled_data 1 = some last_y ∧
      g_ring_get_index line.raw_data 0 = some y ∧
      g_ring_get_index line.raw_data 1 = some last_y := by
  obtain ⟨hwf, hlen, hsc⟩ := reachable_inv hr line hl
  obtain ⟨y, hy⟩ := g_ring_get_index_isSome hwf 0 (by omega)
  obtain ⟨ly, hly⟩ := g_ring_get_index_isSome hwf 1 (by omega)
  exact ⟨y, ly, by rw [hsc]; exact hy, by rw [hsc]; exact hly, hy, hly⟩

/-- C12: for every line of a reachable graph of stride at least 2, the body of
`uber_line_graph_render_fast` draws a segment if and only if the two newest
scaled values `at(0)` and `at(1)` are both finite, and never more than one; the
calls of the whole function are its preamble followed by the calls for each line
in turn, each determined by that line alone, so a skipped line does not keep the
others from being drawn.  After 3 and then 4 are appended to a sentinel-filled
line exactly one segment is drawn for it. -/
theorem C12_incremental_draws_iff_finite {g : UberLineGraph σ} {w : σ} (hr : Reachable g w)
    (hs : 2 ≤ g.priv.stride) (rect : GdkRectangle) (epoch : Nat) (each : GDouble) (j : Nat)
    (line : LineInfo) (hl : g.priv.lines[j]? = some line) :
    (∃ y last_y ops, g_ring_get_index line.scaled_data 0 = some y ∧
      g_ring_get_index line.scaled_data 1 = some last_y ∧
      uber_line_graph_render_fast_line rect epoch each line = some ops ∧
      (count_curves ops = 1 ↔ (is_finite y = true ∧ is_finite last_y = true)) ∧
      count_curves ops ≤ 1 ∧
      count_strokes ops = count_curves ops) ∧
    (∃ opss : List (List cairo_op),
      List.Forall₂
        (fun l ops => uber_line_graph_render_fast_line rect epoch each l = some ops)
        g.priv.lines opss ∧
      uber_line_graph_render_fast g rect epoch each
        = some (render_fast_preamble ++ opss.flatten)) ∧
    (∀ color : Option GdkColor,
      ∃ ops, uber_line_graph_render_fast_line rect epoch each
          (((new_line_info g.priv.stride color).sample (GDouble.fin 3)).sample (GDouble.fin 4))
          = some ops ∧
        count_curves ops = 1) := by
  refine ⟨?_, ?_, ?_⟩
  · obtain ⟨y, ly, hy, hly, _, _⟩ := reachable_reads_two hr hs line (List.getElem?_mem hl)
    refine ⟨y, ly, _, hy, hly, render_fast_line_eq rect epoch each line y ly hy hly, ?_⟩
    have hseg := count_curves_render_fast_segment rect epoch each y ly
    simp only [count_curves, count_strokes] at hseg ⊢
    cases hf : (is_finite y && is_finite ly)
    · have hnot : ¬ (is_finite y = true ∧ is_finite ly = true) := by
        intro hh
        simp [hh.1, hh.2] at hf
      simp [is_curve, is_stroke, hnot]
    · have hyes : is_finite y = true ∧ is_finite ly = true := by
        simpa using hf
      simp [is_curve, is_stroke, hseg.1, hseg.2.2, hyes]
  · have hall : ∀ l ∈ g.priv.lines,
        ∃ ops, uber_line_graph_render_fast_line rect epoch each l = some ops := by
      intro l hmem
      obtain ⟨y, ly, hy, hly, _, _⟩ := reachable_reads_two hr hs l hmem
      exact ⟨_, render_fast_line_eq rect epoch each l y ly hy hly⟩
    obtain ⟨opss, hf, hloop⟩ := render_fast_loop_spec rect epoch each g.priv.lines hall
    refine ⟨opss, hf, ?_⟩
    simp only [uber_line_graph_render_fast, hloop, render_fast_preamble]
  · intro color
    have hw0 : (new_line_info g.priv.stride color).scaled_data.WF := fresh_ring_wf _
    have hl0 : (new_line_info g.priv.stride color).scaled_data.len = g.priv.stride :=
      fresh_ring_len _
    have hw1 := g_ring_append_val_wf hw0 (GDouble.fin 3)
    have r0 : g_ring_get_index (((new_line_info g.priv.stride color).sample
        (GDouble.fin 3)).sample (GDouble.fin 4)).scaled_data 0 = some (GDouble.fin 4) :=
      g_ring_get_index_append_zero hw1 (by rw [g_ring_append_val_len, hl0]; omega) _
    have r1 : g_ring_get_index (((new_line_info g.priv.stride color).sample
        (GDouble.fin 3)).sample (GDouble.fin 4)).scaled_data 1 = some (GDouble.fin 3) := by
      have h := g_ring_get_index_append_succ hw1 (GDouble.fin 4) 0
        (by rw [g_ring_append_val_len, hl0]; omega)
      simp only [LineInfo.sample]
      rw [h]
      exact g_ring_get_index_append_zero hw0 (by rw [hl0]; omega) _
    refine ⟨_, render_fast_line_eq rect epoch each _ _ _ r0 r1, ?_⟩
    have hseg := count_curves_render_fast_segment rect epoch each (GDouble.fin 4) (GDouble.fin 3)
    simp only [count_curves] at hseg ⊢
    simp [is_curve, is_finite, isnan, isinf, hseg.1]

theorem example_three_sampled_reachable : Reachable example_three_sampled () :=
  sampling_ticks_reachable
    (Reachable.set_data_func (some fails_for_two) 0 none
      (Reachable.add_line none (Reachable.add_line none (Reachable.add_line none
        (Reachable.set_stride 4 (Reachable.init example_parent ())))))) 2

/-- Witness for C12: three lines after two ticks, the source failing for line 2.
No segment is drawn for line 2 and one segment is drawn for line 3. -/
theorem C12_incremental_draws_iff_finite_witness :
    (∃ ops, uber_line_graph_render_fast_line { x := 0, y := 0, width := 3, height := 40 } 3
        (GDouble.fin 1) (example_three_sampled_line GDouble.negInf) = some ops ∧
      count_curves ops = 0) ∧
    (∃ ops, uber_line_graph_render_fast_line { x := 0, y := 0, width := 3, height := 40 } 3
        (GDouble.fin 1) (example_three_sampled_line (GDouble.fin 30)) = some ops ∧
      count_curves ops = 1) := by
  constructor
  · obtain ⟨⟨y, ly, ops, hy, _, hops, hiff, hle, _⟩, _⟩ :=
      C12_incremental_draws_iff_finite example_three_sampled_reachable (by decide)
        { x := 0, y := 0, width := 3, height := 40 } 3 (GDouble.fin 1) 1
        (example_three_sampled_line GDouble.negInf) rfl
    have e : g_ring_get_index (example_three_sampled_line GDouble.negInf).scaled_data 0
        = some GDouble.negInf := rfl
    rw [e] at hy
    have ey : y = GDouble.negInf := (Option.some.inj hy).symm
    subst ey
    refine ⟨ops, hops, ?_⟩
    have hne : count_curves ops ≠ 1 := by
      intro h1
      have := (hiff.mp h1).1
      simp [is_finite, isnan, isinf] at this
    omega
  · obtain ⟨⟨y, ly, ops, hy, hly, hops, hiff, _, _⟩, _⟩ :=
      C12_incremental_draws_iff_finite example_three_sampled_reachable (by decide)
        { x := 0, y := 0, width := 3, height := 40 } 3 (GDouble.fin 1) 2
        (example_three_sampled_line (GDouble.fin 30)) rfl
    have e0 : g_ring_get_index (example_three_sampled_line (GDouble.fin 30)).scaled_data 0
        = some (GDouble.fin 30) := rfl
    have e1 : g_ring_get_index (example_three_sampled_line (GDouble.fin 30)).scaled_data 1
        = some (GDouble.fin 30) := rfl
    rw [e0] at hy
    rw [e1] at hly
    have ey : y = GDouble.fin 30 := (Option.some.inj hy).symm
    have ely : ly = GDouble.fin 30 := (Option.some.inj hly).symm
    subst ey
    subst ely
    exact ⟨ops, hops, hiff.mpr ⟨rfl, rfl⟩⟩

/-! ## Facts about the rounding -/

theorem round_half_even_intCast (k : ℤ) : round_half_even (k : ℚ) = k := by
  simp [round_half_even]

theorem round_half_even_nonneg (x : ℚ) (h : 0 ≤ x) : 0 ≤ round_half_even x := by
  have hf : 0 ≤ Int.floor x := Int.floor_nonneg.mpr h
  unfold round_half_even
  split_ifs <;> omega

theorem round_half_even_le (x : ℚ) (n : ℤ) (h : x ≤ n) : round_half_even x ≤ n := by
  have hf : Int.floor x ≤ n := Int.floor_le_floor h |>.trans (by simp)
  rcases eq_or_lt_of_le hf with heq | hlt
  · -- floor x = n, so x = n
    have hx : x = n := by
      have := Int.floor_le x
      rw [heq] at this
      exact le_antisymm h this
    rw [hx, round_half_even_intCast]
  · unfold round_half_even
    split_ifs <;> omega

theorem round_half_even_of_near (x : ℚ) (m : ℤ) (h1 : (m : ℚ) - 1 / 2 < x)
    (h2 : x < (m : ℚ) + 1 / 2) : round_half_even x = m := by
  have hfl := Int.floor_le x
  have hlt := Int.lt_floor_add_one x
  have hcases : Int.floor x = m ∨ Int.floor x = m - 1 := by
    have a : m - 1 ≤ Int.floor x := by
      rw [Int.le_floor]
      push_cast
      linarith
    have b : Int.floor x < m + 1 := by
      rw [Int.floor_lt]
      push_cast
      linarith
    omega
  unfold round_half_even
  rcases hcases with hc | hc
  · rw [hc]
    rw [if_pos (by linarith)]
  · rw [hc]
    have : ¬ (x - ((m - 1 : ℤ) : ℚ) < 1 / 2) := by
      push_cast
      linarith
    rw [if_neg this, if_pos (by push_cast; linarith)]
    omega

theorem int_log_two_eq (q : ℚ) (e : ℤ) (hq : 0 < q) (h1 : (2 : ℚ) ^ e ≤ q)
    (h2 : q < (2 : ℚ) ^ (e + 1)) : Int.log 2 q = e := by
  have a : e ≤ Int.log 2 q := by
    rw [← Int.zpow_le_iff_le_log (by norm_num) hq]
    exact_mod_cast h1
  have b : Int.log 2 q < e + 1 := by
    rw [← Int.lt_zpow_iff_log_lt (by norm_num) hq]
    exact_mod_cast h2
  omega


theorem round_binary_of_binade (p : Nat) (emin emax : ℤ) (q : ℚ) (e m : ℤ) (hq : q ≠ 0)
    (h1 : (2 : ℚ) ^ e ≤ |q|) (h2 : |q| < (2 : ℚ) ^ (e + 1))
    (hm : round_half_even (q / (2 : ℚ) ^ (max e emin - ((p : ℤ) - 1))) = m)
    (hfin : |(m : ℚ) * (2 : ℚ) ^ (max e emin - ((p : ℤ) - 1))| < (2 : ℚ) ^ (emax + 1)) :
    round_binary p emin emax q
      = GDouble.fin ((m : ℚ) * (2 : ℚ) ^ (max e emin - ((p : ℤ) - 1))) := by
  have hlog : Int.log 2 |q| = e := int_log_two_eq |q| e (abs_pos.mpr hq) h1 h2
  simp only [round_binary]
  rw [if_neg hq, hlog, hm, if_neg (not_le.mpr hfin)]

/-- A number `m * 2^t` with `|m| < 2^p` and `t` not below the least exponent of
the format is represented exactly. -/
theorem round_binary_exact (p : Nat) (emin emax : ℤ) (m t : ℤ)
    (hm : |(m : ℚ)| < (2 : ℚ) ^ (p : ℤ)) (ht : emin - ((p : ℤ) - 1) ≤ t)
    (hfin : |(m : ℚ) * (2 : ℚ) ^ t| < (2 : ℚ) ^ (emax + 1)) :
    round_binary p emin emax ((m : ℚ) * (2 : ℚ) ^ t) = GDouble.fin ((m : ℚ) * (2 : ℚ) ^ t) := by
  by_cases hm0 : m = 0
  · simp [round_binary, hm0]
  have h2t : (0 : ℚ) < (2 : ℚ) ^ t := zpow_pos (by norm_num) t
  have hq : (m : ℚ) * (2 : ℚ) ^ t ≠ 0 :=
    mul_ne_zero (by exact_mod_cast hm0) h2t.ne'
  have habs : |(m : ℚ) * (2 : ℚ) ^ t| < (2 : ℚ) ^ ((p : ℤ) + t) := by
    rw [abs_mul, abs_of_pos h2t, zpow_add₀ (by norm_num : (2 : ℚ) ≠ 0)]
    exact mul_lt_mul_of_pos_right hm h2t
  have hlog : Int.log 2 |(m : ℚ) * (2 : ℚ) ^ t| < (p : ℤ) + t := by
    rw [← Int.lt_zpow_iff_log_lt (by norm_num) (abs_pos.mpr hq)]
    exact_mod_cast habs
  have hu : max (Int.log 2 |(m : ℚ) * (2 : ℚ) ^ t|) emin - ((p : ℤ) - 1) ≤ t := by
    rcases max_cases (Int.log 2 |(m : ℚ) * (2 : ℚ) ^ t|) emin with ⟨h, _⟩ | ⟨h, _⟩ <;>
      rw [h] <;> omega
  obtain ⟨k, hk⟩ : ∃ k : ℕ,
      t = max (Int.log 2 |(m : ℚ) * (2 : ℚ) ^ t|) emin - ((p : ℤ) - 1) + (k : ℤ) :=
    ⟨(t - (max (Int.log 2 |(m : ℚ) * (2 : ℚ) ^ t|) emin - ((p : ℤ) - 1))).toNat, by omega⟩
  simp only [round_binary]
  rw [if_neg hq]
  generalize max (Int.log 2 |(m : ℚ) * (2 : ℚ) ^ t|) emin - ((p : ℤ) - 1) = u at hk ⊢
  have hu0 : (0 : ℚ) < (2 : ℚ) ^ u := zpow_pos (by norm_num) u
  have hdiv : (m : ℚ) * (2 : ℚ) ^ t / (2 : ℚ) ^ u = ((m * 2 ^ k : ℤ) : ℚ) := by
    rw [hk, zpow_add₀ (by norm_num : (2 : ℚ) ≠ 0), zpow_natCast]
    push_cast
    field_simp
    ring
  have hr : ((round_half_even ((m : ℚ) * (2 : ℚ) ^ t / (2 : ℚ) ^ u) : ℤ) : ℚ) * (2 : ℚ) ^ u
      = (m : ℚ) * (2 : ℚ) ^ t := by
    rw [hdiv, round_half_even_intCast]
    rw [← hdiv]
    field_simp
  simp only [hr]
  rw [if_neg (not_le.mpr hfin)]

/-- A number that is not negative and below `2^emax` is rounded to a finite
number that is not negative. -/
theorem round_binary_nonneg (p : Nat) (emin emax : ℤ) (q : ℚ) (he : emin < emax)
    (h0 : 0 ≤ q) (h1 : q < (2 : ℚ) ^ emax) :
    ∃ r : ℚ, round_binary p emin emax q = GDouble.fin r ∧ 0 ≤ r := by
  by_cases hq : q = 0
  · exact ⟨0, by simp [round_binary, hq], le_refl _⟩
  have hpos : 0 < q := lt_of_le_of_ne h0 (Ne.symm hq)
  have habs : |q| = q := abs_of_pos hpos
  have hlog : Int.log 2 |q| < emax := by
    rw [← Int.lt_zpow_iff_log_lt (by norm_num) (abs_pos.mpr hq), habs]
    exact_mod_cast h1
  have hlt : q < (2 : ℚ) ^ (Int.log 2 |q| + 1) := by
    have := Int.lt_zpow_succ_log_self (R := ℚ) (b := 2) (by norm_num) |q|
    rw [habs] at this ⊢
    exact_mod_cast this
  simp only [round_binary]
  rw [if_neg hq]
  have hE : Int.log 2 |q| ≤ max (Int.log 2 |q|) emin := le_max_left _ _
  have hE1 : max (Int.log 2 |q|) emin ≤ emax - 1 := by
    rcases max_cases (Int.log 2 |q|) emin with ⟨h, _⟩ | ⟨h, _⟩ <;> rw [h] <;> omega
  generalize max (Int.log 2 |q|) emin = E at hE hE1 ⊢
  have hu0 : (0 : ℚ) < (2 : ℚ) ^ (E - ((p : ℤ) - 1)) := zpow_pos (by norm_num) _
  have hx0 : 0 ≤ q / (2 : ℚ) ^ (E - ((p : ℤ) - 1)) := div_nonneg h0 hu0.le
  have hr0 := round_half_even_nonneg _ hx0
  have hqE : q < (2 : ℚ) ^ (E + 1) :=
    lt_of_lt_of_le hlt (zpow_le_zpow_right₀ (by norm_num) (by omega))
  have hxle : q / (2 : ℚ) ^ (E - ((p : ℤ) - 1)) ≤ (((2 : ℤ) ^ p : ℤ) : ℚ) := by
    rw [div_le_iff₀ hu0]
    push_cast
    rw [← zpow_natCast, ← zpow_add₀ (by norm_num : (2 : ℚ) ≠ 0)]
    have : (p : ℤ) + (E - ((p : ℤ) - 1)) = E + 1 := by ring
    rw [this]
    exact hqE.le
  have hrle := round_half_even_le _ _ hxle
  have hrq : ((round_half_even (q / (2 : ℚ) ^ (E - ((p : ℤ) - 1))) : ℤ) : ℚ)
      * (2 : ℚ) ^ (E - ((p : ℤ) - 1)) ≤ (2 : ℚ) ^ (E + 1) := by
    have h3 : ((round_half_even (q / (2 : ℚ) ^ (E - ((p : ℤ) - 1))) : ℤ) : ℚ)
        ≤ (((2 : ℤ) ^ p : ℤ) : ℚ) := by exact_mod_cast hrle
    have h4 := mul_le_mul_of_nonneg_right h3 hu0.le
    refine le_trans h4 ?_
    push_cast
    rw [← zpow_natCast, ← zpow_add₀ (by norm_num : (2 : ℚ) ≠ 0)]
    have : (p : ℤ) + (E - ((p : ℤ) - 1)) = E + 1 := by ring
    rw [this]
  have hrnn : (0 : ℚ) ≤ ((round_half_even (q / (2 : ℚ) ^ (E - ((p : ℤ) - 1))) : ℤ) : ℚ)
      * (2 : ℚ) ^ (E - ((p : ℤ) - 1)) :=
    mul_nonneg (by exact_mod_cast hr0) hu0.le
  have hfin : ¬ ((2 : ℚ) ^ (emax + 1) ≤
      |((round_half_even (q / (2 : ℚ) ^ (E - ((p : ℤ) - 1))) : ℤ) : ℚ)
        * (2 : ℚ) ^ (E - ((p : ℤ) - 1))|) := by
    rw [abs_of_nonneg hrnn, not_le]
    refine lt_of_le_of_lt hrq ?_
    exact zpow_lt_zpow_right₀ (by norm_num) (by omega)
  rw [if_neg hfin]
  exact ⟨_, rfl, hrnn⟩


theorem binary64_intCast (n : ℤ) (h : |n| < 9007199254740992) : binary64 (n : ℚ) = GDouble.fin n := by
  have hq : |(n : ℚ)| < (2 : ℚ) ^ ((53 : ℕ) : ℤ) := by
    have : ((|n| : ℤ) : ℚ) < 9007199254740992 := by exact_mod_cast h
    rw [Int.cast_abs] at this
    norm_num
    exact this
  have := round_binary_exact 53 (-1022) 1023 n 0 hq (by norm_num)
    (by
      rw [zpow_zero, mul_one]
      refine lt_trans hq ?_
      exact zpow_lt_zpow_right₀ (by norm_num) (by norm_num))
  rw [zpow_zero, mul_one] at this
  exact this

theorem binary32_natCast (n : ℕ) (h : n ≤ 16777216) : binary32 (n : ℚ) = GDouble.fin n := by
  rcases Nat.lt_or_ge n 16777216 with hlt | hge
  · have hq : |((n : ℤ) : ℚ)| < (2 : ℚ) ^ ((24 : ℕ) : ℤ) := by
      have : (n : ℚ) < 16777216 := by exact_mod_cast hlt
      rw [Int.cast_natCast, abs_of_nonneg (Nat.cast_nonneg n)]
      norm_num
      exact hlt
    have := round_binary_exact 24 (-126) 127 (n : ℤ) 0 hq (by norm_num)
      (by
        rw [zpow_zero, mul_one]
        refine lt_trans hq ?_
        exact zpow_lt_zpow_right₀ (by norm_num) (by norm_num))
    rw [zpow_zero, mul_one, Int.cast_natCast] at this
    exact this
  · have hn : n = 16777216 := by omega
    have := round_binary_exact 24 (-126) 127 1 24 (by norm_num) (by norm_num) (by norm_num)
    rw [hn]
    norm_num at this ⊢
    exact this

theorem round_half_even_ge (x : ℚ) (n : ℤ) (h : (n : ℚ) ≤ x) : n ≤ round_half_even x := by
  have hf : n ≤ Int.floor x := Int.le_floor.mpr h
  unfold round_half_even
  split_ifs <;> omega

/-- A positive number between `2 ^ e` and `2 ^ f`, both in the normal range of
the format, is rounded to a finite number between the same bounds. -/
theorem round_binary_bounds (p : Nat) (emin emax : ℤ) (q : ℚ) (e f : ℤ) (hp : 0 < p)
    (he : emin ≤ e) (hf : f ≤ emax) (h1 : (2 : ℚ) ^ e ≤ q) (h2 : q < (2 : ℚ) ^ f) :
    ∃ r : ℚ, round_binary p emin emax q = GDouble.fin r ∧ (2 : ℚ) ^ e ≤ r ∧ r ≤ (2 : ℚ) ^ f := by
  have hpos : 0 < q := lt_of_lt_of_le (zpow_pos (by norm_num) e) h1
  have hq : q ≠ 0 := hpos.ne'
  have habs : |q| = q := abs_of_pos hpos
  have hlog1 : e ≤ Int.log 2 |q| := by
    rw [← Int.zpow_le_iff_le_log (by norm_num) (abs_pos.mpr hq), habs]
    exact_mod_cast h1
  have hlog2 : Int.log 2 |q| < f := by
    rw [← Int.lt_zpow_iff_log_lt (by norm_num) (abs_pos.mpr hq), habs]
    exact_mod_cast h2
  have hge : (2 : ℚ) ^ (Int.log 2 |q|) ≤ q := by
    have := Int.zpow_log_le_self (R := ℚ) (b := 2) (by norm_num) (abs_pos.mpr hq)
    rw [habs] at this ⊢
    exact_mod_cast this
  have hlt : q < (2 : ℚ) ^ (Int.log 2 |q| + 1) := by
    have := Int.lt_zpow_succ_log_self (R := ℚ) (b := 2) (by norm_num) |q|
    rw [habs] at this ⊢
    exact_mod_cast this
  simp only [round_binary]
  rw [if_neg hq, max_eq_left (by omega : emin ≤ Int.log 2 |q|)]
  generalize Int.log 2 |q| = E at hlog1 hlog2 hge hlt ⊢
  have hu0 : (0 : ℚ) < (2 : ℚ) ^ (E - ((p : ℤ) - 1)) := zpow_pos (by norm_num) _
  have hpow : ∀ k : ℕ, (((2 : ℤ) ^ k : ℤ) : ℚ) * (2 : ℚ) ^ (E - ((p : ℤ) - 1))
      = (2 : ℚ) ^ ((k : ℤ) + (E - ((p : ℤ) - 1))) := by
    intro k
    push_cast
    rw [← zpow_natCast, ← zpow_add₀ (by norm_num : (2 : ℚ) ≠ 0)]
  have hxle : q / (2 : ℚ) ^ (E - ((p : ℤ) - 1)) ≤ (((2 : ℤ) ^ p : ℤ) : ℚ) := by
    rw [div_le_iff₀ hu0, hpow, show (p : ℤ) + (E - ((p : ℤ) - 1)) = E + 1 by ring]
    exact hlt.le
  have hxge : (((2 : ℤ) ^ (p - 1) : ℤ) : ℚ) ≤ q / (2 : ℚ) ^ (E - ((p : ℤ) - 1)) := by
    rw [le_div_iff₀ hu0, hpow,
      show ((p - 1 : ℕ) : ℤ) + (E - ((p : ℤ) - 1)) = E by
        rw [Nat.cast_sub (by omega)]; push_cast; ring]
    exact hge
  have hrle := round_half_even_le _ _ hxle
  have hrge := round_half_even_ge _ _ hxge
  have hr1 : (2 : ℚ) ^ E ≤ ((round_half_even (q / (2 : ℚ) ^ (E - ((p : ℤ) - 1))) : ℤ) : ℚ)
      * (2 : ℚ) ^ (E - ((p : ℤ) - 1)) := by
    have h3 : (((2 : ℤ) ^ (p - 1) : ℤ) : ℚ)
        ≤ ((round_half_even (q / (2 : ℚ) ^ (E - ((p : ℤ) - 1))) : ℤ) : ℚ) := by
      exact_mod_cast hrge
    have h4 := mul_le_mul_of_nonneg_right h3 hu0.le
    rw [hpow, show ((p - 1 : ℕ) : ℤ) + (E - ((p : ℤ) - 1)) = E by
        rw [Nat.cast_sub (by omega)]; push_cast; ring] at h4
    exact h4
  have hr2 : ((round_half_even (q / (2 : ℚ) ^ (E - ((p : ℤ) - 1))) : ℤ) : ℚ)
      * (2 : ℚ) ^ (E - ((p : ℤ) - 1)) ≤ (2 : ℚ) ^ (E + 1) := by
    have h3 : ((round_half_even (q / (2 : ℚ) ^ (E - ((p : ℤ) - 1))) : ℤ) : ℚ)
        ≤ (((2 : ℤ) ^ p : ℤ) : ℚ) := by exact_mod_cast hrle
    have h4 := mul_le_mul_of_nonneg_right h3 hu0.le
    rw [hpow, show (p : ℤ) + (E - ((p : ℤ) - 1)) = E + 1 by ring] at h4
    exact h4
  have hrpos : (0 : ℚ) ≤ ((round_half_even (q / (2 : ℚ) ^ (E - ((p : ℤ) - 1))) : ℤ) : ℚ)
      * (2 : ℚ) ^ (E - ((p : ℤ) - 1)) :=
    le_trans (zpow_pos (by norm_num) E).le hr1
  have hfin : ¬ ((2 : ℚ) ^ (emax + 1) ≤
      |((round_half_even (q / (2 : ℚ) ^ (E - ((p : ℤ) - 1))) : ℤ) : ℚ)
        * (2 : ℚ) ^ (E - ((p : ℤ) - 1))|) := by
    rw [abs_of_nonneg hrpos, not_le]
    refine lt_of_le_of_lt hr2 ?_
    exact zpow_lt_zpow_right₀ (by norm_num) (by omega)
  rw [if_neg hfin]
  refine ⟨_, rfl, ?_, ?_⟩
  · exact le_trans (zpow_le_zpow_right₀ (by norm_num) hlog1) hr1
  · exact le_trans hr2 (zpow_le_zpow_right₀ (by norm_num) (by omega))

theorem round_half_even_mono (x y : ℚ) (h : x ≤ y) : round_half_even x ≤ round_half_even y := by
  have hf : Int.floor x ≤ Int.floor y := Int.floor_le_floor h
  rcases eq_or_lt_of_le hf with heq | hlt
  · unfold round_half_even
    rw [← heq]
    split_ifs <;> first | omega | (exfalso; linarith)
  · have h1 : round_half_even x ≤ Int.floor x + 1 := by
      unfold round_half_even
      split_ifs <;> omega
    have h2 : Int.floor y ≤ round_half_even y := by
      unfold round_half_even
      split_ifs <;> omega
    omega

theorem round_half_even_abs_sub_le (x : ℚ) : |((round_half_even x : ℤ) : ℚ) - x| ≤ 1 / 2 := by
  have h1 := Int.floor_le x
  have h2 := Int.lt_floor_add_one x
  unfold round_half_even
  rw [abs_le]
  split_ifs <;> push_cast <;> constructor <;> linarith

/-- A positive number below `2 ^ emax` is rounded to a finite number, the
multiple of the spacing that is nearest to it. -/
theorem round_binary_pos_eq (p : Nat) (emin emax : ℤ) (q : ℚ) (he : emin < emax)
    (h0 : 0 < q) (h1 : q < (2 : ℚ) ^ emax) :
    round_binary p emin emax q
      = GDouble.fin (((round_half_even (q / (2 : ℚ) ^ (max (Int.log 2 q) emin - ((p : ℤ) - 1)))
          : ℤ) : ℚ) * (2 : ℚ) ^ (max (Int.log 2 q) emin - ((p : ℤ) - 1))) ∧
    ((round_half_even (q / (2 : ℚ) ^ (max (Int.log 2 q) emin - ((p : ℤ) - 1))) : ℤ) : ℚ)
        * (2 : ℚ) ^ (max (Int.log 2 q) emin - ((p : ℤ) - 1))
      ≤ (2 : ℚ) ^ (max (Int.log 2 q) emin + 1) ∧
    max (Int.log 2 q) emin + 1 ≤ emax ∧
    q < (2 : ℚ) ^ (max (Int.log 2 q) emin + 1) := by
  have hq : q ≠ 0 := h0.ne'
  have habs : |q| = q := abs_of_pos h0
  have hlog : Int.log 2 q < emax := by
    rw [← Int.lt_zpow_iff_log_lt (by norm_num) h0]
    exact_mod_cast h1
  have hlt : q < (2 : ℚ) ^ (Int.log 2 q + 1) := by
    have := Int.lt_zpow_succ_log_self (R := ℚ) (b := 2) (by norm_num) q
    exact_mod_cast this
  simp only [round_binary]
  rw [if_neg hq, habs]
  have hE : Int.log 2 q ≤ max (Int.log 2 q) emin := le_max_left _ _
  have hE1 : max (Int.log 2 q) emin + 1 ≤ emax := by
    rcases max_cases (Int.log 2 q) emin with ⟨h, _⟩ | ⟨h, _⟩ <;> rw [h] <;> omega
  generalize max (Int.log 2 q) emin = E at hE hE1 ⊢
  have hu0 : (0 : ℚ) < (2 : ℚ) ^ (E - ((p : ℤ) - 1)) := zpow_pos (by norm_num) _
  have hx0 : 0 ≤ q / (2 : ℚ) ^ (E - ((p : ℤ) - 1)) := div_nonneg h0.le hu0.le
  have hr0 := round_half_even_nonneg _ hx0
  have hqE : q < (2 : ℚ) ^ (E + 1) :=
    lt_of_lt_of_le hlt (zpow_le_zpow_right₀ (by norm_num) (by omega))
  have hpow : (((2 : ℤ) ^ p : ℤ) : ℚ) * (2 : ℚ) ^ (E - ((p : ℤ) - 1)) = (2 : ℚ) ^ (E + 1) := by
    push_cast
    rw [← zpow_natCast, ← zpow_add₀ (by norm_num : (2 : ℚ) ≠ 0)]
    congr 1
    ring
  have hxle : q / (2 : ℚ) ^ (E - ((p : ℤ) - 1)) ≤ (((2 : ℤ) ^ p : ℤ) : ℚ) := by
    rw [div_le_iff₀ hu0, hpow]
    exact hqE.le
  have hrle := round_half_even_le _ _ hxle
  have hrq : ((round_half_even (q / (2 : ℚ) ^ (E - ((p : ℤ) - 1))) : ℤ) : ℚ)
      * (2 : ℚ) ^ (E - ((p : ℤ) - 1)) ≤ (2 : ℚ) ^ (E + 1) := by
    have h3 : ((round_half_even (q / (2 : ℚ) ^ (E - ((p : ℤ) - 1))) : ℤ) : ℚ)
        ≤ (((2 : ℤ) ^ p : ℤ) : ℚ) := by exact_mod_cast hrle
    have h4 := mul_le_mul_of_nonneg_right h3 hu0.le
    rw [hpow] at h4
    exact h4
  have hrnn : (0 : ℚ) ≤ ((round_half_even (q / (2 : ℚ) ^ (E - ((p : ℤ) - 1))) : ℤ) : ℚ)
      * (2 : ℚ) ^ (E - ((p : ℤ) - 1)) :=
    mul_nonneg (by exact_mod_cast hr0) hu0.le
  have hfin : ¬ ((2 : ℚ) ^ (emax + 1) ≤
      |((round_half_even (q / (2 : ℚ) ^ (E - ((p : ℤ) - 1))) : ℤ) : ℚ)
        * (2 : ℚ) ^ (E - ((p : ℤ) - 1))|) := by
    rw [abs_of_nonneg hrnn, not_le]
    refine lt_of_le_of_lt hrq ?_
    exact zpow_lt_zpow_right₀ (by norm_num) (by omega)
  rw [if_neg hfin]
  exact ⟨rfl, hrq, hE1, hqE⟩

/-- Rounding does not change the order of numbers that are not negative. -/
theorem round_binary_mono (p : Nat) (emin emax : ℤ) (a b : ℚ) (hp : 0 < p) (he : emin < emax)
    (h0 : 0 ≤ a) (hab : a ≤ b) (hb : b < (2 : ℚ) ^ emax) :
    ∃ ra rb : ℚ, round_binary p emin emax a = GDouble.fin ra ∧
      round_binary p emin emax b = GDouble.fin rb ∧ ra ≤ rb := by
  by_cases ha : a = 0
  · obtain ⟨rb, hrb, hrb0⟩ := round_binary_nonneg p emin emax b he (le_trans h0 hab) hb
    exact ⟨0, rb, by simp [round_binary, ha], hrb, hrb0⟩
  have hapos : 0 < a := lt_of_le_of_ne h0 (Ne.symm ha)
  have hbpos : 0 < b := lt_of_lt_of_le hapos hab
  obtain ⟨hra, hra1, _, _⟩ := round_binary_pos_eq p emin emax a he hapos (lt_of_le_of_lt hab hb)
  obtain ⟨hrb, _, _, _⟩ := round_binary_pos_eq p emin emax b he hbpos hb
  refine ⟨_, _, hra, hrb, ?_⟩
  have hlog : Int.log 2 a ≤ Int.log 2 b := Int.log_mono_right hapos hab
  have hE : max (Int.log 2 a) emin ≤ max (Int.log 2 b) emin := max_le_max hlog (le_refl _)
  rcases eq_or_lt_of_le hE with heq | hlt
  · rw [heq]
    have hu0 : (0 : ℚ) < (2 : ℚ) ^ (max (Int.log 2 b) emin - ((p : ℤ) - 1)) :=
      zpow_pos (by norm_num) _
    have hx : a / (2 : ℚ) ^ (max (Int.log 2 b) emin - ((p : ℤ) - 1))
        ≤ b / (2 : ℚ) ^ (max (Int.log 2 b) emin - ((p : ℤ) - 1)) :=
      div_le_div_of_nonneg_right hab hu0.le
    have hm := round_half_even_mono _ _ hx
    exact mul_le_mul_of_nonneg_right (by exact_mod_cast hm) hu0.le
  · -- the larger number lies in a higher binade
    have hEb : max (Int.log 2 b) emin = Int.log 2 b := by
      rcases max_cases (Int.log 2 b) emin with ⟨h, _⟩ | ⟨h, h'⟩
      · exact h
      · have : emin ≤ max (Int.log 2 a) emin := le_max_right _ _
        omega
    have hge : (2 : ℚ) ^ (Int.log 2 b) ≤ b := by
      have := Int.zpow_log_le_self (R := ℚ) (b := 2) (by norm_num) hbpos
      exact_mod_cast this
    rw [hEb] at hlt ⊢
    have hu0 : (0 : ℚ) < (2 : ℚ) ^ (Int.log 2 b - ((p : ℤ) - 1)) := zpow_pos (by norm_num) _
    have hpow : (((2 : ℤ) ^ (p - 1) : ℤ) : ℚ) * (2 : ℚ) ^ (Int.log 2 b - ((p : ℤ) - 1))
        = (2 : ℚ) ^ (Int.log 2 b) := by
      push_cast
      rw [← zpow_natCast, ← zpow_add₀ (by norm_num : (2 : ℚ) ≠ 0)]
      congr 1
      rw [Nat.cast_sub (by omega)]
      push_cast
      ring
    have hxge : (((2 : ℤ) ^ (p - 1) : ℤ) : ℚ)
        ≤ b / (2 : ℚ) ^ (Int.log 2 b - ((p : ℤ) - 1)) := by
      rw [le_div_iff₀ hu0, hpow]
      exact hge
    have hrge := round_half_even_ge _ _ hxge
    have hrb1 : (2 : ℚ) ^ (Int.log 2 b)
        ≤ ((round_half_even (b / (2 : ℚ) ^ (Int.log 2 b - ((p : ℤ) - 1))) : ℤ) : ℚ)
          * (2 : ℚ) ^ (Int.log 2 b - ((p : ℤ) - 1)) := by
      have h3 : (((2 : ℤ) ^ (p - 1) : ℤ) : ℚ)
          ≤ ((round_half_even (b / (2 : ℚ) ^ (Int.log 2 b - ((p : ℤ) - 1))) : ℤ) : ℚ) := by
        exact_mod_cast hrge
      have h4 := mul_le_mul_of_nonneg_right h3 hu0.le
      rw [hpow] at h4
      exact h4
    refine le_trans hra1 (le_trans ?_ hrb1)
    exact zpow_le_zpow_right₀ (by norm_num) (by omega)

/-- A number of magnitude below `2 ^ f` is rounded to a finite number of
magnitude at most `2 ^ f`. -/
theorem round_binary_abs_le (p : Nat) (emin emax : ℤ) (q : ℚ) (f : ℤ) (hf1 : emin < f)
    (hf2 : f ≤ emax) (h : |q| < (2 : ℚ) ^ f) :
    ∃ r : ℚ, round_binary p emin emax q = GDouble.fin r ∧ |r| ≤ (2 : ℚ) ^ f := by
  by_cases hq : q = 0
  · exact ⟨0, by simp [round_binary, hq], by simpa using (zpow_pos (by norm_num) f).le⟩
  have hpos : 0 < |q| := abs_pos.mpr hq
  have hlog : Int.log 2 |q| < f := by
    rw [← Int.lt_zpow_iff_log_lt (by norm_num) hpos]
    exact_mod_cast h
  have hlt : |q| < (2 : ℚ) ^ (Int.log 2 |q| + 1) := by
    have := Int.lt_zpow_succ_log_self (R := ℚ) (b := 2) (by norm_num) |q|
    exact_mod_cast this
  simp only [round_binary]
  rw [if_neg hq]
  have hE : Int.log 2 |q| ≤ max (Int.log 2 |q|) emin := le_max_left _ _
  have hE1 : max (Int.log 2 |q|) emin + 1 ≤ f := by
    rcases max_cases (Int.log 2 |q|) emin with ⟨h, _⟩ | ⟨h, _⟩ <;> rw [h] <;> omega
  generalize max (Int.log 2 |q|) emin = E at hE hE1 ⊢
  have hu0 : (0 : ℚ) < (2 : ℚ) ^ (E - ((p : ℤ) - 1)) := zpow_pos (by norm_num) _
  have hqE : |q| < (2 : ℚ) ^ (E + 1) :=
    lt_of_lt_of_le hlt (zpow_le_zpow_right₀ (by norm_num) (by omega))
  have hpow : (((2 : ℤ) ^ p : ℤ) : ℚ) * (2 : ℚ) ^ (E - ((p : ℤ) - 1)) = (2 : ℚ) ^ (E + 1) := by
    push_cast
    rw [← zpow_natCast, ← zpow_add₀ (by norm_num : (2 : ℚ) ≠ 0)]
    congr 1
    ring
  obtain ⟨hq1, hq2⟩ := abs_lt.mp hqE
  have hxle : q / (2 : ℚ) ^ (E - ((p : ℤ) - 1)) ≤ (((2 : ℤ) ^ p : ℤ) : ℚ) := by
    rw [div_le_iff₀ hu0, hpow]
    exact hq2.le
  have hxge : ((-(2 : ℤ) ^ p : ℤ) : ℚ) ≤ q / (2 : ℚ) ^ (E - ((p : ℤ) - 1)) := by
    rw [le_div_iff₀ hu0]
    have : ((-(2 : ℤ) ^ p : ℤ) : ℚ) * (2 : ℚ) ^ (E - ((p : ℤ) - 1)) = -(2 : ℚ) ^ (E + 1) := by
      rw [← hpow]
      push_cast
      ring
    rw [this]
    exact hq1.le
  have hrle := round_half_even_le _ _ hxle
  have hrge := round_half_even_ge _ _ hxge
  have habs : |((round_half_even (q / (2 : ℚ) ^ (E - ((p : ℤ) - 1))) : ℤ) : ℚ)
      * (2 : ℚ) ^ (E - ((p : ℤ) - 1))| ≤ (2 : ℚ) ^ (E + 1) := by
    rw [abs_mul, abs_of_pos hu0, ← hpow]
    refine mul_le_mul_of_nonneg_right ?_ hu0.le
    rw [abs_le]
    constructor
    · have : ((-(2 : ℤ) ^ p : ℤ) : ℚ)
          ≤ ((round_half_even (q / (2 : ℚ) ^ (E - ((p : ℤ) - 1))) : ℤ) : ℚ) := by
        exact_mod_cast hrge
      push_cast at this ⊢
      exact this
    · exact_mod_cast hrle
  have hle : (2 : ℚ) ^ (E + 1) ≤ (2 : ℚ) ^ f := zpow_le_zpow_right₀ (by norm_num) hE1
  have hfin : ¬ ((2 : ℚ) ^ (emax + 1) ≤
      |((round_half_even (q / (2 : ℚ) ^ (E - ((p : ℤ) - 1))) : ℤ) : ℚ)
        * (2 : ℚ) ^ (E - ((p : ℤ) - 1))|) := by
    rw [not_le]
    refine lt_of_le_of_lt (le_trans habs hle) ?_
    exact zpow_lt_zpow_right₀ (by norm_num) (by omega)
  rw [if_neg hfin]
  exact ⟨_, rfl, le_trans habs hle⟩

/-- The relative error of rounding a positive number of the normal range is at
most `2 ^ (-p)`. -/
theorem round_binary_error (p : Nat) (emin emax : ℤ) (q : ℚ) (he : emin < emax)
    (h1 : (2 : ℚ) ^ emin ≤ q) (h2 : q < (2 : ℚ) ^ emax) :
    ∃ r : ℚ, round_binary p emin emax q = GDouble.fin r ∧
      |r - q| ≤ q * (2 : ℚ) ^ (-(p : ℤ)) := by
  have hpos : 0 < q := lt_of_lt_of_le (zpow_pos (by norm_num) emin) h1
  obtain ⟨hr, _, _, _⟩ := round_binary_pos_eq p emin emax q he hpos h2
  refine ⟨_, hr, ?_⟩
  have hlog : emin ≤ Int.log 2 q := by
    rw [← Int.zpow_le_iff_le_log (by norm_num) hpos]
    exact_mod_cast h1
  have hge : (2 : ℚ) ^ (Int.log 2 q) ≤ q := by
    have := Int.zpow_log_le_self (R := ℚ) (b := 2) (by norm_num) hpos
    exact_mod_cast this
  rw [max_eq_left hlog]
  generalize Int.log 2 q = E at hge
  have hu0 : (0 : ℚ) < (2 : ℚ) ^ (E - ((p : ℤ) - 1)) := zpow_pos (by norm_num) _
  have herr := round_half_even_abs_sub_le (q / (2 : ℚ) ^ (E - ((p : ℤ) - 1)))
  have hfact : ((round_half_even (q / (2 : ℚ) ^ (E - ((p : ℤ) - 1))) : ℤ) : ℚ)
      * (2 : ℚ) ^ (E - ((p : ℤ) - 1)) - q
      = (((round_half_even (q / (2 : ℚ) ^ (E - ((p : ℤ) - 1))) : ℤ) : ℚ)
          - q / (2 : ℚ) ^ (E - ((p : ℤ) - 1))) * (2 : ℚ) ^ (E - ((p : ℤ) - 1)) := by
    field_simp
  rw [hfact, abs_mul, abs_of_pos hu0]
  have hhalf : (1 / 2 : ℚ) * (2 : ℚ) ^ (E - ((p : ℤ) - 1)) = (2 : ℚ) ^ E * (2 : ℚ) ^ (-(p : ℤ)) := by
    rw [← zpow_add₀ (by norm_num : (2 : ℚ) ≠ 0)]
    have : (1 / 2 : ℚ) = (2 : ℚ) ^ (-1 : ℤ) := by norm_num
    rw [this, ← zpow_add₀ (by norm_num : (2 : ℚ) ≠ 0)]
    congr 1
    ring
  calc |((round_half_even (q / (2 : ℚ) ^ (E - ((p : ℤ) - 1))) : ℤ) : ℚ)
          - q / (2 : ℚ) ^ (E - ((p : ℤ) - 1))| * (2 : ℚ) ^ (E - ((p : ℤ) - 1))
      ≤ (1 / 2 : ℚ) * (2 : ℚ) ^ (E - ((p : ℤ) - 1)) := mul_le_mul_of_nonneg_right herr hu0.le
    _ = (2 : ℚ) ^ E * (2 : ℚ) ^ (-(p : ℤ)) := hhalf
    _ ≤ q * (2 : ℚ) ^ (-(p : ℤ)) :=
        mul_le_mul_of_nonneg_right hge (zpow_pos (by norm_num) _).le

theorem to_binary64_fin (q : ℚ) : (GDouble.fin q).to_binary64 = binary64 q := rfl

theorem to_binary64_intCast (n : ℤ) (h : |n| < 9007199254740992) :
    (GDouble.fin (n : ℚ)).to_binary64 = GDouble.fin (n : ℚ) :=
  binary64_intCast n h

theorem to_binary64_natCast (n : ℕ) (h : n < 9007199254740992) :
    (GDouble.ofNat n).to_binary64 = GDouble.ofNat n := by
  have := to_binary64_intCast (n : ℤ) (by rw [abs_of_nonneg (by omega)]; omega)
  rw [Int.cast_natCast] at this
  exact this

theorem to_binary32_natCast (n : ℕ) (h : n ≤ 16777216) :
    (GDouble.ofNat n).to_binary32 = GDouble.ofNat n :=
  binary32_natCast n h

theorem to_binary64_zero : (GDouble.fin 0).to_binary64 = GDouble.fin 0 := by
  simp [GDouble.to_binary64, binary64, round_binary]

theorem to_binary64_nonneg (q : ℚ) (h0 : 0 ≤ q) (h1 : q < 4294967296) :
    ∃ r : ℚ, (GDouble.fin q).to_binary64 = GDouble.fin r ∧ 0 ≤ r := by
  refine round_binary_nonneg 53 (-1022) 1023 q (by norm_num) h0 (lt_trans h1 ?_)
  have : (4294967296 : ℚ) = (2 : ℚ) ^ (32 : ℤ) := by norm_num
  rw [this]
  exact zpow_lt_zpow_right₀ (by norm_num) (by norm_num)

/-- The rounding to binary64 of a positive number of the normal range is off by
at most the fraction `2^-53` of the number. -/
theorem to_binary64_error (q : ℚ) (h1 : 1 / 1099511627776 ≤ q) (h2 : q < 1152921504606846976) :
    ∃ r : ℚ, (GDouble.fin q).to_binary64 = GDouble.fin r ∧
      |r - q| ≤ q / 9007199254740992 := by
  have hmin : (2 : ℚ) ^ (-1022 : ℤ) ≤ q := by
    have h40 : (1 / 1099511627776 : ℚ) = (2 : ℚ) ^ (-40 : ℤ) := by norm_num
    rw [h40] at h1
    exact le_trans (zpow_le_zpow_right₀ (by norm_num) (by norm_num)) h1
  have hmax : q < (2 : ℚ) ^ (1023 : ℤ) := by
    have h60 : (1152921504606846976 : ℚ) = (2 : ℚ) ^ (60 : ℤ) := by norm_num
    rw [h60] at h2
    exact lt_of_lt_of_le h2 (zpow_le_zpow_right₀ (by norm_num) (by norm_num))
  obtain ⟨r, hr, herr⟩ := round_binary_error 53 (-1022) 1023 q (by norm_num) hmin hmax
  refine ⟨r, hr, ?_⟩
  have h53 : (2 : ℚ) ^ (-((53 : ℕ) : ℤ)) = 1 / 9007199254740992 := by norm_num
  rw [h53] at herr
  rw [div_eq_mul_one_div]
  exact herr

/-- Rounding to binary64 keeps the order of numbers that are not negative. -/
theorem to_binary64_mono (a b : ℚ) (h0 : 0 ≤ a) (hab : a ≤ b) (hb : b < 1152921504606846976) :
    ∃ ra rb : ℚ, (GDouble.fin a).to_binary64 = GDouble.fin ra ∧
      (GDouble.fin b).to_binary64 = GDouble.fin rb ∧ ra ≤ rb := by
  have hmax : b < (2 : ℚ) ^ (1023 : ℤ) := by
    have h60 : (1152921504606846976 : ℚ) = (2 : ℚ) ^ (60 : ℤ) := by norm_num
    rw [h60] at hb
    exact lt_of_lt_of_le hb (zpow_le_zpow_right₀ (by norm_num) (by norm_num))
  exact round_binary_mono 53 (-1022) 1023 a b (by norm_num) (by norm_num) h0 hab hmax

/-- A number of magnitude below one half is rounded to binary64 to a number of
magnitude at most one half. -/
theorem to_binary64_small (q : ℚ) (h : |q| < 1 / 2) :
    ∃ r : ℚ, (GDouble.fin q).to_binary64 = GDouble.fin r ∧ |r| ≤ 1 / 2 := by
  have h2 : (1 / 2 : ℚ) = (2 : ℚ) ^ (-1 : ℤ) := by norm_num
  rw [h2] at h ⊢
  exact round_binary_abs_le 53 (-1022) 1023 q (-1) (by norm_num) (by norm_num) h

/-- With the identity for the roundings, `render_each_rounded` is `render_each`. -/
theorem render_each_rounded_id (area : GdkRectangle) (stride : Nat) :
    render_each_rounded id id area stride = render_each area stride := rfl

/-- With the identity for the rounding, the loop with roundings makes the calls
of `uber_line_graph_render_line_loop`. -/
theorem render_line_loop_rounded_id (undef : GDouble → Nat) (area : GdkRectangle)
    (each : GDouble) (x_epoch : Nat) (raw : GRing GDouble) :
    ∀ (n i last_x last_y : Nat),
      (uber_line_graph_render_line_loop_rounded id undef area each x_epoch raw n i last_x
          last_y).map Prod.fst
        = uber_line_graph_render_line_loop undef area each x_epoch raw n i last_x last_y := by
  intro n
  induction n with
  | zero => intro i last_x last_y; rfl
  | succ n ih =>
    intro i last_x last_y
    simp only [uber_line_graph_render_line_loop_rounded, uber_line_graph_render_line_loop]
    cases hread : g_ring_get_index raw i with
    | none => rfl
    | some val =>
      simp only []
      by_cases hs : val = NEG_INFINITY
      · rw [if_pos hs, if_pos hs]
        rfl
      · rw [if_neg hs, if_neg hs]
        simp only [render_line_y_double, render_line_x_double, id]
        rw [← ih]
        cases uber_line_graph_render_line_loop_rounded id undef area each x_epoch raw n (i + 1)
            (to_guint undef
              (GDouble.sub (GDouble.ofNat x_epoch) (GDouble.mul each (GDouble.ofNat i))))
            (to_guint undef (GDouble.sub (GDouble.ofInt (area.y + area.height)) val)) with
        | none => rfl
        | some r => rfl

/-- With the identity for the roundings, `uber_line_graph_render_line_rounded`
makes the calls of `uber_line_graph_render_line`. -/
theorem render_line_rounded_id (undef : GDouble → Nat) (g : UberLineGraph σ)
    (area : GdkRectangle) (line : LineInfo) :
    (uber_line_graph_render_line_rounded id id undef g area line).map Prod.fst
      = uber_line_graph_render_line undef g area line := by
  simp only [uber_line_graph_render_line_rounded, uber_line_graph_render_line,
    render_each_rounded_id]
  rw [← render_line_loop_rounded_id]
  cases uber_line_graph_render_line_loop_rounded id undef area
      (render_each area g.priv.stride) (render_x_epoch area) line.raw_data line.raw_data.len
      0 0 0 with
  | none => rfl
  | some r => rfl

theorem to_guint_of_range_floor (undef : GDouble → Nat) (q : ℚ) (h0 : -1 < q)
    (h1 : q < 4294967296) : to_guint undef (GDouble.fin q) = (Int.floor q).toNat := by
  simp only [to_guint]
  rw [if_pos ⟨h0, h1⟩]

/-- For a stride between 2 and `2^24` and a width that is not negative, `each`
with its roundings is the quotient `area.width / (stride - 1)` up to the relative
error `2^-53`. -/
theorem render_each_rounded_bound (area : GdkRectangle) (stride : Nat) (hs : 2 ≤ stride)
    (hs24 : stride ≤ 16777216) (hw : 0 ≤ area.width) (hw32 : area.width < 4294967296) :
    ∃ e1 : ℚ, render_each_rounded GDouble.to_binary32 GDouble.to_binary64 area stride
        = GDouble.fin e1 ∧ 0 ≤ e1 ∧
      e1 * ((stride : ℚ) - 1) ≤ (area.width : ℚ) * (1 + 1 / 9007199254740992) ∧
      (e1 = 0 ∨ 1 / 33554432 ≤ e1) := by
  have h32 := to_binary32_natCast stride hs24
  have hsub : GDouble.sub (GDouble.ofNat stride) (GDouble.fin 1)
      = GDouble.fin (((stride : ℤ) - 1 : ℤ) : ℚ) := by
    simp [GDouble.sub, GDouble.ofNat]
  have h64 := to_binary64_intCast ((stride : ℤ) - 1)
    (by rw [abs_of_nonneg (by omega)]; omega)
  have hd1 : (1 : ℚ) ≤ (stride : ℚ) - 1 := by
    have : (2 : ℚ) ≤ (stride : ℚ) := by exact_mod_cast hs
    linarith
  have hd2 : (stride : ℚ) - 1 < 16777216 := by
    have : (stride : ℚ) ≤ 16777216 := by exact_mod_cast hs24
    linarith
  have hne : (((stride : ℤ) - 1 : ℤ) : ℚ) ≠ 0 := by
    push_cast
    linarith
  have hdiv : GDouble.div (GDouble.ofInt area.width) (GDouble.fin (((stride : ℤ) - 1 : ℤ) : ℚ))
      = GDouble.fin ((area.width : ℚ) / ((stride : ℚ) - 1)) := by
    simp only [GDouble.div, GDouble.ofInt]
    rw [if_neg hne]
    push_cast
    rfl
  have heq : render_each_rounded GDouble.to_binary32 GDouble.to_binary64 area stride
      = (GDouble.fin ((area.width : ℚ) / ((stride : ℚ) - 1))).to_binary64 := by
    simp only [render_each_rounded]
    rw [h32, hsub, h64, hdiv]
  rw [heq]
  have hwq0 : (0 : ℚ) ≤ (area.width : ℚ) := by exact_mod_cast hw
  have hwq1 : (area.width : ℚ) < 4294967296 := by exact_mod_cast hw32
  by_cases hw0 : area.width = 0
  · refine ⟨0, ?_, le_refl _, ?_, Or.inl rfl⟩
    · rw [hw0]
      simp only [Int.cast_zero, zero_div]
      exact to_binary64_zero
    · rw [zero_mul]
      exact mul_nonneg hwq0 (by norm_num)
  · have hw1 : (1 : ℚ) ≤ (area.width : ℚ) := by
      have : 1 ≤ area.width := by omega
      exact_mod_cast this
    have hq1 : (1 / 1099511627776 : ℚ) ≤ (area.width : ℚ) / ((stride : ℚ) - 1) := by
      rw [le_div_iff₀ (by linarith)]
      linarith
    have hq2 : (area.width : ℚ) / ((stride : ℚ) - 1) < 1152921504606846976 := by
      rw [div_lt_iff₀ (by linarith)]
      nlinarith
    have hq3 : (1 / 16777216 : ℚ) ≤ (area.width : ℚ) / ((stride : ℚ) - 1) := by
      rw [le_div_iff₀ (by linarith)]
      linarith
    obtain ⟨e1, he1, herr⟩ := to_binary64_error _ hq1 hq2
    obtain ⟨herr1, herr2⟩ := abs_le.mp herr
    have hqd : (area.width : ℚ) / ((stride : ℚ) - 1) * ((stride : ℚ) - 1) = (area.width : ℚ) :=
      div_mul_cancel₀ _ (by linarith)
    refine ⟨e1, he1, by linarith, ?_, Or.inr (by linarith)⟩
    have hle : e1 ≤ (area.width : ℚ) / ((stride : ℚ) - 1) * (1 + 1 / 9007199254740992) := by
      linarith
    calc e1 * ((stride : ℚ) - 1)
        ≤ (area.width : ℚ) / ((stride : ℚ) - 1) * (1 + 1 / 9007199254740992)
            * ((stride : ℚ) - 1) := mul_le_mul_of_nonneg_right hle (by linarith)
      _ = (area.width : ℚ) * (1 + 1 / 9007199254740992) := by
          rw [mul_right_comm, hqd]

/-- The rounded product `each * i` for an `each` that is the quotient
`w / d` up to the relative error `2^-53` and `i ≤ d`: it is finite, not
negative, and exceeds `w` by less than a quarter. -/
theorem render_product_bound (e1 w d : ℚ) (i : ℕ) (he0 : 0 ≤ e1)
    (hed : e1 * d ≤ w * (1 + 1 / 9007199254740992)) (hnorm : e1 = 0 ∨ 1 / 33554432 ≤ e1)
    (hw : 0 ≤ w) (hw32 : w < 4294967296) (hi : (i : ℚ) ≤ d) :
    ∃ p : ℚ, (GDouble.mul (GDouble.fin e1) (GDouble.ofNat i)).to_binary64 = GDouble.fin p ∧
      0 ≤ p ∧ p ≤ w + 1 / 4 := by
  have hmul : GDouble.mul (GDouble.fin e1) (GDouble.ofNat i) = GDouble.fin (e1 * (i : ℚ)) := rfl
  rw [hmul]
  have hi0 : (0 : ℚ) ≤ (i : ℚ) := Nat.cast_nonneg i
  by_cases hz : e1 * (i : ℚ) = 0
  · rw [hz]
    exact ⟨0, to_binary64_zero, le_refl _, by linarith⟩
  · have he1 : e1 ≠ 0 := fun h => hz (by rw [h, zero_mul])
    have hi1 : (i : ℚ) ≠ 0 := fun h => hz (by rw [h, mul_zero])
    have he2 : (1 / 33554432 : ℚ) ≤ e1 := by
      rcases hnorm with h | h
      · exact absurd h he1
      · exact h
    have hi2 : (1 : ℚ) ≤ (i : ℚ) := by
      have : i ≠ 0 := fun h => hi1 (by rw [h]; simp)
      have : 1 ≤ i := by omega
      exact_mod_cast this
    have hprod_le : e1 * (i : ℚ) ≤ w * (1 + 1 / 9007199254740992) :=
      le_trans (mul_le_mul_of_nonneg_left hi he0) hed
    have hq1 : (1 / 1099511627776 : ℚ) ≤ e1 * (i : ℚ) := by nlinarith
    have hq2 : e1 * (i : ℚ) < 1152921504606846976 := by nlinarith
    obtain ⟨p, hp, herr⟩ := to_binary64_error _ hq1 hq2
    obtain ⟨herr1, herr2⟩ := abs_le.mp herr
    refine ⟨p, hp, ?_, ?_⟩
    · have : 0 ≤ e1 * (i : ℚ) := mul_nonneg he0 hi0
      linarith
    · have h1 : p ≤ e1 * (i : ℚ) * (1 + 1 / 9007199254740992) := by linarith
      have h2 : e1 * (i : ℚ) * (1 + 1 / 9007199254740992)
          ≤ w * (1 + 1 / 9007199254740992) * (1 + 1 / 9007199254740992) :=
        mul_le_mul_of_nonneg_right hprod_le (by norm_num)
      have h3 : w * (1 + 1 / 9007199254740992) * (1 + 1 / 9007199254740992) ≤ w + 1 / 4 := by
        nlinarith
      linarith

/-- The double converted for `x`, for an `each` as in `render_product_bound`, a
width `w` and `x_epoch ≥ w` below `2^32`: it is finite, above -1, below
`x_epoch + 1`, and not below `x_epoch - w - 1`. -/
theorem render_line_x_double_bound (x_epoch : ℕ) (e1 d : ℚ) (w : ℤ) (i : ℕ) (he0 : 0 ≤ e1)
    (hed : e1 * d ≤ (w : ℚ) * (1 + 1 / 9007199254740992))
    (hnorm : e1 = 0 ∨ 1 / 33554432 ≤ e1) (hw : 0 ≤ w) (hwx : w ≤ (x_epoch : ℤ))
    (hxe : x_epoch < 4294967296) (hi : (i : ℚ) ≤ d) :
    ∃ r : ℚ, render_line_x_double GDouble.to_binary64 x_epoch (GDouble.fin e1) i
        = GDouble.fin r ∧ -1 < r ∧ r < (x_epoch : ℚ) + 1 ∧
      (((x_epoch : ℤ) - w - 1 : ℤ) : ℚ) ≤ r := by
  have hwq0 : (0 : ℚ) ≤ (w : ℚ) := by exact_mod_cast hw
  have hwq1 : (w : ℚ) < 4294967296 := by
    have : w < 4294967296 := by omega
    exact_mod_cast this
  obtain ⟨p, hp, hp0, hp1⟩ := render_product_bound e1 (w : ℚ) d i he0 hed hnorm hwq0 hwq1 hi
  have hsub : GDouble.sub (GDouble.ofNat x_epoch) (GDouble.fin p)
      = GDouble.fin ((x_epoch : ℚ) - p) := rfl
  simp only [render_line_x_double]
  rw [hp, hsub]
  have hxq : (x_epoch : ℚ) < 4294967296 := by exact_mod_cast hxe
  have hxe64 : (GDouble.fin (x_epoch : ℚ)).to_binary64 = GDouble.fin (x_epoch : ℚ) :=
    to_binary64_natCast x_epoch (by omega)
  have hcast : (((x_epoch : ℤ) - w - 1 : ℤ) : ℚ) = (x_epoch : ℚ) - (w : ℚ) - 1 := by
    push_cast
    ring
  by_cases hq : 0 ≤ (x_epoch : ℚ) - p
  · obtain ⟨ra, rb, hra, hrb, hab⟩ := to_binary64_mono ((x_epoch : ℚ) - p) (x_epoch : ℚ) hq
      (by linarith) (by linarith)
    rw [hxe64] at hrb
    have hrb' : rb = (x_epoch : ℚ) := (GDouble.fin.inj hrb).symm
    obtain ⟨r0, ra', hr0, hra', h0a⟩ := to_binary64_mono 0 ((x_epoch : ℚ) - p) (le_refl _) hq
      (by linarith)
    rw [to_binary64_zero] at hr0
    have hr0' : r0 = 0 := (GDouble.fin.inj hr0).symm
    have hsame : ra' = ra := GDouble.fin.inj (hra'.symm.trans hra)
    refine ⟨ra, hra, by linarith, by linarith, ?_⟩
    by_cases hm : 0 ≤ (x_epoch : ℤ) - w - 1
    · have hmq : (0 : ℚ) ≤ (((x_epoch : ℤ) - w - 1 : ℤ) : ℚ) := by exact_mod_cast hm
      obtain ⟨rm, rq, hrm, hrq, hmq'⟩ := to_binary64_mono (((x_epoch : ℤ) - w - 1 : ℤ) : ℚ)
        ((x_epoch : ℚ) - p) hmq (by rw [hcast]; linarith) (by linarith)
      rw [to_binary64_intCast _ (by rw [abs_of_nonneg hm]; omega)] at hrm
      have hrm' : rm = (((x_epoch : ℤ) - w - 1 : ℤ) : ℚ) := (GDouble.fin.inj hrm).symm
      have hsame' : rq = ra := GDouble.fin.inj (hrq.symm.trans hra)
      rw [← hrm', ← hsame']
      exact hmq'
    · have : (x_epoch : ℤ) - w - 1 ≤ -1 := by omega
      have hle : (((x_epoch : ℤ) - w - 1 : ℤ) : ℚ) ≤ -1 := by exact_mod_cast this
      linarith
  · -- the difference is negative: `x_epoch = w` and the residue is a quarter at most
    have hq' : (x_epoch : ℚ) - p < 0 := not_le.mp hq
    have hxw : (x_epoch : ℤ) = w := by
      have h1 : (x_epoch : ℚ) < (w : ℚ) + 1 / 4 := by linarith
      have h2 : (x_epoch : ℚ) < ((w + 1 : ℤ) : ℚ) := by
        push_cast
        linarith
      have h3 : (x_epoch : ℤ) < w + 1 := by exact_mod_cast h2
      omega
    have hxwq : (x_epoch : ℚ) = (w : ℚ) := by exact_mod_cast hxw
    have hsmall : |(x_epoch : ℚ) - p| < 1 / 2 := by
      rw [abs_lt]
      constructor <;> linarith
    obtain ⟨r, hr, hr1⟩ := to_binary64_small _ hsmall
    obtain ⟨hr2, hr3⟩ := abs_le.mp hr1
    have hx0 : (0 : ℚ) ≤ (x_epoch : ℚ) := Nat.cast_nonneg _
    refine ⟨r, hr, by linarith, by linarith, ?_⟩
    rw [hcast, hxwq]
    linarith

/-- The value stored in `x` does not increase from iteration `i` to a later
iteration `j`, for an `each` as in `render_product_bound`. -/
theorem render_line_x_double_mono (undef : GDouble → Nat) (x_epoch : ℕ) (e1 d : ℚ) (w : ℤ)
    (i j : ℕ) (he0 : 0 ≤ e1) (hed : e1 * d ≤ (w : ℚ) * (1 + 1 / 9007199254740992))
    (hnorm : e1 = 0 ∨ 1 / 33554432 ≤ e1) (hw : 0 ≤ w) (hwx : w ≤ (x_epoch : ℤ))
    (hxe : x_epoch < 4294967296) (hij : i ≤ j) (hj : (j : ℚ) ≤ d) :
    to_guint undef (render_line_x_double GDouble.to_binary64 x_epoch (GDouble.fin e1) j)
      ≤ to_guint undef (render_line_x_double GDouble.to_binary64 x_epoch (GDouble.fin e1) i) := by
  have hijq : (i : ℚ) ≤ (j : ℚ) := by exact_mod_cast hij
  have hi : (i : ℚ) ≤ d := le_trans hijq hj
  have hwq0 : (0 : ℚ) ≤ (w : ℚ) := by exact_mod_cast hw
  have hwq1 : (w : ℚ) < 4294967296 := by
    have : w < 4294967296 := by omega
    exact_mod_cast this
  have hxq : (x_epoch : ℚ) < 4294967296 := by exact_mod_cast hxe
  have hwxq : (w : ℚ) ≤ (x_epoch : ℚ) := by exact_mod_cast hwx
  have hxq1 : (x_epoch : ℚ) + 1 ≤ 4294967296 := by
    have : x_epoch + 1 ≤ 4294967296 := by omega
    exact_mod_cast this
  obtain ⟨ri, hri, hri1, hri2, _⟩ :=
    render_line_x_double_bound x_epoch e1 d w i he0 hed hnorm hw hwx hxe hi
  obtain ⟨rj, hrj, hrj1, hrj2, _⟩ :=
    render_line_x_double_bound x_epoch e1 d w j he0 hed hnorm hw hwx hxe hj
  rw [hri, hrj]
  have hgi := to_guint_of_range_floor undef ri hri1 (by linarith)
  have hgj := to_guint_of_range_floor undef rj hrj1 (by linarith)
  rw [hgi, hgj]
  -- the products, in order
  obtain ⟨pj, hpj, hpj0, hpj1⟩ :=
    render_product_bound e1 (w : ℚ) d j he0 hed hnorm hwq0 hwq1 hj
  have hprod : e1 * (i : ℚ) ≤ e1 * (j : ℚ) := mul_le_mul_of_nonneg_left hijq he0
  have hjle : e1 * (j : ℚ) ≤ (w : ℚ) * (1 + 1 / 9007199254740992) :=
    le_trans (mul_le_mul_of_nonneg_left hj he0) hed
  obtain ⟨pa, pb, hpa, hpb, hpab⟩ := to_binary64_mono (e1 * (i : ℚ)) (e1 * (j : ℚ))
    (mul_nonneg he0 (Nat.cast_nonneg i)) hprod (by nlinarith)
  have hmi : GDouble.mul (GDouble.fin e1) (GDouble.ofNat i) = GDouble.fin (e1 * (i : ℚ)) := rfl
  have hmj : GDouble.mul (GDouble.fin e1) (GDouble.ofNat j) = GDouble.fin (e1 * (j : ℚ)) := rfl
  have hpbj : pb = pj := by
    rw [hmj] at hpj
    exact GDouble.fin.inj (hpb.symm.trans hpj)
  have hxi : render_line_x_double GDouble.to_binary64 x_epoch (GDouble.fin e1) i
      = (GDouble.fin ((x_epoch : ℚ) - pa)).to_binary64 := by
    simp only [render_line_x_double]
    rw [hmi, hpa]
    rfl
  have hxj : render_line_x_double GDouble.to_binary64 x_epoch (GDouble.fin e1) j
      = (GDouble.fin ((x_epoch : ℚ) - pb)).to_binary64 := by
    simp only [render_line_x_double]
    rw [hmj, hpb]
    rfl
  rw [hxi] at hri
  rw [hxj] at hrj
  by_cases hq : 0 ≤ (x_epoch : ℚ) - pb
  · obtain ⟨ra, rb, hra, hrb, hab⟩ := to_binary64_mono ((x_epoch : ℚ) - pb)
      ((x_epoch : ℚ) - pa) hq (by linarith) (by
        have : 0 ≤ pa := by
          obtain ⟨r0, ra', hr0, hra', h0a⟩ := to_binary64_mono 0 (e1 * (i : ℚ)) (le_refl _)
            (mul_nonneg he0 (Nat.cast_nonneg i)) (by nlinarith)
          rw [to_binary64_zero] at hr0
          have h1 : r0 = 0 := (GDouble.fin.inj hr0).symm
          have h2 : ra' = pa := GDouble.fin.inj (hra'.symm.trans hpa)
          rw [← h2, ← h1]
          exact h0a
        linarith)
    have h1 : ra = rj := GDouble.fin.inj (hra.symm.trans hrj)
    have h2 : rb = ri := GDouble.fin.inj (hrb.symm.trans hri)
    rw [h1, h2] at hab
    exact Int.toNat_le_toNat (Int.floor_le_floor hab)
  · have hq' : (x_epoch : ℚ) - pb < 0 := not_le.mp hq
    have hsmall : |(x_epoch : ℚ) - pb| < 1 / 2 := by
      rw [abs_lt, hpbj]
      rw [hpbj] at hq'
      constructor <;> linarith
    obtain ⟨r, hr, hr1⟩ := to_binary64_small _ hsmall
    obtain ⟨_, hr3⟩ := abs_le.mp hr1
    have h1 : r = rj := GDouble.fin.inj (hr.symm.trans hrj)
    have hfl : Int.floor rj ≤ 0 := by
      have : Int.floor rj < 1 := by
        rw [Int.floor_lt]
        push_cast
        rw [← h1]
        linarith
      omega
    have : (Int.floor rj).toNat = 0 := by omega
    rw [this]
    exact Nat.zero_le _

/-- When the stride is at most `2^24` and `area.width` is `stride - 1` times a
whole number `k`, the roundings leave `each` at exactly `k`. -/
theorem render_each_rounded_exact (area : GdkRectangle) (stride : Nat) (k : ℤ)
    (hs : 2 ≤ stride) (hs24 : stride ≤ 16777216) (hk : area.width = ((stride : ℤ) - 1) * k)
    (hk1 : |k| < 9007199254740992) :
    render_each_rounded GDouble.to_binary32 GDouble.to_binary64 area stride
      = GDouble.fin (k : ℚ) := by
  have h32 := to_binary32_natCast stride hs24
  have hsub : GDouble.sub (GDouble.ofNat stride) (GDouble.fin 1)
      = GDouble.fin (((stride : ℤ) - 1 : ℤ) : ℚ) := by
    simp [GDouble.sub, GDouble.ofNat]
  have h64 := to_binary64_intCast ((stride : ℤ) - 1)
    (by rw [abs_of_nonneg (by omega)]; omega)
  have hne : (((stride : ℤ) - 1 : ℤ) : ℚ) ≠ 0 := by
    exact_mod_cast (by omega : (stride : ℤ) - 1 ≠ 0)
  have hdiv : GDouble.div (GDouble.ofInt area.width) (GDouble.fin (((stride : ℤ) - 1 : ℤ) : ℚ))
      = GDouble.fin (k : ℚ) := by
    simp only [GDouble.div, GDouble.ofInt]
    rw [if_neg hne, hk]
    congr 1
    push_cast
    push_cast at hne
    field_simp
  simp only [render_each_rounded]
  rw [h32, hsub, h64, hdiv]
  exact to_binary64_intCast k hk1

/-- For a stride of at least 2 and a width that is not negative, `each` with its
roundings is finite and not negative. -/
theorem render_each_rounded_finite (area : GdkRectangle) (stride : Nat) (hs : 2 ≤ stride)
    (hs32 : stride < 4294967296) (hw : 0 ≤ area.width) (hw32 : area.width < 4294967296) :
    ∃ r : ℚ, render_each_rounded GDouble.to_binary32 GDouble.to_binary64 area stride
      = GDouble.fin r ∧ 0 ≤ r := by
  have hsq1 : (2 : ℚ) ^ (1 : ℤ) ≤ (stride : ℚ) := by
    have : (2 : ℚ) ≤ (stride : ℚ) := by exact_mod_cast hs
    simpa using this
  have hsq2 : (stride : ℚ) < (2 : ℚ) ^ (32 : ℤ) := by
    have : (stride : ℚ) < 4294967296 := by exact_mod_cast hs32
    norm_num
    exact_mod_cast hs32
  obtain ⟨r1, hr1, hr1a, hr1b⟩ := round_binary_bounds 24 (-126) 127 (stride : ℚ) 1 32
    (by norm_num) (by norm_num) (by norm_num) hsq1 hsq2
  have h1a : (1 : ℚ) ≤ r1 - 1 := by
    have : (2 : ℚ) ^ (1 : ℤ) = 2 := by norm_num
    rw [this] at hr1a
    linarith
  have h1b : r1 - 1 < (2 : ℚ) ^ (33 : ℤ) := by
    have h32 : (2 : ℚ) ^ (32 : ℤ) < (2 : ℚ) ^ (33 : ℤ) :=
      zpow_lt_zpow_right₀ (by norm_num) (by norm_num)
    linarith
  obtain ⟨r2, hr2, hr2a, _⟩ := round_binary_bounds 53 (-1022) 1023 (r1 - 1) 0 33
    (by norm_num) (by norm_num) (by norm_num) (by simpa using h1a) h1b
  have hr2pos : (1 : ℚ) ≤ r2 := by simpa using hr2a
  have hwq0 : (0 : ℚ) ≤ (area.width : ℚ) := by exact_mod_cast hw
  have hwq1 : (area.width : ℚ) < 4294967296 := by exact_mod_cast hw32
  have hq0 : (0 : ℚ) ≤ (area.width : ℚ) / r2 := div_nonneg hwq0 (by linarith)
  have hq1 : (area.width : ℚ) / r2 < 4294967296 := by
    rw [div_lt_iff₀ (by linarith)]
    nlinarith
  obtain ⟨r3, hr3, hr3a⟩ := to_binary64_nonneg _ hq0 hq1
  refine ⟨r3, ?_, hr3a⟩
  simp only [render_each_rounded, GDouble.ofNat, GDouble.ofInt, GDouble.to_binary32, binary32,
    hr1, GDouble.sub, GDouble.to_binary64, binary64, hr2, GDouble.div]
  rw [if_neg (by linarith)]
  exact hr3

/-- In iteration 0 the double converted for `x` is `x_epoch` itself. -/
theorem render_line_x_double_zero (x_epoch : Nat) (r : ℚ) (h : x_epoch < 9007199254740992) :
    render_line_x_double GDouble.to_binary64 x_epoch (GDouble.fin r) 0
      = GDouble.ofNat x_epoch := by
  have hm : GDouble.mul (GDouble.fin r) (GDouble.ofNat 0) = GDouble.fin 0 := by
    simp [GDouble.mul, GDouble.ofNat]
  have hsub : GDouble.sub (GDouble.ofNat x_epoch) (GDouble.fin 0) = GDouble.ofNat x_epoch := by
    simp [GDouble.sub, GDouble.ofNat]
  simp only [render_line_x_double]
  rw [hm, to_binary64_zero, hsub]
  exact to_binary64_natCast x_epoch h

/-- When `each` is the whole number `k` and the numbers involved stay below
`2^53`, the double converted for `x` in iteration `i` is exactly
`x_epoch - k * i`. -/
theorem render_line_x_double_exact (x_epoch : Nat) (k : ℤ) (i : Nat)
    (h1 : |k * (i : ℤ)| < 9007199254740992)
    (h2 : |(x_epoch : ℤ) - k * (i : ℤ)| < 9007199254740992) :
    render_line_x_double GDouble.to_binary64 x_epoch (GDouble.fin (k : ℚ)) i
      = GDouble.fin (((x_epoch : ℤ) - k * (i : ℤ) : ℤ) : ℚ) := by
  have hm : GDouble.mul (GDouble.fin (k : ℚ)) (GDouble.ofNat i)
      = GDouble.fin ((k * (i : ℤ) : ℤ) : ℚ) := by
    simp [GDouble.mul, GDouble.ofNat]
  have hsub : GDouble.sub (GDouble.ofNat x_epoch) (GDouble.fin ((k * (i : ℤ) : ℤ) : ℚ))
      = GDouble.fin (((x_epoch : ℤ) - k * (i : ℤ) : ℤ) : ℚ) := by
    simp [GDouble.sub, GDouble.ofNat]
  simp only [render_line_x_double]
  rw [hm, to_binary64_intCast _ h1, hsub]
  exact to_binary64_intCast _ h2

theorem to_guint_intCast (undef : GDouble → Nat) (n : ℤ) (h0 : 0 ≤ n) (h1 : n < 4294967296) :
    ((to_guint undef (GDouble.fin (n : ℚ)) : ℕ) : ℤ) = n := by
  have hq0 : (0 : ℚ) ≤ (n : ℚ) := by exact_mod_cast h0
  have hq1 : (n : ℚ) < 4294967296 := by exact_mod_cast h1
  simp only [to_guint]
  rw [if_pos ⟨by linarith, hq1⟩, Int.floor_intCast]
  exact Int.toNat_of_nonneg h0

theorem round_half_even_tie (f : ℤ) :
    round_half_even ((f : ℚ) + 1 / 2) = if f % 2 = 0 then f else f + 1 := by
  have hfl : Int.floor ((f : ℚ) + 1 / 2) = f := by
    rw [Int.floor_eq_iff]
    constructor <;> linarith
  unfold round_half_even
  rw [hfl, if_neg (by norm_num), if_neg (by norm_num)]

theorem to_binary32_fin (q : ℚ) : (GDouble.fin q).to_binary32 = binary32 q := rfl

/-- With the identity for the roundings, the segment of the incremental render
with roundings is `render_fast_segment`. -/
theorem render_fast_segment_rounded_id (rect : GdkRectangle) (epoch : Nat) (each : GDouble)
    (y last_y : GDouble) :
    render_fast_segment_rounded id id rect epoch each y last_y
      = render_fast_segment rect epoch each y last_y := rfl

/-! ## The two render paths side by side -/

theorem render_each_finite (area : GdkRectangle) (stride : Nat) (hs : 2 ≤ stride) :
    render_each area stride = GDouble.fin ((area.width : ℚ) / ((stride : ℚ) - 1)) := by
  have hne : ((stride : ℚ) - 1) ≠ 0 := by
    have h2 : (2 : ℚ) ≤ (stride : ℚ) := by exact_mod_cast hs
    intro h0
    linarith
  simp only [render_each, GDouble.ofInt, GDouble.ofNat, GDouble.sub, GDouble.div]
  rw [if_neg hne]

theorem render_x_epoch_lt (area : GdkRectangle) : render_x_epoch area < 4294967296 := by
  simp only [render_x_epoch]
  have h1 : (area.x + area.width) % 4294967296 < 4294967296 :=
    Int.emod_lt_of_pos _ (by decide)
  have h0 : 0 ≤ (area.x + area.width) % 4294967296 := Int.emod_nonneg _ (by decide)
  omega

/-- The number `2^24 + 1` is not a `gfloat`: it lies half way between two floats
and goes to `2^24`. -/
theorem binary32_example_epoch : binary32 16777217 = GDouble.fin 16777216 := by
  have hx : (16777217 : ℚ) / (2 : ℚ) ^ (max (24 : ℤ) (-126) - (((24 : ℕ) : ℤ) - 1))
      = ((8388608 : ℤ) : ℚ) + 1 / 2 := by norm_num
  have := round_binary_of_binade 24 (-126) 127 16777217 24 8388608 (by norm_num)
    (by norm_num [abs_of_pos]) (by norm_num [abs_of_pos])
    (by rw [hx, round_half_even_tie]; decide)
    (by norm_num [abs_of_pos])
  rw [binary32, this]
  norm_num

/-- C18, counterexample: with the graph of stride 4 whose line holds 4 and 3, and
an area of width 0 and height 10 at the origin, both render functions draw: the
full render moves to `(0, 6)`, draws a curve and strokes, and so does the
incremental render. -/
theorem C18_counterexample :
    uber_line_graph_render (fun _ => 0) example_two_values
        { x := 0, y := 0, width := 0, height := 10 }
      = some [cairo_op.set_line_width (GDouble.fin 1),
          cairo_op.set_antialias cairo_antialias_t.CAIRO_ANTIALIAS_DEFAULT,
          cairo_op.set_source_color default_line_color,
          cairo_op.new_path,
          cairo_op.move_to (GDouble.fin 0) (GDouble.fin 6),
          cairo_op.curve_to (GDouble.fin 0) (GDouble.fin 6) (GDouble.fin 0) (GDouble.fin 7)
            (GDouble.fin 0) (GDouble.fin 7),
          cairo_op.stroke] ∧
    uber_line_graph_render_fast example_two_values
        { x := 0, y := 0, width := 0, height := 10 } 0
        (render_each { x := 0, y := 0, width := 0, height := 10 } 4)
      = some [cairo_op.set_line_width (GDouble.fin 1),
          cairo_op.set_line_cap_round,
          cairo_op.set_line_join_round,
          cairo_op.set_antialias cairo_antialias_t.CAIRO_ANTIALIAS_DEFAULT,
          cairo_op.set_source_color default_line_color,
          cairo_op.new_path,
          cairo_op.move_to (GDouble.fin 0) (GDouble.fin 6),
          cairo_op.curve_to (GDouble.fin 0) (GDouble.fin 6) (GDouble.fin 0) (GDouble.fin 7)
            (GDouble.fin 0) (GDouble.fin 7),
          cairo_op.stroke] := by
  constructor
  · with_unfolding_all rfl
  · with_unfolding_all rfl

/-- C18, amended: for every line of a reachable graph and every area of width
zero the render functions have no error to report and still draw.  The full
render computes `each = 0` when the stride is at least 2, puts one point on the
path for each valid sample and strokes exactly once.  The incremental render
does not look at the width: its calls are those for any area with the same `y`
and `height`, and with a stride of at least 2 it draws a segment exactly when
the two newest scaled values are finite. -/
theorem C18_zero_width_still_draws {g : UberLineGraph σ} {w : σ} (hr : Reachable g w)
    (undef : GDouble → Nat) (area : GdkRectangle) (hw : area.width = 0) (j : Nat)
    (line : LineInfo) (hl : g.priv.lines[j]? = some line) :
    (∃ ops, uber_line_graph_render_line undef g area line = some ops ∧
      count_strokes ops = 1 ∧
      count_points ops = (valid_front (g_ring_read line.raw_data)).length) ∧
    (2 ≤ g.priv.stride → render_each area g.priv.stride = GDouble.fin 0) ∧
    (∀ (epoch : Nat) (each : GDouble) (rect2 : GdkRectangle),
      rect2.y = area.y → rect2.height = area.height →
      uber_line_graph_render_fast_line area epoch each line
        = uber_line_graph_render_fast_line rect2 epoch each line) ∧
    (2 ≤ g.priv.stride → ∀ (epoch : Nat) (each : GDouble),
      ∃ y last_y ops, g_ring_get_index line.scaled_data 0 = some y ∧
        g_ring_get_index line.scaled_data 1 = some last_y ∧
        uber_line_graph_render_fast_line area epoch each line = some ops ∧
        (count_curves ops = 1 ↔ (is_finite y = true ∧ is_finite last_y = true))) := by
  obtain ⟨hwf, _, _⟩ := reachable_inv hr line (List.getElem?_mem hl)
  refine ⟨?_, ?_, ?_, ?_⟩
  · obtain ⟨ops, h1, h2, _, h4⟩ := count_render_line undef g area line hwf
    exact ⟨ops, h1, h4, h2⟩
  · intro hs
    rw [render_each_finite area _ hs, hw]
    simp
  · intro epoch each rect2 hy hh
    simp only [uber_line_graph_render_fast_line, render_fast_segment, RECT_BOTTOM, hy, hh]
  · intro hs epoch each
    obtain ⟨y, ly, hy, hly, _, _⟩ := reachable_reads_two hr hs line (List.getElem?_mem hl)
    refine ⟨y, ly, _, hy, hly, render_fast_line_eq area epoch each line y ly hy hly, ?_⟩
    have hseg := count_curves_render_fast_segment area epoch each y ly
    simp only [count_curves] at hseg ⊢
    cases hf : (is_finite y && is_finite ly)
    · have hnot : ¬ (is_finite y = true ∧ is_finite ly = true) := by
        intro hh
        simp [hh.1, hh.2] at hf
      simp [is_curve, hnot]
    · have hyes : is_finite y = true ∧ is_finite ly = true := by
        simpa using hf
      simp [is_curve, hseg.1, hyes]

/-- Witness for C18, amended: the graph of the counterexample; the full render
of its line puts two points on the path and strokes once. -/
theorem C18_zero_width_still_draws_witness :
    ∃ ops, uber_line_graph_render_line (fun _ => 0) example_two_values
        { x := 0, y := 0, width := 0, height := 10 } example_two_values_line = some ops ∧
      count_strokes ops = 1 ∧ count_points ops = 2 := by
  obtain ⟨⟨ops, h1, h2, h3⟩, _⟩ :=
    C18_zero_width_still_draws example_two_values_reachable (fun _ => 0)
      { x := 0, y := 0, width := 0, height := 10 } rfl 0 example_two_values_line rfl
  exact ⟨ops, h1, h2, h3.trans (by decide)⟩

/-! ## Redraw requests -/

/-- C19: `uber_line_graph_add_line` issues a full-redraw request on the graph: the
parent part afterwards is the former one with `uber_graph_redraw` applied, so a
full redraw is pending, and the graph that carries the request already holds the
new line as its last line. -/
theorem C19_add_line_requests_redraw (g : UberLineGraph σ) (color : Option GdkColor) :
    (uber_line_graph_add_line g color).1.parent = uber_graph_redraw g.parent ∧
    (uber_line_graph_add_line g color).1.parent.priv.full_redraw_pending = true ∧
    (uber_line_graph_add_line g color).1.priv.lines
      = g.priv.lines ++ [new_line_info g.priv.stride color] ∧
    (uber_line_graph_add_line g color).1.priv.lines[g.priv.lines.length]?
      = some (new_line_info g.priv.stride color) :=
  ⟨rfl, rfl, rfl, add_line_last g color⟩

/-- C20, counterexample: on a new graph with no redraw pending, neither setting
the stride to 8 nor switching autoscale on leaves a redraw request pending. -/
theorem C20_counterexample :
    (uber_line_graph_set_stride
      (uber_line_graph_init example_parent : UberLineGraph Unit) 8).parent.priv.full_redraw_pending
      = false ∧
    (uber_line_graph_set_autoscale
      (uber_line_graph_init example_parent : UberLineGraph Unit)
      true).parent.priv.full_redraw_pending = false := by
  decide

/-- C20, amended: `uber_line_graph_set_stride` and `uber_line_graph_set_autoscale`
do not issue a redraw request themselves: the parent part of the graph, and with
it the pending request, is after the call what it was before. -/
theorem C20_no_redraw_request (g : UberLineGraph σ) (stride : Nat) (autoscale : Bool) :
    (uber_line_graph_set_stride g stride).parent = g.parent ∧
    (uber_line_graph_set_autoscale g autoscale).parent = g.parent ∧
    (uber_line_graph_set_stride g stride).parent.priv.full_redraw_pending
      = g.parent.priv.full_redraw_pending ∧
    (uber_line_graph_set_autoscale g autoscale).parent.priv.full_redraw_pending
      = g.parent.priv.full_redraw_pending := by
  have h : (uber_line_graph_set_stride g stride).parent = g.parent := by
    simp only [uber_line_graph_set_stride]
    split <;> rfl
  exact ⟨h, rfl, by rw [h], rfl⟩

/-! ## Gaps in the samples and the teardown hook -/

/-- C16, the code at the failing input: with stride 4 and one line, after a tick
in which the source delivered 1 and a tick in which it failed, the raw ring reads
`-INFINITY, 1, -INFINITY, -INFINITY`: the newest entry is the sentinel and the
entry behind it is a valid sample. -/
theorem C16_gap_behind_sentinel :
    Reachable example_gap [] ∧
    (example_gap.priv.lines.map (fun line : LineInfo => g_ring_read line.raw_data))
      = [[some NEG_INFINITY, some (GDouble.fin 1), some NEG_INFINITY, some NEG_INFINITY]] := by
  constructor
  · exact sampling_ticks_reachable
      (Reachable.world [GDouble.fin 1] (Reachable.add_line none
        (Reachable.set_data_func (some scripted_source) 0 none
          (Reachable.set_stride 4 (Reachable.init example_parent []))))) 2
  · decide

/-- C17, the code at the failing input: two registrations with the user data 11
and 22, then the graph is finalized.  The hook has been run for 11, when it was
replaced, and never for 22. -/
theorem C17_last_context_not_released :
    example_teardown_log = [11] ∧ 22 ∉ example_teardown_log := by
  decide

/-! ## The coordinates of the full render -/

/-- The double converted to `x` in iteration `i ≤ stride - 1`, for an area with
non-negative `x` and `width`: it is finite and lies between `area.x` and
`area.x + area.width`. -/
theorem render_x_double_spec (area : GdkRectangle) (stride : Nat) (hs : 2 ≤ stride)
    (hx : 0 ≤ area.x) (hw : 0 ≤ area.width) (hsum : area.x + area.width < 4294967296)
    (i : Nat) (hi : i ≤ stride - 1) :
    GDouble.sub (GDouble.ofNat (render_x_epoch area))
        (GDouble.mul (render_each area stride) (GDouble.ofNat i))
      = GDouble.fin (((area.x + area.width : ℤ) : ℚ)
          - (area.width : ℚ) / ((stride : ℚ) - 1) * (i : ℚ)) ∧
    (area.x : ℚ) ≤ ((area.x + area.width : ℤ) : ℚ)
        - (area.width : ℚ) / ((stride : ℚ) - 1) * (i : ℚ) ∧
    ((area.x + area.width : ℤ) : ℚ) - (area.width : ℚ) / ((stride : ℚ) - 1) * (i : ℚ)
      ≤ ((area.x + area.width : ℤ) : ℚ) := by
  have hep := (render_x_epoch_of_range area (by omega) hsum).2
  have hs1 : (0 : ℚ) < (stride : ℚ) - 1 := by
    have h2 : (2 : ℚ) ≤ (stride : ℚ) := by exact_mod_cast hs
    linarith
  have hwq : (0 : ℚ) ≤ (area.width : ℚ) := by exact_mod_cast hw
  have hiq : (i : ℚ) ≤ (stride : ℚ) - 1 := by
    have h1 : (i : ℚ) ≤ ((stride - 1 : ℕ) : ℚ) := by exact_mod_cast hi
    have h2 : ((stride - 1 : ℕ) : ℚ) = (stride : ℚ) - 1 := by
      rw [Nat.cast_sub (by omega)]
      simp
    rw [h2] at h1
    exact h1
  have he0 : (0 : ℚ) ≤ (area.width : ℚ) / ((stride : ℚ) - 1) := div_nonneg hwq hs1.le
  have hi0 : (0 : ℚ) ≤ (i : ℚ) := Nat.cast_nonneg i
  have hmul : (area.width : ℚ) / ((stride : ℚ) - 1) * (i : ℚ) ≤ (area.width : ℚ) := by
    calc (area.width : ℚ) / ((stride : ℚ) - 1) * (i : ℚ)
        ≤ (area.width : ℚ) / ((stride : ℚ) - 1) * ((stride : ℚ) - 1) :=
          mul_le_mul_of_nonneg_left hiq he0
      _ = (area.width : ℚ) := div_mul_cancel₀ _ hs1.ne'
  refine ⟨?_, ?_, ?_⟩
  · rw [hep, render_each_finite area stride hs]
    simp only [GDouble.ofInt, GDouble.ofNat, GDouble.mul, GDouble.sub]
  · have hcast : ((area.x + area.width : ℤ) : ℚ) = (area.x : ℚ) + (area.width : ℚ) := by
      push_cast; ring
    rw [hcast]
    linarith
  · have hnn : (0 : ℚ) ≤ (area.width : ℚ) / ((stride : ℚ) - 1) * (i : ℚ) :=
      mul_nonneg he0 hi0
    linarith

theorem to_guint_of_range (undef : GDouble → Nat) (q : ℚ) (h0 : 0 ≤ q) (h1 : q < 4294967296) :
    to_guint undef (GDouble.fin q) = (Int.floor q).toNat ∧
    ((to_guint undef (GDouble.fin q) : ℕ) : ℤ) = Int.floor q := by
  have e : to_guint undef (GDouble.fin q) = (Int.floor q).toNat := by
    simp only [to_guint]
    rw [if_pos ⟨by linarith, h1⟩]
  refine ⟨e, ?_⟩
  rw [e]
  exact Int.toNat_of_nonneg (Int.floor_nonneg.mpr h0)

theorem render_line_x_floor (undef : GDouble → Nat) (area : GdkRectangle) (stride : Nat)
    (hs : 2 ≤ stride) (hx : 0 ≤ area.x) (hw : 0 ≤ area.width)
    (hsum : area.x + area.width < 4294967296) (i : Nat) (hi : i ≤ stride - 1) :
    ((render_line_x undef area stride i : ℕ) : ℤ)
      = Int.floor (((area.x + area.width : ℤ) : ℚ)
          - (area.width : ℚ) / ((stride : ℚ) - 1) * (i : ℚ)) := by
  obtain ⟨h1, h2, h3⟩ := render_x_double_spec area stride hs hx hw hsum i hi
  simp only [render_line_x]
  rw [h1]
  refine (to_guint_of_range undef _ ?_ ?_).2
  · have hxq : (0 : ℚ) ≤ (area.x : ℚ) := by exact_mod_cast hx
    linarith
  · have hb : ((area.x + area.width : ℤ) : ℚ) < 4294967296 := by exact_mod_cast hsum
    linarith

/-- The rounding of `29 / 7` to binary64. -/
theorem binary64_example_each :
    binary64 (29 / 7) = GDouble.fin (4664442471205157 / 1125899906842624) := by
  have := round_binary_of_binade 53 (-1022) 1023 (29 / 7) 2 4664442471205157 (by norm_num)
    (by norm_num [abs_of_pos]) (by norm_num [abs_of_pos])
    (by apply round_half_even_of_near <;> norm_num)
    (by norm_num [abs_of_pos])
  rw [binary64, this]
  norm_num

/-- The rounding to binary64 of seven times the rounded `29 / 7`: one unit in the
last place above 29. -/
theorem binary64_example_product :
    binary64 (4664442471205157 / 1125899906842624 * 7)
      = GDouble.fin (8162774324609025 / 281474976710656) := by
  have := round_binary_of_binade 53 (-1022) 1023 (4664442471205157 / 1125899906842624 * 7) 4
    8162774324609025 (by norm_num)
    (by norm_num [abs_of_pos]) (by norm_num [abs_of_pos])
    (by apply round_half_even_of_near <;> norm_num)
    (by norm_num [abs_of_pos])
  rw [binary64, this]
  norm_num

/-- With a width of 29 and a stride of 8, `each` is the rounding of `29 / 7`. -/
theorem render_each_rounded_example (x y height : Int) :
    render_each_rounded GDouble.to_binary32 GDouble.to_binary64
        { x := x, y := y, width := 29, height := height } 8
      = GDouble.fin (4664442471205157 / 1125899906842624) := by
  have h32 := to_binary32_natCast 8 (by norm_num)
  have hsub : GDouble.sub (GDouble.ofNat 8) (GDouble.fin 1) = GDouble.fin ((7 : ℤ) : ℚ) := by
    simp only [GDouble.sub, GDouble.ofNat]
    norm_num
  have h64 := to_binary64_intCast 7 (by norm_num)
  have hdiv : GDouble.div (GDouble.ofInt 29) (GDouble.fin ((7 : ℤ) : ℚ))
      = GDouble.fin (29 / 7) := by
    simp only [GDouble.div, GDouble.ofInt]
    rw [if_neg (by norm_num)]
    norm_num
  simp only [render_each_rounded]
  rw [h32, hsub, h64, hdiv]
  exact binary64_example_each

/-- With a width of 29 and a stride of 8, the double converted for `x` in
iteration 7 is `x_epoch - 29 - 2^-48`. -/
theorem render_line_x_double_example (x_epoch : Nat) (h : 29 ≤ x_epoch) (h1 : x_epoch ≤ 61) :
    render_line_x_double GDouble.to_binary64 x_epoch
        (GDouble.fin (4664442471205157 / 1125899906842624)) 7
      = GDouble.fin ((((x_epoch : ℤ) - 29) * 281474976710656 - 1 : ℤ) / 281474976710656) := by
  have hm : GDouble.mul (GDouble.fin (4664442471205157 / 1125899906842624)) (GDouble.ofNat 7)
      = GDouble.fin (4664442471205157 / 1125899906842624 * 7) := by
    simp only [GDouble.mul, GDouble.ofNat]
    norm_num
  have hsub : GDouble.sub (GDouble.ofNat x_epoch)
        (GDouble.fin (8162774324609025 / 281474976710656))
      = GDouble.fin (((((x_epoch : ℤ) - 29) * 281474976710656 - 1 : ℤ) : ℚ)
          * (2 : ℚ) ^ (-48 : ℤ)) := by
    simp only [GDouble.sub, GDouble.ofNat]
    congr 1
    push_cast
    norm_num
    ring
  have hexact := round_binary_exact 53 (-1022) 1023
    (((x_epoch : ℤ) - 29) * 281474976710656 - 1) (-48)
    (by
      have hb : |(((x_epoch : ℤ) - 29) * 281474976710656 - 1 : ℤ)| < 9007199254740992 := by
        rw [abs_lt]
        constructor <;> omega
      have hq : (((|(((x_epoch : ℤ) - 29) * 281474976710656 - 1 : ℤ)| : ℤ)) : ℚ)
          < 9007199254740992 := by exact_mod_cast hb
      rw [Int.cast_abs] at hq
      norm_num
      exact_mod_cast hq)
    (by norm_num)
    (by
      have hb : |(((x_epoch : ℤ) - 29) * 281474976710656 - 1 : ℤ)|
          < 1208925819614629174706176 := by
        rw [abs_lt]
        constructor <;> omega
      have hq : (((|(((x_epoch : ℤ) - 29) * 281474976710656 - 1 : ℤ)| : ℤ)) : ℚ)
          < 1208925819614629174706176 := by exact_mod_cast hb
      rw [Int.cast_abs] at hq
      rw [abs_mul, abs_of_pos (zpow_pos (by norm_num : (0 : ℚ) < 2) (-48))]
      have h2 : (2 : ℚ) ^ (-48 : ℤ) ≤ 1 := by norm_num
      have h3 : (1208925819614629174706176 : ℚ) < (2 : ℚ) ^ ((1023 : ℤ) + 1) := by
        have : (1208925819614629174706176 : ℚ) = (2 : ℚ) ^ (80 : ℤ) := by norm_num
        rw [this]
        exact zpow_lt_zpow_right₀ (by norm_num) (by norm_num)
      calc |((((x_epoch : ℤ) - 29) * 281474976710656 - 1 : ℤ) : ℚ)| * (2 : ℚ) ^ (-48 : ℤ)
          ≤ |((((x_epoch : ℤ) - 29) * 281474976710656 - 1 : ℤ) : ℚ)| * 1 :=
            mul_le_mul_of_nonneg_left h2 (abs_nonneg _)
        _ < (2 : ℚ) ^ ((1023 : ℤ) + 1) := by rw [mul_one]; exact lt_trans hq h3)
  simp only [render_line_x_double]
  rw [hm, to_binary64_fin, binary64_example_product, hsub, to_binary64_fin, binary64, hexact]
  congr 1
  norm_num
  ring

/-- With a stride of `2^24 + 1` the cast to `gfloat` gives `2^24`, so that
`each` is `area.width / (2^24 - 1)`: for a width of 33554430 it is 2. -/
theorem render_each_rounded_example_cast (x y height : Int) :
    render_each_rounded GDouble.to_binary32 GDouble.to_binary64
        { x := x, y := y, width := 33554430, height := height } 16777217
      = GDouble.fin ((2 : ℤ) : ℚ) := by
  have h32 : GDouble.to_binary32 (GDouble.ofNat 16777217) = GDouble.fin 16777216 := by
    simp only [GDouble.ofNat, to_binary32_fin]
    norm_num
    exact binary32_example_epoch
  have hsub : GDouble.sub (GDouble.fin 16777216) (GDouble.fin 1)
      = GDouble.fin ((16777215 : ℤ) : ℚ) := by
    simp only [GDouble.sub]
    norm_num
  have h64 := to_binary64_intCast 16777215 (by norm_num)
  have hdiv : GDouble.div (GDouble.ofInt 33554430) (GDouble.fin ((16777215 : ℤ) : ℚ))
      = GDouble.fin ((2 : ℤ) : ℚ) := by
    simp only [GDouble.div, GDouble.ofInt]
    rw [if_neg (by norm_num)]
    norm_num
  rw [render_each_rounded, h32, hsub, h64, hdiv]
  exact to_binary64_intCast 2 (by norm_num)

/-- C22, counterexample, at three inputs.  With an area of width 3 whose left
edge is at x = -5 and a stride of 4, the unsigned `x_epoch` is `2^32 - 2` and the
newest point is put at x = 4294967294, not at `area.x + area.width = -2`.  With
an area of width 29 whose left edge is at x = 10 and a stride of 8, `each` is the
rounding of `29 / 7`, seven times `each` rounds to `29 + 2^-48`, and the oldest
point, `i = 7`, is put at x = 9, to the left of `area.x = 10`.  With an area of
width 33554430 whose left edge is at x = 10 and a stride of `2^24 + 1`, the cast
of the stride to `gfloat` gives `2^24`, `each` is 2 instead of
`33554430 / 2^24`, and the oldest point, `i = 2^24`, is put at x = 8. -/
theorem C22_counterexample :
    render_line_x_rounded GDouble.to_binary32 GDouble.to_binary64 (fun _ => 0)
        { x := -5, y := 0, width := 3, height := 10 } 4 0 = 4294967294 ∧
    ((render_line_x_rounded GDouble.to_binary32 GDouble.to_binary64 (fun _ => 0)
        { x := -5, y := 0, width := 3, height := 10 } 4 0 : ℕ) : ℤ) ≠ (-5 : ℤ) + 3 ∧
    render_line_x_rounded GDouble.to_binary32 GDouble.to_binary64 (fun _ => 0)
        { x := 10, y := 0, width := 29, height := 10 } 8 7 = 9 ∧
    ¬ ((10 : ℤ) ≤ ((render_line_x_rounded GDouble.to_binary32 GDouble.to_binary64 (fun _ => 0)
        { x := 10, y := 0, width := 29, height := 10 } 8 7 : ℕ) : ℤ)) ∧
    render_line_x_rounded GDouble.to_binary32 GDouble.to_binary64 (fun _ => 0)
        { x := 10, y := 0, width := 33554430, height := 10 } 16777217 16777216 = 8 ∧
    ¬ ((10 : ℤ) ≤ ((render_line_x_rounded GDouble.to_binary32 GDouble.to_binary64 (fun _ => 0)
        { x := 10, y := 0, width := 33554430, height := 10 } 16777217 16777216 : ℕ) : ℤ)) := by
  have h1 : render_line_x_rounded GDouble.to_binary32 GDouble.to_binary64 (fun _ => 0)
      { x := -5, y := 0, width := 3, height := 10 } 4 0 = 4294967294 := by
    have he := render_each_rounded_exact { x := -5, y := 0, width := 3, height := 10 } 4 1
      (by norm_num) (by norm_num) (by norm_num) (by norm_num)
    have hep : render_x_epoch { x := -5, y := 0, width := 3, height := 10 } = 4294967294 := by
      decide
    simp only [render_line_x_rounded]
    rw [he, hep, render_line_x_double_zero _ _ (by norm_num)]
    simp only [to_guint, GDouble.ofNat]
    rw [if_pos (by norm_num)]
    norm_num
    rfl
  have h2 : render_line_x_rounded GDouble.to_binary32 GDouble.to_binary64 (fun _ => 0)
      { x := 10, y := 0, width := 29, height := 10 } 8 7 = 9 := by
    have hep : render_x_epoch { x := 10, y := 0, width := 29, height := 10 } = 39 := by
      decide
    simp only [render_line_x_rounded]
    rw [render_each_rounded_example, hep,
      render_line_x_double_example 39 (by norm_num) (by norm_num)]
    simp only [to_guint]
    rw [if_pos (by norm_num)]
    have hf : Int.floor ((((((39 : ℕ) : ℤ) - 29) * 281474976710656 - 1 : ℤ) : ℚ)
        / 281474976710656) = 9 := by
      rw [Int.floor_eq_iff]
      norm_num
    rw [hf]
    rfl
  have h3 : render_line_x_rounded GDouble.to_binary32 GDouble.to_binary64 (fun _ => 0)
      { x := 10, y := 0, width := 33554430, height := 10 } 16777217 16777216 = 8 := by
    have hep : render_x_epoch { x := 10, y := 0, width := 33554430, height := 10 }
        = 33554440 := by
      decide
    have hxd := render_line_x_double_exact 33554440 2 16777216 (by norm_num) (by norm_num)
    have hto := to_guint_intCast (fun _ => 0)
      (((33554440 : ℕ) : ℤ) - 2 * ((16777216 : ℕ) : ℤ)) (by norm_num) (by norm_num)
    simp only [render_line_x_rounded]
    rw [render_each_rounded_example_cast, hep, hxd]
    omega
  refine ⟨h1, ?_, h2, ?_, h3, ?_⟩
  · rw [h1]
    decide
  · rw [h2]
    decide
  · rw [h3]
    decide

/-- When the stride is at most `2^24` and `area.width` is `stride - 1` times the
whole number `k`, the value stored in `x` in iteration `i ≤ stride - 1` is
`area.x + area.width - k * i`. -/
theorem render_line_x_rounded_exact (undef : GDouble → Nat) (area : GdkRectangle)
    (stride : Nat) (hs : 2 ≤ stride) (hs24 : stride ≤ 16777216) (hx : 0 ≤ area.x)
    (hw : 0 ≤ area.width) (hsum : area.x + area.width < 4294967296) (k : ℤ)
    (hk : area.width = ((stride : ℤ) - 1) * k) (i : Nat) (hi : i ≤ stride - 1) :
    ((render_line_x_rounded GDouble.to_binary32 GDouble.to_binary64 undef area stride i : ℕ)
        : ℤ) = area.x + area.width - k * (i : ℤ) ∧
    0 ≤ k * (i : ℤ) ∧ k * (i : ℤ) ≤ area.width := by
  have hep := render_x_epoch_of_range area (by omega) hsum
  have hepz : ((render_x_epoch area : ℕ) : ℤ) = area.x + area.width := by
    rw [hep.1]
    exact Int.toNat_of_nonneg (by omega)
  have hs1 : 0 < (stride : ℤ) - 1 := by omega
  have hk0 : 0 ≤ k := by
    by_contra hneg
    have : ((stride : ℤ) - 1) * k < 0 := Int.mul_neg_of_pos_of_neg hs1 (by omega)
    omega
  have hkw : k ≤ area.width := by
    have : 1 * k ≤ ((stride : ℤ) - 1) * k := Int.mul_le_mul_of_nonneg_right (by omega) hk0
    omega
  have h1 : k * (i : ℤ) ≤ area.width := by
    have h1 : (i : ℤ) ≤ (stride : ℤ) - 1 := by omega
    have h2 : k * (i : ℤ) ≤ k * ((stride : ℤ) - 1) := Int.mul_le_mul_of_nonneg_left h1 hk0
    rw [hk, mul_comm ((stride : ℤ) - 1) k]
    exact h2
  have h0 : 0 ≤ k * (i : ℤ) := Int.mul_nonneg hk0 (by omega)
  have he := render_each_rounded_exact area stride k hs hs24 hk
    (by rw [abs_of_nonneg hk0]; omega)
  refine ⟨?_, h0, h1⟩
  simp only [render_line_x_rounded]
  rw [he, render_line_x_double_exact _ k i (by rw [abs_of_nonneg h0]; omega)
    (by rw [abs_of_nonneg (by omega)]; omega),
    to_guint_intCast undef _ (by omega) (by omega), hepz]

/-- C22, amended: for every area with `area.x ≥ 0`, `area.width ≥ 0` and
`area.x + area.width < 2^32`, and every stride with `2 ≤ stride < 2^32`, the
newest point (`i = 0`) of `uber_line_graph_render_line` is stored at
`x = area.x + area.width`.  If the stride is at most `2^24`, then `x(i)` does not
increase with `i` up to `i = stride - 1`, and for every `i ≤ stride - 1` it
misses the area by one pixel at most: `area.x - 1 ≤ x(i) ≤ area.x + area.width`.
If moreover `area.width` is a multiple of `stride - 1`, then `each` is a whole
number, no operation rounds, `x(i)` is
`area.x + area.width - area.width / (stride - 1) * i`, the value that exact
arithmetic gives, and it stays inside the area, `area.x ≤ x(i)`. -/
theorem C22_x_within_area (undef : GDouble → Nat) (area : GdkRectangle) (stride : Nat)
    (hs : 2 ≤ stride) (hs32 : stride < 4294967296) (hx : 0 ≤ area.x) (hw : 0 ≤ area.width)
    (hsum : area.x + area.width < 4294967296) :
    ((render_line_x_rounded GDouble.to_binary32 GDouble.to_binary64 undef area stride 0 : ℕ)
        : ℤ) = area.x + area.width ∧
    (stride ≤ 16777216 →
      (∀ i j : Nat, i ≤ j → j ≤ stride - 1 →
        render_line_x_rounded GDouble.to_binary32 GDouble.to_binary64 undef area stride j
          ≤ render_line_x_rounded GDouble.to_binary32 GDouble.to_binary64 undef area stride i) ∧
      (∀ i : Nat, i ≤ stride - 1 →
        area.x - 1 ≤ ((render_line_x_rounded GDouble.to_binary32 GDouble.to_binary64 undef
            area stride i : ℕ) : ℤ) ∧
        ((render_line_x_rounded GDouble.to_binary32 GDouble.to_binary64 undef area stride i
            : ℕ) : ℤ) ≤ area.x + area.width) ∧
      (((stride : ℤ) - 1) ∣ area.width →
        ∀ i : Nat, i ≤ stride - 1 →
          ((render_line_x_rounded GDouble.to_binary32 GDouble.to_binary64 undef area stride i
              : ℕ) : ℤ)
            = area.x + area.width - area.width / ((stride : ℤ) - 1) * (i : ℤ) ∧
          area.x ≤ ((render_line_x_rounded GDouble.to_binary32 GDouble.to_binary64 undef area
              stride i : ℕ) : ℤ) ∧
          render_line_x_rounded GDouble.to_binary32 GDouble.to_binary64 undef area stride i
            = render_line_x undef area stride i)) := by
  have hep := render_x_epoch_of_range area (by omega) hsum
  have hepz : ((render_x_epoch area : ℕ) : ℤ) = area.x + area.width := by
    rw [hep.1]
    exact Int.toNat_of_nonneg (by omega)
  have hepl := render_x_epoch_lt area
  refine ⟨?_, ?_⟩
  · obtain ⟨r, hr, _⟩ := render_each_rounded_finite area stride hs hs32 hw (by omega)
    simp only [render_line_x_rounded]
    rw [hr, render_line_x_double_zero _ _ (by omega)]
    have := to_guint_intCast undef (render_x_epoch area) (by omega) (by omega)
    rw [Int.cast_natCast] at this
    simp only [GDouble.ofNat]
    rw [this, hepz]
  · intro hs24
    obtain ⟨e1, he1, he0, hed, hnorm⟩ :=
      render_each_rounded_bound area stride hs hs24 hw (by omega)
    have hdq : ∀ i : Nat, i ≤ stride - 1 → (i : ℚ) ≤ (stride : ℚ) - 1 := by
      intro i hi
      have h1 : ((i : ℤ) : ℚ) ≤ (((stride : ℤ) - 1 : ℤ) : ℚ) := by
        have : (i : ℤ) ≤ (stride : ℤ) - 1 := by omega
        exact_mod_cast this
      push_cast at h1
      exact h1
    refine ⟨?_, ?_, ?_⟩
    · intro i j hij hj
      simp only [render_line_x_rounded]
      rw [he1]
      exact render_line_x_double_mono undef (render_x_epoch area) e1 ((stride : ℚ) - 1)
        area.width i j he0 hed hnorm hw (by omega) hepl hij (hdq j hj)
    · intro i hi
      obtain ⟨r, hr, hr1, hr2, hr3⟩ := render_line_x_double_bound (render_x_epoch area) e1
        ((stride : ℚ) - 1) area.width i he0 hed hnorm hw (by omega) hepl (hdq i hi)
      have hxq1 : ((render_x_epoch area : ℕ) : ℚ) + 1 ≤ 4294967296 := by
        have : render_x_epoch area + 1 ≤ 4294967296 := by omega
        exact_mod_cast this
      simp only [render_line_x_rounded]
      rw [he1, hr, to_guint_of_range_floor undef r hr1 (by linarith)]
      have hfl1 : (render_x_epoch area : ℤ) - area.width - 1 ≤ Int.floor r :=
        Int.le_floor.mpr hr3
      have hfl2 : Int.floor r < (render_x_epoch area : ℤ) + 1 := by
        rw [Int.floor_lt]
        push_cast
        exact hr2
      have hto : ((Int.floor r).toNat : ℤ) = max (Int.floor r) 0 := Int.toNat_eq_max _
      rw [hto]
      constructor
      · have : area.x - 1 ≤ Int.floor r := by omega
        exact le_trans this (le_max_left _ _)
      · exact max_le (by omega) (by omega)
    · intro hdiv i hi
      obtain ⟨k, hk⟩ := hdiv
      have hs0 : ((stride : ℤ) - 1) ≠ 0 := by omega
      have hz : area.width / ((stride : ℤ) - 1) = k := by
        rw [hk]
        exact Int.mul_ediv_cancel_left k hs0
      obtain ⟨hform, h0, h1⟩ :=
        render_line_x_rounded_exact undef area stride hs hs24 hx hw hsum k hk i hi
      refine ⟨by rw [hform, hz], by omega, ?_⟩
      have hfl := render_line_x_floor undef area stride hs hx hw hsum i hi
      have hq : (area.width : ℚ) / ((stride : ℚ) - 1) = (k : ℚ) := by
        have hne : ((stride : ℚ) - 1) ≠ 0 := by
          have : (((stride : ℤ) - 1 : ℤ) : ℚ) ≠ 0 := by exact_mod_cast hs0
          push_cast at this
          exact this
        rw [hk]
        push_cast
        field_simp
      have hcast : ((area.x + area.width : ℤ) : ℚ) - (k : ℚ) * (i : ℚ)
          = ((area.x + area.width - k * (i : ℤ) : ℤ) : ℚ) := by
        push_cast
        ring
      rw [hq, hcast, Int.floor_intCast] at hfl
      have : ((render_line_x_rounded GDouble.to_binary32 GDouble.to_binary64 undef area stride i
            : ℕ) : ℤ) = ((render_line_x undef area stride i : ℕ) : ℤ) := by
        rw [hform, hfl]
      exact_mod_cast this

/-- Witness for C22, amended: an area of width 6 with its left edge at x = 2 and
a stride of 4, so that `each = 2`; the newest point is at x = 8 and the oldest
one, `i = 3`, is at x = 2, between 2 and 8. -/
theorem C22_x_within_area_witness :
    ((render_line_x_rounded GDouble.to_binary32 GDouble.to_binary64 (fun _ => 0)
        { x := 2, y := 0, width := 6, height := 10 } 4 0 : ℕ) : ℤ) = 2 + 6 ∧
    ((render_line_x_rounded GDouble.to_binary32 GDouble.to_binary64 (fun _ => 0)
        { x := 2, y := 0, width := 6, height := 10 } 4 3 : ℕ) : ℤ)
      = 2 + 6 - 6 / (((4 : ℕ) : ℤ) - 1) * ((3 : ℕ) : ℤ) ∧
    (2 : ℤ) ≤ ((render_line_x_rounded GDouble.to_binary32 GDouble.to_binary64 (fun _ => 0)
        { x := 2, y := 0, width := 6, height := 10 } 4 3 : ℕ) : ℤ) ∧
    ((render_line_x_rounded GDouble.to_binary32 GDouble.to_binary64 (fun _ => 0)
        { x := 2, y := 0, width := 6, height := 10 } 4 3 : ℕ) : ℤ) ≤ 2 + 6 :=
  have h := C22_x_within_area (fun _ => 0) { x := 2, y := 0, width := 6, height := 10 } 4
    (by decide) (by decide) (by decide) (by decide) (by decide)
  have h2 := h.2 (by decide)
  have h3 := h2.2.2 ⟨2, by decide⟩ 3 (by decide)
  ⟨h.1, h3.1, h3.2.1, (h2.2.1 3 (by decide)).2⟩

theorem loop_ret (func : UberLineGraphFunc σ) (d : gpointer) :
    ∀ (lines : List LineInfo) (i : Nat) (ret : Bool) (w : σ),
      (uber_line_graph_get_next_data_loop func d i lines ret w).1.2
        = match lines.length with
          | 0 => ret
          | n + 1 => (func (i + n + 1) (GDouble.fin 0) d (world_before func d i n w)).1.1 := by
  intro lines
  induction lines with
  | nil => intro i ret w; rfl
  | cons line rest ih =>
    intro i ret w
    simp only [uber_line_graph_get_next_data_loop, List.length_cons, ih]
    cases hrest : rest.length with
    | zero => simp [world_before]
    | succ m =>
      simp only [world_before]
      have he : i + 1 + m + 1 = i + (m + 1) + 1 := by omega
      rw [he]

/-- C24: `uber_line_graph_get_next_data` returns `FALSE` when no value source is
registered and when the graph has no lines; otherwise it returns the flag that
the source returned for the last line, line `n`, whatever it returned for the
lines before. -/
theorem C24_tick_returns_last_flag (g : UberLineGraph σ) (w : σ) :
    (g.priv.func = none → (uber_line_graph_get_next_data g w).1.2 = false) ∧
    (g.priv.lines = [] → (uber_line_graph_get_next_data g w).1.2 = false) ∧
    (∀ func : UberLineGraphFunc σ, g.priv.func = some func → g.priv.lines ≠ [] →
      (uber_line_graph_get_next_data g w).1.2
        = (source_result func g.priv.func_data (g.priv.lines.length - 1) w).1) := by
  refine ⟨?_, ?_, ?_⟩
  · intro hf
    simp only [uber_line_graph_get_next_data, hf]
  · intro hl
    cases hf : g.priv.func with
    | none => simp only [uber_line_graph_get_next_data, hf]
    | some func => simp only [uber_line_graph_get_next_data, hf, hl,
        uber_line_graph_get_next_data_loop]
  · intro func hf hl
    simp only [uber_line_graph_get_next_data, hf, loop_ret, source_result]
    cases hn : g.priv.lines.length with
    | zero => exact absurd (List.length_eq_zero.mp hn) hl
    | succ n => simp

/-- Witness for C24: three lines and the source that fails for line 2 only; the
tick returns `TRUE`, the flag for line 3.  On the graph without a source it
returns `FALSE`. -/
theorem C24_tick_returns_last_flag_witness :
    (uber_line_graph_get_next_data example_three ()).1.2 = true ∧
    (uber_line_graph_get_next_data example_unregistered ()).1.2 = false :=
  ⟨(C24_tick_returns_last_flag example_three ()).2.2 fails_for_two rfl (by decide),
   (C24_tick_returns_last_flag example_unregistered ()).1 rfl⟩

/-- C25: when no value source is registered, `uber_line_graph_get_next_data`
changes nothing: the graph, and with it the raw and the scaled ring of every
line, and the world are after the tick what they were before, and the flag
returned is `FALSE`. -/
theorem C25_tick_without_source (g : UberLineGraph σ) (w : σ) (hf : g.priv.func = none) :
    uber_line_graph_get_next_data g w = ((g, false), w) ∧
    (uber_line_graph_get_next_data g w).1.1.priv.lines = g.priv.lines ∧
    (∀ (j : Nat) (line : LineInfo), g.priv.lines[j]? = some line →
      ∃ line1, (uber_line_graph_get_next_data g w).1.1.priv.lines[j]? = some line1 ∧
        line1.raw_data = line.raw_data ∧ line1.scaled_data = line.scaled_data ∧
        g_ring_read line1.raw_data = g_ring_read line.raw_data ∧
        g_ring_read line1.scaled_data = g_ring_read line.scaled_data) := by
  have he : uber_line_graph_get_next_data g w = ((g, false), w) := by
    simp only [uber_line_graph_get_next_data, hf]
  refine ⟨he, by rw [he], ?_⟩
  intro j line hl
  rw [he]
  exact ⟨line, hl, rfl, rfl, rfl, rfl⟩

/-- Witness for C25: the graph of stride 4 with one line and no source. -/
theorem C25_tick_without_source_witness :
    uber_line_graph_get_next_data example_unregistered ()
      = ((example_unregistered, false), ()) ∧
    (uber_line_graph_get_next_data example_unregistered ()).1.1.priv.lines
      = example_unregistered.priv.lines :=
  ⟨(C25_tick_without_source example_unregistered () rfl).1,
   (C25_tick_without_source example_unregistered () rfl).2.1⟩

/-! ## The list of outstanding I/O -/

theorem io_list_len_loop_eq (l : io_list) : ∀ i : Nat, io_list_len_loop i l = i + l.length := by
  induction l with
  | nil => intro i; rfl
  | cons p rest ih =>
    intro i
    simp only [io_list_len_loop, ih, List.length_cons]
    omega

theorem io_list_len_eq (l : io_list) : io_list_len l = l.length := by
  simp [io_list_len, io_list_len_loop_eq]

theorem find_io_found (t : blk_io_trace) (before : io_list) :
    ∀ (p : blk_io_trace) (after : io_list),
      (∀ q ∈ before, q.sector ≠ t.sector) → p.sector = t.sector →
      find_io t (before ++ p :: after) = (some p, before ++ after) := by
  induction before with
  | nil =>
    intro p after _ hp
    simp [find_io, hp]
  | cons b rest ih =>
    intro p after hne hp
    have hb : b.sector ≠ t.sector := hne b (List.mem_cons_self _ _)
    have hrest := ih p after (fun q hq => hne q (List.mem_cons_of_mem _ hq)) hp
    simp [find_io, hb, hrest]

theorem find_io_absent (t : blk_io_trace) (l : io_list) (hne : ∀ q ∈ l, q.sector ≠ t.sector) :
    find_io t l = (none, l) := by
  induction l with
  | nil => rfl
  | cons b rest ih =>
    have hb : b.sector ≠ t.sector := hne b (List.mem_cons_self _ _)
    have hrest := ih (fun q hq => hne q (List.mem_cons_of_mem _ hq))
    simp [find_io, hb, hrest]

/-- C26: if the entry `p` is the first one of the list with the sector of `t`,
`find_io(t)` returns `p` and removes exactly that entry: the entries before and
after it stay in their order and `io_list_len` goes down by one.  If no entry
has that sector, `find_io(t)` returns null and the list is unchanged.  And
`find_io(t)` right after `stash_io(t)` returns a copy of `t` and leaves the list
as it was before the two calls. -/
theorem C26_find_io_removes_first_match (t : blk_io_trace) (iolist : io_list) :
    (∀ (before : io_list) (p : blk_io_trace) (after : io_list),
      iolist = before ++ p :: after → (∀ q ∈ before, q.sector ≠ t.sector) →
      p.sector = t.sector →
      find_io t iolist = (some p, before ++ after) ∧
      io_list_len (find_io t iolist).2 + 1 = io_list_len iolist) ∧
    ((∀ q ∈ iolist, q.sector ≠ t.sector) → find_io t iolist = (none, iolist)) ∧
    find_io t (stash_io t iolist) = (some t, iolist) ∧
    io_list_len (stash_io t iolist) = io_list_len iolist + 1 := by
  refine ⟨?_, find_io_absent t iolist, ?_, ?_⟩
  · intro before p after hl hne hp
    subst hl
    have h := find_io_found t before p after hne hp
    refine ⟨h, ?_⟩
    rw [h, io_list_len_eq, io_list_len_eq]
    simp
    omega
  · simp [stash_io, find_io]
  · simp [stash_io, io_list_len_eq]

/-- Witness for C26: the list holds traces for the sectors 7, 9, 7 (sequence
numbers 1, 2, 3); looking up sector 9 returns trace 2 and leaves traces 1 and 3
in their order. -/
theorem C26_find_io_removes_first_match_witness :
    find_io (example_trace 0 9) [example_trace 1 7, example_trace 2 9, example_trace 3 7]
      = (some (example_trace 2 9), [example_trace 1 7, example_trace 3 7]) ∧
    io_list_len (find_io (example_trace 0 9)
      [example_trace 1 7, example_trace 2 9, example_trace 3 7]).2 + 1
      = io_list_len [example_trace 1 7, example_trace 2 9, example_trace 3 7] :=
  (C26_find_io_removes_first_match (example_trace 0 9)
    [example_trace 1 7, example_trace 2 9, example_trace 3 7]).1
    [example_trace 1 7] (example_trace 2 9) [example_trace 3 7] rfl (by decide) rfl

end Claims

end Uber
